import Mathlib

/-!
# A shallow embedding of the `mm.c` allocator

This file models the boundary-tag allocator of `src/mm.c` (CSAPP-style
explicit-free-list allocator: `mm_init`, `mm_malloc`, `mm_free`, and the
helpers `coalesce`, `allocate`, `find_free_block`, `extend`, `try_unmap`,
`add_free`, `del_free`) and proves the specification claims about it.

Modelling conventions:

* A machine word is 8 bytes; headers and footers are one word.  Tag words
  (`size | alloc_bit`) are natural numbers; `size_t` additions that can wrap
  are taken modulo `2 ^ 64` exactly where the C source computes in `size_t`
  (this matters for `ALIGN(size + OVERHEAD)` in `mm_malloc`).  The C `int`
  size variables are modelled exactly for the LP64 platform the code
  targets: storing a `size_t` expression into `int newsize` (`mm_malloc`)
  or `int reqsize` (`extend`) keeps the low 32 bits read as two's
  complement (`toInt32`), and passing an `int` back where a `size_t` is
  expected sign-extends (`toSizeT`).  Signed `int` overflow in
  `map_multiplier * pagesize` (undefined behaviour in C) is modelled as the
  same two's-complement wrap, which is what the target compilers emit.
  The reachable-state predicate `Reach` consequently constrains requests to
  `r + 31 < 2 ^ 30` and page sizes to at most `2 ^ 25`, the range on which
  none of these conversions truncates.
* Memory is modelled per page chunk as the list of its blocks in address
  order.  `blocks[0]` is the sentinel block (header at byte offset 8 of the
  chunk, payload at offset 16); the terminator is the single header word
  `termHdr` that sits in the last word of the chunk.  Each block stores its
  header word and footer word separately, exactly as the code writes them.
  Byte addresses of block payloads are recovered from the chunk base and the
  header size fields (`payloadAddr`), mirroring the pointer arithmetic of the
  `HDRP`/`FTRP`/`NEXT_BLKP`/`PREV_BLKP` macros.  Neighbour lookups through
  boundary tags (`PREV_BLKP` reads the previous block's footer, `NEXT_BLKP`
  the current header) are rendered as list adjacency; the two coincide
  exactly when the header-equals-footer invariant proved below holds.
* The explicit free list stores payload addresses; `add_free` pushes at the
  head and `del_free` unlinks a node, exactly the effect of the pointer
  surgery in the source.
* The OS pager (`mem_map` / `mem_unmap` from `memlib`) is part of the state:
  fresh mappings are carved from `nextBase` going up, a request succeeds iff
  it is at most `mapCap` bytes, and the arguments of every pager call are
  recorded in `mapLog` / `unmapLog` so that theorems can speak about what was
  requested.  `mem_unmap` removes the matching chunk; if the supplied base
  and size match no live mapping (a pager-contract violation) it sets
  `pagerErr` and removes nothing.
-/

/-- `ALIGNMENT` from mm.c: all block sizes and payload addresses are
16-byte aligned. -/
abbrev ALIGNMENT : Nat := 16

/-- `sizeof(header) = sizeof(footer) = sizeof(size_t)` = 8 bytes. -/
abbrev WORD : Nat := 8

/-- `OVERHEAD` from mm.c: header plus footer. -/
abbrev OVERHEAD : Nat := WORD + WORD

/-- `MIN_BLOCK_SIZE` from mm.c: overhead plus one alignment unit. -/
abbrev MIN_BLOCK_SIZE : Nat := OVERHEAD + ALIGNMENT

/-- `PAGE_PAD` from mm.c: padding at the start of a chunk. -/
abbrev PAGE_PAD : Nat := 8

/-- `PAGE_OVERHEAD` from mm.c: pad + sentinel + terminator. -/
abbrev PAGE_OVERHEAD : Nat := PAGE_PAD + OVERHEAD + WORD

/-- `MAX_PAGE_PER_MAP` from mm.c. -/
abbrev MAX_PAGE_PER_MAP : Nat := 32

/-- `2 ^ 64`: the modulus of `size_t` arithmetic. -/
abbrev SIZE_MOD : Nat := 2 ^ 64

/-- `ALIGN(size)` from mm.c: `((size) + 15) & ~15` computed in `size_t`.
Adding 15 may wrap modulo `2 ^ 64`; clearing the low four bits of a value
below `2 ^ 64` is division and multiplication by 16. -/
def ALIGN (size : Nat) : Nat := (size + (ALIGNMENT - 1)) % SIZE_MOD / 16 * 16

/-- `PAGE_ALIGN(size)` from mm.c: round up to a multiple of the page size.
The macro masks with `~(pagesize-1)`, which is round-up division for the
power-of-two page sizes the pager contract guarantees. -/
def PAGE_ALIGN (pagesize size : Nat) : Nat :=
  (size + (pagesize - 1)) / pagesize * pagesize

/-- The value a C `int` holds after a `size_t` expression is stored into it
on the LP64 platform mm.c targets: the low 32 bits read as two's
complement (`gcc`/`clang` narrowing behaviour). -/
def toInt32 (n : Nat) : Int :=
  if n % 2 ^ 32 < 2 ^ 31 then ((n % 2 ^ 32 : Nat) : Int)
  else ((n % 2 ^ 32 : Nat) : Int) - ((2 ^ 32 : Nat) : Int)

/-- The `size_t` value a C `int` converts to when passed where a `size_t`
is expected: sign extension, i.e. the value modulo `2 ^ 64`. -/
def toSizeT (i : Int) : Nat := (i % ((2 ^ 64 : Nat) : Int)).toNat

/-- `PACK(size, alloc)` from mm.c. -/
def PACK (size alloc : Nat) : Nat := size ||| alloc

/-- `GET_ALLOC(p)` from mm.c: low bit of a tag word. -/
def GET_ALLOC (w : Nat) : Nat := w % 2

/-- `GET_SIZE(p)` from mm.c: tag word with the low four bits cleared. -/
def GET_SIZE (w : Nat) : Nat := w / 16 * 16

/-- A block as laid out in memory: its header word and its footer word.
(The payload bytes in between are either client data or the free-list node
and are not tracked; the free list is tracked separately by address.) -/
structure Block where
  hdr : Nat
  ftr : Nat
deriving DecidableEq, Repr

/-- One mapped page chunk.  `blocks[0]` is the sentinel (header at byte
`base + 8`, payload at `base + 16`); `termHdr` is the terminator header word
occupying the last word of the chunk (`base + csize - 8`). -/
structure Chunk where
  base : Nat
  csize : Nat
  blocks : List Block
  termHdr : Nat
deriving DecidableEq, Repr

/-- The value used for out-of-range chunk lookups. -/
def emptyChunk : Chunk := ⟨0, 0, [], 0⟩

/-- The allocator's global state together with the pager environment. -/
structure AllocState where
  /-- head of the explicit free list, as payload addresses (`free_list`). -/
  free_list : List Nat
  /-- `num_page_chunks`. -/
  num_page_chunks : Nat
  /-- `map_multiplier`. -/
  map_multiplier : Nat
  /-- `pagesize`, cached by `mm_init`. -/
  pagesize : Nat
  /-- the live page chunks, in increasing base order. -/
  chunks : List Chunk
  /-- pager model: the next fresh base address `mem_map` hands out. -/
  nextBase : Nat
  /-- pager model: largest request `mem_map` will grant. -/
  mapCap : Nat
  /-- pager model: sizes passed to `mem_map`, in call order. -/
  mapLog : List Nat
  /-- pager model: `(base, size)` arguments passed to `mem_unmap`. -/
  unmapLog : List (Nat × Nat)
  /-- pager model: set when `mem_unmap` is called on arguments that match
  no live mapping (undefined behaviour in the real pager). -/
  pagerErr : Bool
deriving DecidableEq, Repr

/-- The size field of a block, as `GET_SIZE(HDRP(bp))` reads it. -/
def blkSize (b : Block) : Nat := GET_SIZE b.hdr

/-- The allocated bit of a block, as `GET_ALLOC(HDRP(bp))` reads it. -/
def blkAlloc (b : Block) : Nat := GET_ALLOC b.hdr

/-- Sum of the header size fields of a list of blocks. -/
def sizesSum (l : List Block) : Nat := (l.map blkSize).sum

/-- Payload address of block `i` of a chunk: the sentinel payload sits at
`base + PAGE_PAD + 8 = base + 16`, and each following payload is the
previous one plus the previous header's size field (`NEXT_BLKP`). -/
def payloadAddr (c : Chunk) (i : Nat) : Nat :=
  c.base + PAGE_PAD + WORD + sizesSum (c.blocks.take i)

/-- Chunk `ci` of the state (out-of-range reads give `emptyChunk`). -/
def chunkAt (s : AllocState) (ci : Nat) : Chunk := s.chunks.getD ci emptyChunk

/-- Block `i` of a chunk (out-of-range reads give a zero block). -/
def blockAt (c : Chunk) (i : Nat) : Block := c.blocks.getD i ⟨0, 0⟩

/-- The header word found one block to the right: block `i+1`'s header, or
the terminator header word when block `i` is the last block.  This is what
`GET(HDRP(NEXT_BLKP(bp)))` reads. -/
def hdrRight (c : Chunk) (i : Nat) : Nat :=
  (c.blocks.map Block.hdr).getD (i + 1) c.termHdr

/-- `add_free` from mm.c: push the node at the head of the free list. -/
def add_free (l : List Nat) (bp : Nat) : List Nat := bp :: l

/-- `del_free` from mm.c: unlink the node from the free list. -/
def del_free (l : List Nat) (bp : Nat) : List Nat := l.erase bp

/-- Walk one chunk's blocks looking for the payload address `p`.
`addr` is the payload address of the block at index `idx`; index 0 (the
sentinel) is never returned because client pointers are interior. -/
def fbc (blocks : List Block) (addr idx p : Nat) : Option Nat :=
  match blocks with
  | [] => none
  | b :: rest =>
    if 1 ≤ idx ∧ addr = p then some idx
    else fbc rest (addr + blkSize b) (idx + 1) p

/-- Find the chunk index and block index of the block whose payload address
is `p`. -/
def findBlockAux (chunks : List Chunk) (ci p : Nat) : Option (Nat × Nat) :=
  match chunks with
  | [] => none
  | c :: rest =>
    match fbc c.blocks (c.base + PAGE_PAD + WORD) 0 p with
    | some i => some (ci, i)
    | none => findBlockAux rest (ci + 1) p

/-- Resolve a payload pointer to (chunk index, block index). -/
def findBlock (s : AllocState) (p : Nat) : Option (Nat × Nat) :=
  findBlockAux s.chunks 0 p

/-- `mem_map` from memlib, modelled: grant a fresh region of `n` bytes at
`nextBase` iff `n ≤ mapCap`; record the request. -/
def mem_map (s : AllocState) (n : Nat) : Option Nat × AllocState :=
  if n ≤ s.mapCap then
    (some s.nextBase,
      { s with nextBase := s.nextBase + n, mapLog := s.mapLog ++ [n] })
  else (none, { s with mapLog := s.mapLog ++ [n] })

/-- `mem_unmap` from memlib, modelled: remove the live chunk whose base and
size match the arguments; flag a pager-contract violation otherwise. -/
def mem_unmap (s : AllocState) (base n : Nat) : AllocState :=
  match s.chunks.findIdx? (fun c => c.base == base && c.csize == n) with
  | some k =>
      { s with chunks := s.chunks.eraseIdx k,
               unmapLog := s.unmapLog ++ [(base, n)] }
  | none =>
      { s with pagerErr := true, unmapLog := s.unmapLog ++ [(base, n)] }

/-- `mm_init` from mm.c: reset the free list, chunk count, multiplier and
cache the page size.  The pager environment (`base0`, `cap`) is the model's
stand-in for the OS state `memlib` owns. -/
def mm_init (ps base0 cap : Nat) : AllocState :=
  { free_list := [], num_page_chunks := 0, map_multiplier := 1,
    pagesize := ps, chunks := [], nextBase := base0, mapCap := cap,
    mapLog := [], unmapLog := [], pagerErr := false }

/-- `coalesce` from mm.c, acting on the located just-freed block `i` of
chunk `ci`.  Returns the index and payload address of the resulting block
together with the new state; the final `none` corresponds to the trailing
`return NULL` after the four `lfree`/`rfree` cases.

The left neighbour is `blocks[i-1]` (the sentinel when `i = 1`) and the
right neighbour is `blocks[i+1]`, or the terminator when `i` is last: this
is where `PREV_BLKP`/`NEXT_BLKP` land when headers equal footers.  Merges
rewrite the surviving header and the footer slot at the end of the merged
extent — `FTRP` is computed from the just-enlarged header — so merged
blocks are single `⟨m, m⟩` entries. -/
def coalesce (s : AllocState) (ci i : Nat) : Option (Nat × Nat × AllocState) :=
  let c := chunkAt s ci
  let lhdr := (blockAt c (i - 1)).hdr
  let rhdr := hdrRight c i
  let lfree := GET_ALLOC lhdr == 0
  let rfree := GET_ALLOC rhdr == 0
  let cursize := blkSize (blockAt c i)
  let lsize := GET_SIZE lhdr
  let rsize := GET_SIZE rhdr
  let ptrA := payloadAddr c i
  let lA := payloadAddr c (i - 1)
  let rA := ptrA + cursize
  if !lfree && !rfree then
    some (i, ptrA, { s with free_list := add_free s.free_list ptrA })
  else if lfree && !rfree then
    let m := PACK (lsize + cursize) 0
    let blocks' := c.blocks.take (i - 1) ++ [⟨m, m⟩] ++ c.blocks.drop (i + 1)
    some (i - 1, lA,
      { s with chunks := s.chunks.set ci { c with blocks := blocks' } })
  else if !lfree && rfree then
    let m := PACK (cursize + rsize) 0
    let blocks' := c.blocks.take i ++ [⟨m, m⟩] ++ c.blocks.drop (i + 2)
    some (i, ptrA,
      { s with chunks := s.chunks.set ci { c with blocks := blocks' },
               free_list := add_free (del_free s.free_list rA) ptrA })
  else if lfree && rfree then
    let m := PACK (lsize + cursize + rsize) 0
    let blocks' := c.blocks.take (i - 1) ++ [⟨m, m⟩] ++ c.blocks.drop (i + 2)
    some (i - 1, lA,
      { s with chunks := s.chunks.set ci { c with blocks := blocks' },
               free_list := del_free s.free_list rA })
  else none

/-- `try_unmap` from mm.c: if the freshly coalesced block is framed by the
sentinel (previous size field `OVERHEAD`) and the terminator (whole next
header word `0x9`), unlink it, unmap the chunk and decrement the count. -/
def try_unmap (s : AllocState) (ci i : Nat) : AllocState :=
  let c := chunkAt s ci
  let prevHdr := (blockAt c (i - 1)).hdr
  let nextHdr := hdrRight c i
  if GET_SIZE prevHdr == OVERHEAD && nextHdr == 0x9 then
    let chunk_size := blkSize (blockAt c i) + PAGE_OVERHEAD
    let base := payloadAddr c (i - 1) - (WORD + PAGE_PAD)
    let s1 := { s with free_list := del_free s.free_list (payloadAddr c i) }
    let s2 := mem_unmap s1 base chunk_size
    { s2 with num_page_chunks := s2.num_page_chunks - 1 }
  else s

/-- `allocate` from mm.c: split the chosen free block when the remainder is
viable, then mark the block allocated and unlink it. -/
def allocate (s : AllocState) (ci i size : Nat) : AllocState :=
  let c := chunkAt s ci
  let cursize := blkSize (blockAt c i)
  let remainder := cursize - size
  let bpA := payloadAddr c i
  let c1 : Chunk :=
    if MIN_BLOCK_SIZE ≤ remainder then
      { c with blocks := c.blocks.take i ++
          [⟨size, size⟩, ⟨PACK remainder 0, PACK remainder 0⟩] ++
          c.blocks.drop (i + 1) }
    else c
  let s1 :=
    if MIN_BLOCK_SIZE ≤ remainder then
      { s with chunks := s.chunks.set ci c1,
               free_list := add_free s.free_list (bpA + size) }
    else s
  let cursize2 := blkSize (blockAt c1 i)
  let blocks2 := c1.blocks.take i ++ [⟨PACK cursize2 1, PACK cursize2 1⟩] ++
      c1.blocks.drop (i + 1)
  { s1 with chunks := s1.chunks.set ci { c1 with blocks := blocks2 },
            free_list := del_free s1.free_list bpA }

/-- `find_free_block` from mm.c: first-fit walk of the free list; on a hit,
`allocate` the block and return its payload pointer.  The outer `none`
means the walk dereferenced a free-list node that is no live block's
payload (impossible from well-formed states, undefined behaviour in C). -/
def ffbAux (s : AllocState) (reqsize : Nat) :
    List Nat → Option (Option Nat × AllocState)
  | [] => some (none, s)
  | n :: rest =>
    match findBlock s n with
    | none => none
    | some (ci, i) =>
      if reqsize ≤ blkSize (blockAt (chunkAt s ci) i) then
        some (some n, allocate s ci i reqsize)
      else ffbAux s reqsize rest

/-- `find_free_block` walks the free list from its head. -/
def find_free_block (s : AllocState) (reqsize : Nat) :
    Option (Option Nat × AllocState) :=
  ffbAux s reqsize s.free_list

/-- `extend` from mm.c.  `int reqsize = PAGE_ALIGN(size + PAGE_OVERHEAD)`
and `int newsize = map_multiplier * pagesize` are C `int`s: the `size_t`
page-align expression is truncated through `toInt32`, the two are compared
as signed integers, and the chosen value is sign-extended back to `size_t`
(`toSizeT`) when handed to `mem_map` and when `block_size = newsize -
PAGE_OVERHEAD` is computed (a `size_t` subtraction truncated into the
`int block_size` and sign-extended again by the tag write).  The multiplier
advances before the mapping attempt, so it moves even if the pager then
fails.  On success the chunk is framed with sentinel and terminator and the
interior is published as one free block. -/
def extend (s : AllocState) (size : Nat) : Option Nat × AllocState :=
  let reqsize : Int :=
    toInt32 (PAGE_ALIGN s.pagesize ((size + PAGE_OVERHEAD) % SIZE_MOD))
  let newsize0 : Int := toInt32 (s.map_multiplier * s.pagesize)
  let newsizeI : Int := if newsize0 < reqsize then reqsize else newsize0
  let newsize : Nat := toSizeT newsizeI
  let s1 := { s with map_multiplier :=
      if s.map_multiplier < MAX_PAGE_PER_MAP then s.map_multiplier * 2
      else s.map_multiplier }
  match mem_map s1 newsize with
  | (none, s2) => (none, s2)
  | (some newmap, s2) =>
    let s3 := { s2 with num_page_chunks := s2.num_page_chunks + 1 }
    let block_size :=
      toSizeT (toInt32 ((newsize + (SIZE_MOD - PAGE_OVERHEAD)) % SIZE_MOD))
    let c : Chunk :=
      { base := newmap, csize := newsize,
        blocks := [⟨PACK OVERHEAD 1, PACK OVERHEAD 1⟩,
                   ⟨PACK block_size 0, PACK block_size 0⟩],
        termHdr := PACK WORD 1 }
    let bp := newmap + PAGE_PAD + OVERHEAD + WORD
    (some bp,
      { s3 with chunks := s3.chunks ++ [c],
                free_list := add_free s3.free_list bp })

/-- `mm_malloc` from mm.c.  `int newsize = ALIGN(size + OVERHEAD)`: the
`ALIGN` expression is computed in `size_t` (a huge request wraps), then
stored into a C `int` (`toInt32`), and converted back to `size_t` by sign
extension (`toSizeT`) at the `find_free_block` and `extend` call sites,
whose parameters are `size_t`.  Result: `none` when the model got stuck on
a corrupt free list (never from well-formed states), otherwise the returned
payload pointer (or C `NULL`) and the new state. -/
def mm_malloc (s : AllocState) (size : Nat) :
    Option (Option Nat × AllocState) :=
  let newsize : Int := toInt32 (ALIGN ((size + OVERHEAD) % SIZE_MOD))
  let reqsize : Nat := toSizeT newsize
  match find_free_block s reqsize with
  | none => none
  | some (some p, s') => some (some p, s')
  | some (none, s1) =>
    match extend s1 reqsize with
    | (none, s2) => some (none, s2)
    | (some _, s2) => find_free_block s2 reqsize

/-- `mm_free` from mm.c: clear both tags, coalesce, and — when more than one
chunk is live — run the whole-chunk unmap check on the coalesced block.
`none` means `ptr` is no live block's payload (undefined behaviour in C). -/
def mm_free (s : AllocState) (ptr : Nat) : Option AllocState :=
  match findBlock s ptr with
  | none => none
  | some (ci, i) =>
    let c := chunkAt s ci
    let cursize := blkSize (blockAt c i)
    let blocks1 := c.blocks.take i ++ [⟨PACK cursize 0, PACK cursize 0⟩] ++
        c.blocks.drop (i + 1)
    let s1 := { s with chunks := s.chunks.set ci { c with blocks := blocks1 } }
    match coalesce s1 ci i with
    | none => none
    | some (j, _, s2) =>
      some (if 1 < s2.num_page_chunks then try_unmap s2 ci j else s2)

/-- The state after the first two `PUT`s of `mm_free` on block `i` of chunk
`ci`: both tags of the block are replaced by `PACK(cursize, 0)`. -/
def clearTags (s : AllocState) (ci i : Nat) : AllocState :=
  { s with chunks := s.chunks.set ci { chunkAt s ci with
      blocks := (chunkAt s ci).blocks.take i ++
        [⟨PACK (blkSize (blockAt (chunkAt s ci) i)) 0,
          PACK (blkSize (blockAt (chunkAt s ci) i)) 0⟩] ++
        (chunkAt s ci).blocks.drop (i + 1) } }

/-!
## Well-formedness

`StateWF` is the inductive invariant the claims C2/C6 describe, for runs in
which every `mm_malloc` request is at least one byte and does not overflow
the `size_t` rounding (so every interior block has size at least
`MIN_BLOCK_SIZE`).  All conjuncts are decidable so that concrete states can
be checked by `decide`.
-/

/-- Well-formed boundary tags of an interior block: footer equals header,
the word is `size + bit` with `16 ∣ size` and `bit ≤ 1` (equivalently
`hdr % 16 ≤ 1`), and the size is at least `MIN_BLOCK_SIZE`. -/
abbrev TagOk (b : Block) : Prop :=
  b.ftr = b.hdr ∧ b.hdr % 16 ≤ 1 ∧ MIN_BLOCK_SIZE ≤ b.hdr

/-- Well-formed chunk: sentinel `(2w)|1` at the front, terminator `1w|1`,
well-tagged interior blocks whose sizes tile the chunk
(`Σ interior = csize - PAGE_OVERHEAD`), and a 16-aligned base. -/
abbrev ChunkWF (c : Chunk) : Prop :=
  c.blocks.head? = some ⟨PACK OVERHEAD 1, PACK OVERHEAD 1⟩
  ∧ c.termHdr = PACK WORD 1
  ∧ (∀ b ∈ c.blocks.tail, TagOk b)
  ∧ sizesSum c.blocks + OVERHEAD = c.csize
  ∧ c.base % 16 = 0
  ∧ 2 ≤ c.blocks.length

/-- `a` is the payload address of a free interior block of `s`. -/
abbrev FreeAt (s : AllocState) (a : Nat) : Prop :=
  ∃ ci < s.chunks.length, ∃ i < (chunkAt s ci).blocks.length,
    1 ≤ i ∧ blkAlloc (blockAt (chunkAt s ci) i) = 0
      ∧ payloadAddr (chunkAt s ci) i = a

/-- No two adjacent blocks of a chunk are both unallocated. -/
abbrev NoAdjFree (l : List Block) : Prop :=
  ∀ j, j + 1 < l.length →
    blkAlloc (l.getD j ⟨0, 0⟩) = 1 ∨ blkAlloc (l.getD (j + 1) ⟨0, 0⟩) = 1

/-- The global invariant: well-formed chunks in increasing, disjoint address
order below `nextBase`; the chunk count matches; the multiplier is one of
the reachable powers of two; the free list is duplicate-free and contains
exactly the free interior blocks; no adjacent free blocks; no
pager-contract violation has happened. -/
abbrev StateWF (s : AllocState) : Prop :=
  (∀ c ∈ s.chunks, ChunkWF c)
  ∧ s.num_page_chunks = s.chunks.length
  ∧ s.map_multiplier ∈ [1, 2, 4, 8, 16, 32]
  ∧ 16 ∣ s.pagesize
  ∧ 0 < s.pagesize
  ∧ List.Pairwise (fun a b => a.base + a.csize ≤ b.base) s.chunks
  ∧ (∀ c ∈ s.chunks, c.base + c.csize ≤ s.nextBase)
  ∧ 16 ∣ s.nextBase
  ∧ s.free_list.Nodup
  ∧ (∀ a ∈ s.free_list, FreeAt s a)
  ∧ (∀ ci < s.chunks.length, ∀ i < (chunkAt s ci).blocks.length,
      1 ≤ i → blkAlloc (blockAt (chunkAt s ci) i) = 0 →
        payloadAddr (chunkAt s ci) i ∈ s.free_list)
  ∧ (∀ c ∈ s.chunks, NoAdjFree c.blocks)
  ∧ s.pagerErr = false

/-- A valid argument for `mm_free`: the payload address of an allocated
interior block. -/
abbrev ValidFreeArg (s : AllocState) (p : Nat) : Prop :=
  ∃ ci < s.chunks.length, ∃ i < (chunkAt s ci).blocks.length,
    1 ≤ i ∧ blkAlloc (blockAt (chunkAt s ci) i) = 1
      ∧ payloadAddr (chunkAt s ci) i = p

/-- States reachable by the public interface when the page size is a power
of two between `16` and `2 ^ 25`, every allocation request is at least one
byte and small enough (`r + 31 < 2 ^ 30`) that neither the `size_t`
rounding in `mm_malloc` nor the `int` narrowing of `newsize` and of
`extend`'s `reqsize` truncates, and every free is of a live allocated
block. -/
inductive Reach : AllocState → Prop
  | init (ps base0 cap : Nat) (hps : ∃ k, 4 ≤ k ∧ k ≤ 25 ∧ ps = 2 ^ k)
      (hb : 16 ∣ base0) : Reach (mm_init ps base0 cap)
  | malloc {s s' : AllocState} {r : Nat} {res : Option Nat} (hs : Reach s)
      (h1 : 1 ≤ r) (h2 : r + 31 < 2 ^ 30)
      (hstep : mm_malloc s r = some (res, s')) : Reach s'
  | free {s s' : AllocState} {p : Nat} (hs : Reach s) (hp : ValidFreeArg s p)
      (hstep : mm_free s p = some s') : Reach s'

/-- The state in the middle of `mm_free`, after the tags of block `i` of
chunk `ci` have been cleared but before `coalesce` has run: everything of
`StateWF` holds except that the just-freed block is not yet on the free
list and may have free neighbours. -/
abbrev PreCoalesce (s : AllocState) (ci i : Nat) : Prop :=
  (∀ c ∈ s.chunks, ChunkWF c)
  ∧ s.num_page_chunks = s.chunks.length
  ∧ s.map_multiplier ∈ [1, 2, 4, 8, 16, 32]
  ∧ 16 ∣ s.pagesize
  ∧ 0 < s.pagesize
  ∧ List.Pairwise (fun a b => a.base + a.csize ≤ b.base) s.chunks
  ∧ (∀ c ∈ s.chunks, c.base + c.csize ≤ s.nextBase)
  ∧ 16 ∣ s.nextBase
  ∧ s.free_list.Nodup
  ∧ (∀ a ∈ s.free_list,
      FreeAt s a ∧ a ≠ payloadAddr (chunkAt s ci) i)
  ∧ (∀ cj, cj < s.chunks.length → ∀ j, j < (chunkAt s cj).blocks.length →
      1 ≤ j → blkAlloc (blockAt (chunkAt s cj) j) = 0 →
      ¬(cj = ci ∧ j = i) → payloadAddr (chunkAt s cj) j ∈ s.free_list)
  ∧ (∀ cj, cj < s.chunks.length → ∀ j,
      j + 1 < (chunkAt s cj).blocks.length →
      (cj = ci → j ≠ i - 1 ∧ j ≠ i) →
      blkAlloc ((chunkAt s cj).blocks.getD j ⟨0, 0⟩) = 1
        ∨ blkAlloc ((chunkAt s cj).blocks.getD (j + 1) ⟨0, 0⟩) = 1)
  ∧ s.pagerErr = false
  ∧ ci < s.chunks.length
  ∧ 1 ≤ i
  ∧ i < (chunkAt s ci).blocks.length
  ∧ blkAlloc (blockAt (chunkAt s ci) i) = 0

/-- Run `mm_malloc` and keep the state (total wrapper for scenarios; the
`getD` default is never hit in the runs below). -/
def mallocD (s : AllocState) (r : Nat) : AllocState :=
  ((mm_malloc s r).getD (none, s)).2

/-- The pointer returned by `mm_malloc` in a scenario run. -/
def mallocP (s : AllocState) (r : Nat) : Option Nat :=
  ((mm_malloc s r).getD (none, s)).1

/-- Run `mm_free` and keep the state. -/
def freeD (s : AllocState) (p : Nat) : AllocState :=
  (mm_free s p).getD s

/-- Scenario base state: page size 4096, pager hands out addresses from
`2 ^ 20`, grants up to a mebibyte per call. -/
def exBase : AllocState := mm_init 4096 1048576 1048576

/-- Scenario base state with a pager that grants at most one page, so
that any larger request is refused. -/
def exTight : AllocState := mm_init 4096 1048576 4096

/-- Zero-byte allocation scenario: `mm_malloc 0` right after init. -/
def exZeroState : AllocState := mallocD exBase 0

/-- The `malloc(0)` poison scenario for the unmap check:
`a = malloc(0); b = malloc(4032); c = malloc(16); free(b)`. -/
def exPoisonA : AllocState := mallocD exBase 0
def exPoisonB : AllocState := mallocD exPoisonA 4032
def exPoisonC : AllocState := mallocD exPoisonB 16
def exPoisonF : AllocState := freeD exPoisonC 1048624

/-- Round-trip order scenario:
`a = m(32); b = m(16); c = m(16); d = m(16); free(a); free(c)`;
then `p = m(32); free(p)` moves block `a` to the head of the free list. -/
def exRt0 : AllocState := mallocD exBase 32
def exRt1 : AllocState := mallocD exRt0 16
def exRt2 : AllocState := mallocD exRt1 16
def exRt3 : AllocState := mallocD exRt2 16
def exRt4 : AllocState := freeD exRt3 1048608
def exRt5 : AllocState := freeD exRt4 1048688
def exRt6 : AllocState := mallocD exRt5 32
def exRt7 : AllocState := freeD exRt6 1048608

/-- A concrete mid-`mm_free` state: one chunk `[sentinel, freed 32-byte
block, allocated 4032-byte block]`, empty free list; the freed block is
block 1. -/
def c3state : AllocState :=
  { free_list := [], num_page_chunks := 1, map_multiplier := 2,
    pagesize := 4096,
    chunks := [⟨1048576, 4096,
      [⟨PACK OVERHEAD 1, PACK OVERHEAD 1⟩, ⟨PACK 32 0, PACK 32 0⟩,
       ⟨PACK 4032 1, PACK 4032 1⟩], PACK WORD 1⟩],
    nextBase := 1052672, mapCap := 1048576, mapLog := [4096],
    unmapLog := [], pagerErr := false }

/-!
## Arithmetic facts about tag words and rounding
-/

theorem pack_zero (s : Nat) : PACK s 0 = s := by
  unfold PACK
  apply Nat.eq_of_testBit_eq
  intro i
  rw [Nat.testBit_lor]
  simp

theorem lor_one_of_even (x : Nat) (h : x % 2 = 0) : x ||| 1 = x + 1 := by
  obtain ⟨k, rfl⟩ : ∃ k, x = 2 * k := ⟨x / 2, by omega⟩
  apply Nat.eq_of_testBit_eq
  intro i
  cases i with
  | zero => simp [Nat.testBit_lor, Nat.testBit_zero]; omega
  | succ n =>
    rw [Nat.testBit_lor, Nat.testBit_succ, Nat.testBit_succ, Nat.testBit_succ]
    have h1 : 2 * k / 2 = k := by omega
    have h2 : (2 * k + 1) / 2 = k := by omega
    have h3 : (1 : Nat) / 2 = 0 := by omega
    rw [h1, h2, h3]
    simp

theorem pack_one (s : Nat) (h : 16 ∣ s) : PACK s 1 = s + 1 := by
  unfold PACK
  exact lor_one_of_even s (by omega)

theorem getsize_eq (x : Nat) : GET_SIZE x = x - x % 16 := by
  unfold GET_SIZE
  omega

theorem getsize_of_dvd (s : Nat) (h : 16 ∣ s) : GET_SIZE s = s := by
  rw [getsize_eq]; omega

theorem getsize_dvd (x : Nat) : 16 ∣ GET_SIZE x := by
  unfold GET_SIZE
  exact ⟨x / 16, Nat.mul_comm (x / 16) 16⟩

theorem getsize_pack_zero (s : Nat) (h : 16 ∣ s) : GET_SIZE (PACK s 0) = s := by
  rw [pack_zero, getsize_of_dvd s h]

theorem getsize_pack_one (s : Nat) (h : 16 ∣ s) : GET_SIZE (PACK s 1) = s := by
  rw [pack_one s h, getsize_eq]
  omega

theorem getalloc_pack_zero (s : Nat) (h : 16 ∣ s) : GET_ALLOC (PACK s 0) = 0 := by
  rw [pack_zero]; unfold GET_ALLOC; omega

theorem getalloc_pack_one (s : Nat) (h : 16 ∣ s) : GET_ALLOC (PACK s 1) = 1 := by
  rw [pack_one s h]; unfold GET_ALLOC; omega

/-- The tag word of a well-formed block decomposes as size + bit. -/
theorem tagok_hdr_eq (b : Block) (h : TagOk b) :
    b.hdr = blkSize b + blkAlloc b := by
  obtain ⟨-, h1, h2⟩ := h
  unfold blkSize blkAlloc GET_SIZE GET_ALLOC
  omega

theorem tagok_size_dvd (b : Block) : 16 ∣ blkSize b := getsize_dvd b.hdr

theorem tagok_size_ge (b : Block) (h : TagOk b) : MIN_BLOCK_SIZE ≤ blkSize b := by
  obtain ⟨-, h1, h2⟩ := h
  unfold blkSize GET_SIZE
  have h3 := Nat.div_add_mod b.hdr 16
  have hm : MIN_BLOCK_SIZE = 32 := rfl
  omega

theorem tagok_alloc_le (b : Block) : blkAlloc b ≤ 1 := by
  unfold blkAlloc GET_ALLOC
  omega

/-- A well-formed free block's tag words are exactly its size. -/
theorem tagok_free_hdr (b : Block) (h : TagOk b) (hf : blkAlloc b = 0) :
    b.hdr = blkSize b := by
  have := tagok_hdr_eq b h
  omega

theorem align_mod (x : Nat) : 16 ∣ ALIGN x := by
  unfold ALIGN
  exact ⟨(x + (ALIGNMENT - 1)) % SIZE_MOD / 16,
    Nat.mul_comm ((x + (ALIGNMENT - 1)) % SIZE_MOD / 16) 16⟩

theorem align_ge (x : Nat) (h : x + 15 < SIZE_MOD) : x ≤ ALIGN x := by
  unfold ALIGN
  have ha : ALIGNMENT - 1 = 15 := rfl
  rw [ha, Nat.mod_eq_of_lt h]
  have h1 := Nat.div_add_mod (x + 15) 16
  have h2 : (x + 15) % 16 < 16 := Nat.mod_lt _ (by omega)
  omega

theorem align_le (x : Nat) : ALIGN x ≤ x + 15 := by
  unfold ALIGN
  have ha : ALIGNMENT - 1 = 15 := rfl
  rw [ha]
  have h1 := Nat.div_add_mod ((x + 15) % SIZE_MOD) 16
  have h2 : (x + 15) % SIZE_MOD ≤ x + 15 := Nat.mod_le _ _
  omega

/-- For requests of at least one byte (and no `size_t` wrap), the rounded
block size is at least `MIN_BLOCK_SIZE`. -/
theorem align_min (r : Nat) (h1 : 1 ≤ r) (h2 : r + 31 < SIZE_MOD) :
    MIN_BLOCK_SIZE ≤ ALIGN ((r + OVERHEAD) % SIZE_MOD) := by
  have ho : OVERHEAD = 16 := rfl
  have hsm : (1048576 : Nat) < SIZE_MOD := by norm_num
  have hm : (r + OVERHEAD) % SIZE_MOD = r + 16 := Nat.mod_eq_of_lt (by omega)
  rw [hm]
  have hge := align_ge (r + 16) (by omega)
  have hdvd := align_mod (r + 16)
  have hmb : MIN_BLOCK_SIZE = 32 := rfl
  omega

theorem page_align_ge (ps x : Nat) (h : 0 < ps) : x ≤ PAGE_ALIGN ps x := by
  unfold PAGE_ALIGN
  rw [Nat.mul_comm]
  have h1 := Nat.div_add_mod (x + (ps - 1)) ps
  have h2 : (x + (ps - 1)) % ps < ps := Nat.mod_lt _ h
  omega

theorem page_align_lt (ps x : Nat) (h : 0 < ps) : PAGE_ALIGN ps x < x + ps := by
  unfold PAGE_ALIGN
  rw [Nat.mul_comm]
  have h1 := Nat.div_add_mod (x + (ps - 1)) ps
  omega

theorem page_align_dvd (ps x : Nat) : ps ∣ PAGE_ALIGN ps x := by
  unfold PAGE_ALIGN
  exact ⟨(x + (ps - 1)) / ps, Nat.mul_comm ((x + (ps - 1)) / ps) ps⟩

/-- Narrowing to `int` is the identity below `2 ^ 31`. -/
theorem toInt32_small (n : Nat) (h : n < 2 ^ 31) : toInt32 n = (n : Int) := by
  unfold toInt32
  rw [Nat.mod_eq_of_lt (show n < 2 ^ 32 by omega), if_pos h]

/-- Sign extension of a nonnegative value below `2 ^ 64` is the identity. -/
theorem toSizeT_natCast (n : Nat) (h : n < SIZE_MOD) :
    toSizeT ((n : Nat) : Int) = n := by
  unfold toSizeT
  rw [Int.emod_eq_of_lt (Int.natCast_nonneg n) (by exact_mod_cast h)]
  simp

/-- The `size_t → int → size_t` round trip is the identity below `2 ^ 31`. -/
theorem toSizeT_small (n : Nat) (h : n < 2 ^ 31) :
    toSizeT (toInt32 n) = n := by
  rw [toInt32_small n h]
  exact toSizeT_natCast n (lt_trans h (by norm_num))

/-!
## List surgery infrastructure

All block-level memory writes in the model are splices
`l.take i ++ mid ++ l.drop (i + k)` that replace the `k` blocks starting at
index `i` by the blocks `mid`.
-/

theorem getD_eq_getElem (l : List α) (i : Nat) (d : α) (h : i < l.length) :
    l.getD i d = l[i] := by
  simp [List.getD_eq_getElem?_getD, List.getElem?_eq_getElem h]

theorem getD_eq_default (l : List α) (i : Nat) (d : α) (h : l.length ≤ i) :
    l.getD i d = d := by
  simp [List.getD_eq_getElem?_getD, List.getElem?_eq_none h]

theorem splice_length (l mid : List α) (i k : Nat) (h : i + k ≤ l.length) :
    (l.take i ++ mid ++ l.drop (i + k)).length = l.length - k + mid.length := by
  simp [List.length_take, List.length_drop]
  omega

theorem splice_getD_lt (l mid : List α) (i k j : Nat) (d : α) (hj : j < i)
    (hi : i ≤ l.length) :
    (l.take i ++ mid ++ l.drop (i + k)).getD j d = l.getD j d := by
  have hlen : (l.take i).length = i := by rw [List.length_take]; omega
  rw [List.getD_eq_getElem?_getD, List.getD_eq_getElem?_getD,
    List.append_assoc, List.getElem?_append, hlen, if_pos hj,
    List.getElem?_take, if_pos hj]

theorem splice_getD_mid (l mid : List α) (i k j : Nat) (d : α) (hj : i ≤ j)
    (hj2 : j < i + mid.length) (hi : i ≤ l.length) :
    (l.take i ++ mid ++ l.drop (i + k)).getD j d = mid.getD (j - i) d := by
  have hlen : (l.take i).length = i := by rw [List.length_take]; omega
  rw [List.getD_eq_getElem?_getD, List.getD_eq_getElem?_getD,
    List.append_assoc, List.getElem?_append, hlen, if_neg (by omega),
    List.getElem?_append, if_pos (by omega)]

theorem splice_getD_ge (l mid : List α) (i k j : Nat) (d : α)
    (hj : i + mid.length ≤ j) (hi : i ≤ l.length) :
    (l.take i ++ mid ++ l.drop (i + k)).getD j d
      = l.getD (j - mid.length + k) d := by
  have hlen : (l.take i).length = i := by rw [List.length_take]; omega
  rw [List.getD_eq_getElem?_getD, List.getD_eq_getElem?_getD,
    List.append_assoc, List.getElem?_append, hlen, if_neg (by omega),
    List.getElem?_append, if_neg (by omega), List.getElem?_drop]
  have he : i + k + (j - i - mid.length) = j - mid.length + k := by omega
  rw [he]

theorem sizesSum_append (l1 l2 : List Block) :
    sizesSum (l1 ++ l2) = sizesSum l1 + sizesSum l2 := by
  simp [sizesSum]

theorem sizesSum_cons (b : Block) (l : List Block) :
    sizesSum (b :: l) = blkSize b + sizesSum l := by
  simp [sizesSum]

theorem sizesSum_nil : sizesSum [] = 0 := rfl

theorem sizesSum_take_succ (l : List Block) (i : Nat) (h : i < l.length) :
    sizesSum (l.take (i + 1)) = sizesSum (l.take i) + blkSize l[i] := by
  rw [List.take_succ, sizesSum_append, List.getElem?_eq_getElem h]
  simp [sizesSum]

/-- Splicing the blocks at `i ≤ j` leaves the addresses of blocks before
`i` unchanged. -/
theorem splice_take (l mid : List α) (i k j : Nat) (hj : j ≤ i)
    (hi : i ≤ l.length) :
    (l.take i ++ mid ++ l.drop (i + k)).take j = l.take j := by
  rw [List.append_assoc, List.take_append_of_le_length, List.take_take,
    Nat.min_eq_left hj]
  rw [List.length_take]
  omega

/-- Splitting a list at an index: the list is the prefix, the element, and
the suffix. -/
theorem list_decomp (l : List α) (i : Nat) (h : i < l.length) :
    l = l.take i ++ [l[i]] ++ l.drop (i + 1) := by
  rw [List.append_assoc]
  conv_lhs => rw [← List.take_append_drop i l]
  congr 1
  rw [List.drop_eq_getElem_cons h]
  rfl

/-!
## Payload addresses and pointer resolution
-/

theorem payloadAddr_succ (c : Chunk) (i : Nat) (h : i < c.blocks.length) :
    payloadAddr c (i + 1) = payloadAddr c i + blkSize (blockAt c i) := by
  unfold payloadAddr
  rw [sizesSum_take_succ c.blocks i h, blockAt, getD_eq_getElem _ _ _ h]
  omega

theorem sizesSum_take_mono (l : List Block) (i j : Nat) (hij : i ≤ j) :
    sizesSum (l.take i) ≤ sizesSum (l.take j) := by
  have hdec : l.take j = (l.take j).take i ++ (l.take j).drop i :=
    (List.take_append_drop i (l.take j)).symm
  rw [List.take_take, Nat.min_eq_left hij] at hdec
  calc sizesSum (l.take i) ≤ sizesSum (l.take i) + sizesSum ((l.take j).drop i) := by omega
  _ = sizesSum (l.take j) := by rw [← sizesSum_append, ← hdec]

theorem payloadAddr_mono (c : Chunk) (i j : Nat) (hij : i ≤ j) :
    payloadAddr c i ≤ payloadAddr c j := by
  unfold payloadAddr
  have := sizesSum_take_mono c.blocks i j hij
  omega

/-- All blocks of a well-formed chunk have positive size. -/
theorem chunkwf_pos (c : Chunk) (h : ChunkWF c) :
    ∀ b ∈ c.blocks, 0 < blkSize b := by
  obtain ⟨hsent, -, htags, -, -, -⟩ := h
  intro b hb
  obtain ⟨t, ht⟩ : ∃ t, c.blocks = ⟨PACK OVERHEAD 1, PACK OVERHEAD 1⟩ :: t := by
    cases hbl : c.blocks with
    | nil => rw [hbl] at hsent; simp at hsent
    | cons x xs =>
      rw [hbl] at hsent
      simp at hsent
      exact ⟨xs, by rw [hsent]⟩
  rw [ht] at hb htags
  rcases List.mem_cons.1 hb with hb1 | hb2
  · subst hb1
    have : blkSize (⟨PACK OVERHEAD 1, PACK OVERHEAD 1⟩ : Block) = 16 := by decide
    omega
  · have := tagok_size_ge b (htags b (by simpa using hb2))
    have hm : MIN_BLOCK_SIZE = 32 := rfl
    omega

theorem payloadAddr_strict (c : Chunk) (i j : Nat)
    (hpos : ∀ b ∈ c.blocks, 0 < blkSize b) (hij : i < j)
    (hi : i < c.blocks.length) : payloadAddr c i < payloadAddr c j := by
  have h1 : payloadAddr c (i + 1) = payloadAddr c i + blkSize (blockAt c i) :=
    payloadAddr_succ c i hi
  have h2 : 0 < blkSize (blockAt c i) := by
    apply hpos
    rw [blockAt, getD_eq_getElem _ _ _ hi]
    exact List.getElem_mem hi
  have h3 : payloadAddr c (i + 1) ≤ payloadAddr c j := payloadAddr_mono c _ _ hij
  omega

/-- The address one past the last block is the end of the chunk (this is
where the terminator's payload would be). -/
theorem payloadAddr_end (c : Chunk) (h : ChunkWF c) :
    payloadAddr c c.blocks.length = c.base + c.csize := by
  obtain ⟨-, -, -, hcons, -, -⟩ := h
  unfold payloadAddr
  rw [List.take_length]
  have ho : OVERHEAD = 16 := rfl
  have hp : PAGE_PAD + WORD = 16 := rfl
  omega

/-- Payload addresses of blocks of a well-formed chunk lie inside the
chunk, with room for the block itself. -/
theorem payloadAddr_range (c : Chunk) (h : ChunkWF c) (i : Nat)
    (hi : i < c.blocks.length) :
    c.base + 16 ≤ payloadAddr c i
      ∧ payloadAddr c i + blkSize (blockAt c i) ≤ c.base + c.csize := by
  constructor
  · unfold payloadAddr
    have hp : PAGE_PAD + WORD = 16 := rfl
    omega
  · rw [← payloadAddr_succ c i hi, ← payloadAddr_end c h]
    exact payloadAddr_mono c _ _ (by omega)

/-- `fbc` finds the block at a given payload address (completeness):
the first-match walk hits index `t` because all earlier addresses are
strictly smaller. -/
theorem fbc_complete (l : List Block) (a k p t : Nat)
    (hpos : ∀ b ∈ l, 0 < blkSize b) (ht : t < l.length)
    (hp : p = a + sizesSum (l.take t)) (hk : 1 ≤ k + t) :
    fbc l a k p = some (k + t) := by
  induction l generalizing a k t with
  | nil => simp at ht
  | cons b rest ih =>
    cases t with
    | zero =>
      simp [sizesSum] at hp
      unfold fbc
      rw [if_pos ⟨by omega, hp.symm⟩]
      simp
    | succ u =>
      have hbpos : 0 < blkSize b := hpos b (by simp)
      have hp' : p = (a + blkSize b) + sizesSum (rest.take u) := by
        rw [hp]
        simp [List.take_cons, sizesSum_cons]
        omega
      unfold fbc
      rw [if_neg (by
        rintro ⟨-, rfl⟩
        have := sizesSum_take_mono rest 0 u (by omega)
        simp [sizesSum] at this
        omega)]
      rw [ih (a + blkSize b) (k + 1) u (fun x hx => hpos x (by simp [hx]))
        (by simpa using ht) hp' (by omega)]
      congr 1
      omega

/-- `fbc` only returns blocks that are at the requested address
(soundness). -/
theorem fbc_sound (l : List Block) (a k p j : Nat)
    (h : fbc l a k p = some j) :
    ∃ t < l.length, j = k + t ∧ p = a + sizesSum (l.take t) ∧ 1 ≤ j := by
  induction l generalizing a k with
  | nil => simp [fbc] at h
  | cons b rest ih =>
    unfold fbc at h
    by_cases hc : 1 ≤ k ∧ a = p
    · rw [if_pos hc] at h
      injection h with hj
      refine ⟨0, by simp, by omega, ?_, by omega⟩
      simp [sizesSum]
      omega
    · rw [if_neg hc] at h
      obtain ⟨t, ht, hj, hp, h1⟩ := ih (a + blkSize b) (k + 1) h
      refine ⟨t + 1, by simpa using ht, by omega, ?_, h1⟩
      rw [hp]
      simp [List.take_cons, sizesSum_cons]
      omega

/-- `fbc` misses when no interior block of the chunk has the requested
address. -/
theorem fbc_none (l : List Block) (a k p : Nat)
    (h : ∀ t, t < l.length → 1 ≤ k + t → a + sizesSum (l.take t) ≠ p) :
    fbc l a k p = none := by
  induction l generalizing a k with
  | nil => rfl
  | cons b rest ih =>
    unfold fbc
    rw [if_neg (by
      rintro ⟨h1, rfl⟩
      exact h 0 (by simp) (by omega) (by simp [sizesSum]))]
    apply ih
    intro t ht h1
    have := h (t + 1) (by simpa using ht) (by omega)
    simp [List.take_cons, sizesSum_cons] at this
    intro hcon
    apply this
    omega

theorem chunkAt_eq (s : AllocState) (ci : Nat) (h : ci < s.chunks.length) :
    chunkAt s ci = s.chunks[ci] := by
  unfold chunkAt
  exact getD_eq_getElem _ _ _ h

theorem findBlockAux_sound (cs : List Chunk) (k p ci i : Nat)
    (h : findBlockAux cs k p = some (ci, i)) :
    ∃ t, t < cs.length ∧ ci = k + t ∧
      fbc (cs.getD t emptyChunk).blocks
        ((cs.getD t emptyChunk).base + PAGE_PAD + WORD) 0 p = some i := by
  induction cs generalizing k with
  | nil => simp [findBlockAux] at h
  | cons c rest ih =>
    unfold findBlockAux at h
    cases hf : fbc c.blocks (c.base + PAGE_PAD + WORD) 0 p with
    | some j =>
      rw [hf] at h
      injection h with h1
      injection h1 with h2 h3
      exact ⟨0, by simp, by omega, by rw [← h3]; simpa using hf⟩
    | none =>
      rw [hf] at h
      obtain ⟨t, ht, hci, hfbc⟩ := ih (k + 1) h
      exact ⟨t + 1, by simpa using ht, by omega, by simpa using hfbc⟩

theorem findBlock_sound (s : AllocState) (p ci i : Nat)
    (h : findBlock s p = some (ci, i)) :
    ci < s.chunks.length ∧ 1 ≤ i ∧ i < (chunkAt s ci).blocks.length ∧
      payloadAddr (chunkAt s ci) i = p := by
  obtain ⟨t, ht, hci, hfbc⟩ := findBlockAux_sound s.chunks 0 p ci i h
  obtain ⟨u, hu, hiu, hp, h1⟩ := fbc_sound _ _ _ _ _ hfbc
  have hct : ci = t := by omega
  have hium : i = u := by omega
  subst hct hium
  refine ⟨ht, h1, ?_, ?_⟩
  · unfold chunkAt
    exact hu
  · unfold chunkAt payloadAddr
    omega

/-- A well-formed chunk contains no block whose payload address reaches
past its end. -/
theorem fbc_none_of_ge (c : Chunk) (hWF : ChunkWF c) (p : Nat)
    (hp : c.base + c.csize ≤ p) :
    fbc c.blocks (c.base + PAGE_PAD + WORD) 0 p = none := by
  apply fbc_none
  intro t ht h1
  have hr := (payloadAddr_range c hWF t ht).2
  have hpos : 0 < blkSize (blockAt c t) := by
    apply chunkwf_pos c hWF
    rw [blockAt, getD_eq_getElem _ _ _ ht]
    exact List.getElem_mem ht
  unfold payloadAddr at hr
  omega

theorem findBlockAux_complete (cs : List Chunk) (k t p i : Nat)
    (hwf : ∀ c ∈ cs, ChunkWF c)
    (hord : cs.Pairwise (fun a b => a.base + a.csize ≤ b.base))
    (ht : t < cs.length)
    (hi : 1 ≤ i) (hilen : i < (cs.getD t emptyChunk).blocks.length)
    (hp : p = payloadAddr (cs.getD t emptyChunk) i) :
    findBlockAux cs k p = some (k + t, i) := by
  induction cs generalizing k t with
  | nil => simp at ht
  | cons c rest ih =>
    cases t with
    | zero =>
      simp only [List.getD_cons_zero] at hilen hp
      unfold findBlockAux
      have hc : fbc c.blocks (c.base + PAGE_PAD + WORD) 0 p = some i := by
        have := fbc_complete c.blocks (c.base + PAGE_PAD + WORD) 0 p i
          (chunkwf_pos c (hwf c (by simp))) hilen
          (by rw [hp]; unfold payloadAddr; ring) (by omega)
        simpa using this
      rw [hc]
      simp
    | succ u =>
      simp only [List.getD_cons_succ] at hilen hp
      have hu : u < rest.length := by simpa using ht
      unfold findBlockAux
      have hrest : rest.getD u emptyChunk ∈ rest := by
        rw [getD_eq_getElem _ _ _ hu]
        exact List.getElem_mem hu
      have hord1 : c.base + c.csize ≤ (rest.getD u emptyChunk).base :=
        (List.pairwise_cons.1 hord).1 _ hrest
      have hge : c.base + c.csize ≤ p := by
        rw [hp]
        have h16 : (rest.getD u emptyChunk).base + 16
            ≤ payloadAddr (rest.getD u emptyChunk) i := by
          unfold payloadAddr
          have hpw : PAGE_PAD + WORD = 16 := rfl
          omega
        omega
      rw [fbc_none_of_ge c (hwf c (by simp)) p hge]
      have harith : k + (u + 1) = k + 1 + u := by omega
      rw [harith]
      exact ih (k + 1) u (fun x hx => hwf x (by simp [hx]))
        (List.pairwise_cons.1 hord).2 hu hilen hp

/-- Under the global invariant, looking up a block's payload address finds
exactly that block. -/
theorem findBlock_payload (s : AllocState) (hwf : ∀ c ∈ s.chunks, ChunkWF c)
    (hord : s.chunks.Pairwise (fun a b => a.base + a.csize ≤ b.base))
    (ci i : Nat) (hci : ci < s.chunks.length) (hi : 1 ≤ i)
    (hilen : i < (chunkAt s ci).blocks.length) :
    findBlock s (payloadAddr (chunkAt s ci) i) = some (ci, i) := by
  unfold findBlock
  have := findBlockAux_complete s.chunks 0 ci (payloadAddr (chunkAt s ci) i) i
    hwf hord hci hi hilen rfl
  simpa using this

/-- Payload addresses identify blocks uniquely across the heap. -/
theorem payloadAddr_inj (s : AllocState) (hwf : ∀ c ∈ s.chunks, ChunkWF c)
    (hord : s.chunks.Pairwise (fun a b => a.base + a.csize ≤ b.base))
    (ci i cj j : Nat) (hci : ci < s.chunks.length) (hi : 1 ≤ i)
    (hilen : i < (chunkAt s ci).blocks.length) (hcj : cj < s.chunks.length)
    (hj : 1 ≤ j) (hjlen : j < (chunkAt s cj).blocks.length)
    (heq : payloadAddr (chunkAt s ci) i = payloadAddr (chunkAt s cj) j) :
    ci = cj ∧ i = j := by
  have h1 := findBlock_payload s hwf hord ci i hci hi hilen
  have h2 := findBlock_payload s hwf hord cj j hcj hj hjlen
  rw [heq, h2] at h1
  injection h1 with h3
  injection h3 with h4 h5
  exact ⟨h4.symm, h5.symm⟩

/-!
## Chunk surgery preserves well-formedness
-/

theorem splice_drop (l mid : List α) (i k j : Nat) (hj : j ≤ mid.length)
    (hi : i ≤ l.length) :
    (l.take i ++ mid ++ l.drop (i + k)).drop (i + j)
      = mid.drop j ++ l.drop (i + k) := by
  have hlen : (l.take i).length = i := by rw [List.length_take]; omega
  rw [List.append_assoc, List.drop_append_eq_append_drop, hlen]
  rw [List.drop_eq_nil_of_le (by omega), List.drop_append_eq_append_drop]
  have h1 : i + j - i = j := by omega
  rw [h1]
  have h2 : j - mid.length = 0 := by omega
  rw [h2, List.nil_append, List.drop_zero]

theorem splice_head? (l mid : List α) (i k : Nat) (hi : 1 ≤ i)
    (hil : i ≤ l.length) :
    (l.take i ++ mid ++ l.drop (i + k)).head? = l.head? := by
  have hlen : (l.take i).length = i := by rw [List.length_take]; omega
  cases hl : l with
  | nil => subst hl; simp at hil; omega
  | cons x xs =>
    have : l.take i = x :: xs.take (i - 1) := by
      rw [hl]
      cases i with
      | zero => omega
      | succ n => simp
    rw [← hl, this]
    simp [hl]

theorem splice_tail_mem (l mid : List α) (i k : Nat) (b : α) (hi : 1 ≤ i)
    (hil : i + k ≤ l.length)
    (hb : b ∈ (l.take i ++ mid ++ l.drop (i + k)).tail) :
    b ∈ l.tail ∨ b ∈ mid := by
  have hlen : (l.take i).length = i := by rw [List.length_take]; omega
  rw [← List.drop_one, List.append_assoc, List.drop_append_eq_append_drop,
    hlen] at hb
  have h0 : 1 - i = 0 := by omega
  rw [h0, List.drop_zero] at hb
  rcases List.mem_append.1 hb with h1 | h2
  · left
    rw [List.drop_take] at h1
    rw [← List.drop_one]
    exact List.take_subset _ _ h1
  · rcases List.mem_append.1 h2 with h3 | h4
    · right; exact h3
    · left
      rw [← List.drop_one]
      have : l.drop (i + k) = (l.drop 1).drop (i + k - 1) := by
        rw [List.drop_drop]
        congr 1
        omega
      rw [this] at h4
      exact List.drop_subset _ _ h4

theorem sizesSum_three (l : List Block) (i k : Nat) :
    sizesSum l = sizesSum (l.take i) + sizesSum ((l.take (i + k)).drop i)
      + sizesSum (l.drop (i + k)) := by
  conv_lhs => rw [← List.take_append_drop (i + k) l]
  rw [sizesSum_append]
  conv_lhs => rw [← List.take_append_drop i (l.take (i + k))]
  rw [sizesSum_append, List.take_take, Nat.min_eq_left (by omega)]

theorem length_pos_of_lt (l : List α) (i : Nat) (h : i < l.length) :
    l ≠ [] := by
  intro hl
  rw [hl] at h
  simp at h

theorem segment_one (l : List α) (i : Nat) (d : α) (h : i < l.length) :
    (l.take (i + 1)).drop i = [l.getD i d] := by
  apply List.ext_getElem?
  intro j
  cases j with
  | zero =>
    rw [List.getElem?_drop, List.getElem?_take]
    rw [if_pos (by omega)]
    simp [getD_eq_getElem _ _ _ h, List.getElem?_eq_getElem h]
  | succ n =>
    rw [List.getElem?_drop, List.getElem?_take]
    rw [if_neg (by omega)]
    simp

theorem segment_two (l : List α) (i : Nat) (d : α) (h : i + 1 < l.length) :
    (l.take (i + 2)).drop i = [l.getD i d, l.getD (i + 1) d] := by
  apply List.ext_getElem?
  intro j
  match j with
  | 0 =>
    rw [List.getElem?_drop, List.getElem?_take]
    rw [if_pos (by omega)]
    simp [getD_eq_getElem _ _ d (show i < l.length by omega),
      List.getElem?_eq_getElem (show i < l.length by omega)]
  | 1 =>
    rw [List.getElem?_drop, List.getElem?_take]
    rw [if_pos (by omega)]
    simp [getD_eq_getElem _ _ d h, List.getElem?_eq_getElem h]
  | (n + 2) =>
    rw [List.getElem?_drop, List.getElem?_take]
    rw [if_neg (by omega)]
    simp

/-- Replacing the `k` blocks at `i ≥ 1` of a well-formed chunk by
well-tagged blocks of the same total size yields a well-formed chunk. -/
theorem chunkwf_splice (c : Chunk) (h : ChunkWF c) (i k : Nat)
    (mid : List Block) (hi : 1 ≤ i) (hk : i + k ≤ c.blocks.length)
    (hmid : 1 ≤ mid.length) (htags : ∀ b ∈ mid, TagOk b)
    (hsum : sizesSum mid = sizesSum ((c.blocks.take (i + k)).drop i)) :
    ChunkWF { c with
      blocks := c.blocks.take i ++ mid ++ c.blocks.drop (i + k) } := by
  obtain ⟨hsent, hterm, htl, hcons, hbase, hlen⟩ := h
  refine ⟨?_, hterm, ?_, ?_, hbase, ?_⟩
  · rw [splice_head? c.blocks mid i k hi (by omega)]
    exact hsent
  · intro b hb
    rcases splice_tail_mem c.blocks mid i k b hi hk hb with h1 | h2
    · exact htl b h1
    · exact htags b h2
  · show sizesSum _ + OVERHEAD = c.csize
    rw [sizesSum_append, sizesSum_append]
    rw [sizesSum_three c.blocks i k] at hcons
    omega
  · show 2 ≤ (c.blocks.take i ++ mid ++ c.blocks.drop (i + k)).length
    rw [splice_length c.blocks mid i k hk]
    omega

theorem pairwise_set_congr (l : List Chunk) (n : Nat) (c' : Chunk)
    (h : List.Pairwise (fun a b => a.base + a.csize ≤ b.base) l)
    (hn : n < l.length) (hb : c'.base = (l.getD n emptyChunk).base)
    (hc : c'.csize = (l.getD n emptyChunk).csize) :
    List.Pairwise (fun a b => a.base + a.csize ≤ b.base) (l.set n c') := by
  rw [List.pairwise_iff_getElem] at h ⊢
  intro i j hi hj hij
  rw [List.length_set] at hi hj
  rw [getD_eq_getElem _ _ _ hn] at hb hc
  by_cases hin : n = i
  · subst hin
    rw [List.getElem_set_self, List.getElem_set_ne (by omega)]
    rw [hb, hc]
    exact h n j hn (by omega) hij
  · by_cases hjn : n = j
    · subst hjn
      rw [List.getElem_set_self, List.getElem_set_ne (by omega)]
      rw [hb]
      exact h i n (by omega) hn hij
    · rw [List.getElem_set_ne (by omega), List.getElem_set_ne (by omega)]
      exact h i j (by omega) (by omega) hij

theorem chunkAt_set_self (s : AllocState) (ci : Nat) (c' : Chunk)
    (fl : List Nat) (h : ci < s.chunks.length) :
    chunkAt { s with chunks := s.chunks.set ci c', free_list := fl } ci = c' := by
  unfold chunkAt
  simp [List.getD_eq_getElem?_getD, List.getElem?_set_self',
    List.getElem?_eq_getElem h]

theorem chunkAt_set_ne (s : AllocState) (ci cj : Nat) (c' : Chunk)
    (fl : List Nat) (h : ci ≠ cj) :
    chunkAt { s with chunks := s.chunks.set ci c', free_list := fl } cj
      = chunkAt s cj := by
  unfold chunkAt
  simp [List.getD_eq_getElem?_getD, List.getElem?_set_ne h]

theorem blockAt_tagok (c : Chunk) (h : ChunkWF c) (i : Nat) (h1 : 1 ≤ i)
    (h2 : i < c.blocks.length) : TagOk (blockAt c i) := by
  obtain ⟨hsent, -, htl, -, -, -⟩ := h
  obtain ⟨t, ht⟩ : ∃ t, c.blocks = ⟨PACK OVERHEAD 1, PACK OVERHEAD 1⟩ :: t := by
    cases hbl : c.blocks with
    | nil => rw [hbl] at hsent; simp at hsent
    | cons x xs =>
      rw [hbl] at hsent
      simp at hsent
      exact ⟨xs, by rw [hsent]⟩
  have hmem : blockAt c i ∈ c.blocks.tail := by
    unfold blockAt
    rw [ht] at h2 ⊢
    cases i with
    | zero => omega
    | succ n =>
      rw [List.getD_cons_succ]
      simp only [List.tail_cons]
      rw [getD_eq_getElem _ _ _ (by simpa using h2)]
      exact List.getElem_mem _
  exact htl _ hmem

theorem blockAt_sentinel (c : Chunk) (h : ChunkWF c) :
    blockAt c 0 = ⟨PACK OVERHEAD 1, PACK OVERHEAD 1⟩ := by
  obtain ⟨hsent, -, -, -, -, -⟩ := h
  unfold blockAt
  cases hbl : c.blocks with
  | nil => rw [hbl] at hsent; simp at hsent
  | cons x xs =>
    rw [hbl] at hsent
    simp at hsent
    simp [hsent]

theorem hdrRight_eq (c : Chunk) (i : Nat) (h : i + 1 < c.blocks.length) :
    hdrRight c i = (blockAt c (i + 1)).hdr := by
  unfold hdrRight blockAt
  rw [getD_eq_getElem _ _ _ (by simpa using h), getD_eq_getElem _ _ _ h]
  simp

theorem hdrRight_term (c : Chunk) (i : Nat) (h : c.blocks.length = i + 1) :
    hdrRight c i = c.termHdr := by
  unfold hdrRight
  rw [getD_eq_default]
  simp
  omega

/-!
## `extend`: characterization and invariant preservation
-/

theorem extend_success (s : AllocState) (size : Nat)
    (hsm : size + PAGE_OVERHEAD < SIZE_MOD)
    (hA : PAGE_ALIGN s.pagesize (size + PAGE_OVERHEAD) < 2 ^ 31)
    (hB : s.map_multiplier * s.pagesize < 2 ^ 31)
    (hp0 : 0 < s.pagesize)
    (hcap : (if s.map_multiplier * s.pagesize
        < PAGE_ALIGN s.pagesize (size + PAGE_OVERHEAD)
      then PAGE_ALIGN s.pagesize (size + PAGE_OVERHEAD)
      else s.map_multiplier * s.pagesize) ≤ s.mapCap) :
    extend s size =
      (some (s.nextBase + PAGE_PAD + OVERHEAD + WORD),
        let N := if s.map_multiplier * s.pagesize
            < PAGE_ALIGN s.pagesize (size + PAGE_OVERHEAD)
          then PAGE_ALIGN s.pagesize (size + PAGE_OVERHEAD)
          else s.map_multiplier * s.pagesize
        { free_list := (s.nextBase + PAGE_PAD + OVERHEAD + WORD) :: s.free_list,
          num_page_chunks := s.num_page_chunks + 1,
          map_multiplier := (if s.map_multiplier < MAX_PAGE_PER_MAP
            then s.map_multiplier * 2 else s.map_multiplier),
          pagesize := s.pagesize,
          chunks := s.chunks ++ [⟨s.nextBase, N,
            [⟨PACK OVERHEAD 1, PACK OVERHEAD 1⟩,
             ⟨PACK (N - PAGE_OVERHEAD) 0, PACK (N - PAGE_OVERHEAD) 0⟩],
            PACK WORD 1⟩],
          nextBase := s.nextBase + N,
          mapCap := s.mapCap,
          mapLog := s.mapLog ++ [N],
          unmapLog := s.unmapLog,
          pagerErr := s.pagerErr }) := by
  have hga := page_align_ge s.pagesize (size + PAGE_OVERHEAD) hp0
  have hpov : PAGE_OVERHEAD = 32 := rfl
  unfold extend mem_map
  simp only []
  rw [Nat.mod_eq_of_lt hsm, toInt32_small _ hA, toInt32_small _ hB]
  have eIf : (if ((s.map_multiplier * s.pagesize : Nat) : Int)
        < ((PAGE_ALIGN s.pagesize (size + PAGE_OVERHEAD) : Nat) : Int)
      then ((PAGE_ALIGN s.pagesize (size + PAGE_OVERHEAD) : Nat) : Int)
      else ((s.map_multiplier * s.pagesize : Nat) : Int))
      = (((if s.map_multiplier * s.pagesize
          < PAGE_ALIGN s.pagesize (size + PAGE_OVERHEAD)
        then PAGE_ALIGN s.pagesize (size + PAGE_OVERHEAD)
        else s.map_multiplier * s.pagesize) : Nat) : Int) := by
    by_cases h : s.map_multiplier * s.pagesize
        < PAGE_ALIGN s.pagesize (size + PAGE_OVERHEAD)
    · rw [if_pos (Nat.cast_lt.mpr h), if_pos h]
    · rw [if_neg (fun hc => h (Nat.cast_lt.mp hc)), if_neg h]
  rw [eIf]
  have hNlt : (if s.map_multiplier * s.pagesize
      < PAGE_ALIGN s.pagesize (size + PAGE_OVERHEAD)
    then PAGE_ALIGN s.pagesize (size + PAGE_OVERHEAD)
    else s.map_multiplier * s.pagesize) < 2 ^ 31 := by
    split <;> omega
  have hN32 : PAGE_OVERHEAD ≤ (if s.map_multiplier * s.pagesize
      < PAGE_ALIGN s.pagesize (size + PAGE_OVERHEAD)
    then PAGE_ALIGN s.pagesize (size + PAGE_OVERHEAD)
    else s.map_multiplier * s.pagesize) := by
    split <;> omega
  rw [toSizeT_natCast _ (by
    have hs31 : (2 : Nat) ^ 31 < SIZE_MOD := by norm_num
    omega)]
  have eBS : ((if s.map_multiplier * s.pagesize
        < PAGE_ALIGN s.pagesize (size + PAGE_OVERHEAD)
      then PAGE_ALIGN s.pagesize (size + PAGE_OVERHEAD)
      else s.map_multiplier * s.pagesize) + (SIZE_MOD - PAGE_OVERHEAD))
        % SIZE_MOD
      = (if s.map_multiplier * s.pagesize
          < PAGE_ALIGN s.pagesize (size + PAGE_OVERHEAD)
        then PAGE_ALIGN s.pagesize (size + PAGE_OVERHEAD)
        else s.map_multiplier * s.pagesize) - PAGE_OVERHEAD := by
    have hs31 : (2 : Nat) ^ 31 < SIZE_MOD := by norm_num
    rw [show (if s.map_multiplier * s.pagesize
          < PAGE_ALIGN s.pagesize (size + PAGE_OVERHEAD)
        then PAGE_ALIGN s.pagesize (size + PAGE_OVERHEAD)
        else s.map_multiplier * s.pagesize) + (SIZE_MOD - PAGE_OVERHEAD)
      = ((if s.map_multiplier * s.pagesize
          < PAGE_ALIGN s.pagesize (size + PAGE_OVERHEAD)
        then PAGE_ALIGN s.pagesize (size + PAGE_OVERHEAD)
        else s.map_multiplier * s.pagesize) - PAGE_OVERHEAD) + SIZE_MOD
      from by omega, Nat.add_mod_right]
    exact Nat.mod_eq_of_lt (by omega)
  rw [eBS, toSizeT_small _ (by omega)]
  rw [if_pos hcap]
  rfl

theorem extend_fail (s : AllocState) (size : Nat)
    (hsm : size + PAGE_OVERHEAD < SIZE_MOD)
    (hA : PAGE_ALIGN s.pagesize (size + PAGE_OVERHEAD) < 2 ^ 31)
    (hB : s.map_multiplier * s.pagesize < 2 ^ 31)
    (hcap : ¬ (if s.map_multiplier * s.pagesize
        < PAGE_ALIGN s.pagesize (size + PAGE_OVERHEAD)
      then PAGE_ALIGN s.pagesize (size + PAGE_OVERHEAD)
      else s.map_multiplier * s.pagesize) ≤ s.mapCap) :
    extend s size =
      (none,
        { s with
          map_multiplier := (if s.map_multiplier < MAX_PAGE_PER_MAP
            then s.map_multiplier * 2 else s.map_multiplier),
          mapLog := s.mapLog ++
            [if s.map_multiplier * s.pagesize
                < PAGE_ALIGN s.pagesize (size + PAGE_OVERHEAD)
              then PAGE_ALIGN s.pagesize (size + PAGE_OVERHEAD)
              else s.map_multiplier * s.pagesize] }) := by
  unfold extend mem_map
  simp only []
  rw [Nat.mod_eq_of_lt hsm, toInt32_small _ hA, toInt32_small _ hB]
  have eIf : (if ((s.map_multiplier * s.pagesize : Nat) : Int)
        < ((PAGE_ALIGN s.pagesize (size + PAGE_OVERHEAD) : Nat) : Int)
      then ((PAGE_ALIGN s.pagesize (size + PAGE_OVERHEAD) : Nat) : Int)
      else ((s.map_multiplier * s.pagesize : Nat) : Int))
      = (((if s.map_multiplier * s.pagesize
          < PAGE_ALIGN s.pagesize (size + PAGE_OVERHEAD)
        then PAGE_ALIGN s.pagesize (size + PAGE_OVERHEAD)
        else s.map_multiplier * s.pagesize) : Nat) : Int) := by
    by_cases h : s.map_multiplier * s.pagesize
        < PAGE_ALIGN s.pagesize (size + PAGE_OVERHEAD)
    · rw [if_pos (Nat.cast_lt.mpr h), if_pos h]
    · rw [if_neg (fun hc => h (Nat.cast_lt.mp hc)), if_neg h]
  rw [eIf]
  have hNlt : (if s.map_multiplier * s.pagesize
      < PAGE_ALIGN s.pagesize (size + PAGE_OVERHEAD)
    then PAGE_ALIGN s.pagesize (size + PAGE_OVERHEAD)
    else s.map_multiplier * s.pagesize) < 2 ^ 31 := by
    split <;> omega
  rw [toSizeT_natCast _ (by
    have hs31 : (2 : Nat) ^ 31 < SIZE_MOD := by norm_num
    omega)]
  rw [if_neg hcap]

theorem getD_append_left (l1 l2 : List α) (i : Nat) (d : α)
    (h : i < l1.length) : (l1 ++ l2).getD i d = l1.getD i d := by
  rw [List.getD_eq_getElem?_getD, List.getD_eq_getElem?_getD,
    List.getElem?_append, if_pos h]

theorem getD_append_right (l1 l2 : List α) (i : Nat) (d : α)
    (h : l1.length ≤ i) : (l1 ++ l2).getD i d = l2.getD (i - l1.length) d := by
  rw [List.getD_eq_getElem?_getD, List.getD_eq_getElem?_getD,
    List.getElem?_append, if_neg (by omega)]

theorem chunkAt_mem (s : AllocState) (ci : Nat) (h : ci < s.chunks.length) :
    chunkAt s ci ∈ s.chunks := by
  rw [chunkAt_eq s ci h]
  exact List.getElem_mem h

/-- Every free-list address of a well-formed state lies below `nextBase`. -/
theorem freeAt_lt_nextBase (s : AllocState)
    (hwf : ∀ c ∈ s.chunks, ChunkWF c)
    (hnext : ∀ c ∈ s.chunks, c.base + c.csize ≤ s.nextBase) (a : Nat)
    (h : FreeAt s a) : a < s.nextBase := by
  obtain ⟨ci, hci, i, hilen, hi, hfree, hpa⟩ := h
  have hcm := chunkAt_mem s ci hci
  have hr := (payloadAddr_range (chunkAt s ci) (hwf _ hcm) i hilen).2
  have hpos : 0 < blkSize (blockAt (chunkAt s ci) i) := by
    apply chunkwf_pos _ (hwf _ hcm)
    rw [blockAt, getD_eq_getElem _ _ _ hilen]
    exact List.getElem_mem hilen
  have := hnext _ hcm
  omega

theorem sizesSum_dvd (l : List Block) : 16 ∣ sizesSum l := by
  induction l with
  | nil => simp [sizesSum]
  | cons b rest ih =>
    rw [sizesSum_cons]
    exact Nat.dvd_add (tagok_size_dvd b) ih

/-- Payload addresses of well-formed chunks are 16-aligned. -/
theorem payloadAddr_align (c : Chunk) (h : ChunkWF c) (i : Nat) :
    payloadAddr c i % 16 = 0 := by
  obtain ⟨-, -, -, -, hbase, -⟩ := h
  unfold payloadAddr
  have hdvd := sizesSum_dvd (c.blocks.take i)
  have hpw : PAGE_PAD + WORD = 16 := rfl
  omega

theorem tagok_free_pack (bs : Nat) (h16 : 16 ∣ bs) (h32 : 32 ≤ bs) :
    TagOk ⟨PACK bs 0, PACK bs 0⟩ := by
  have hm : MIN_BLOCK_SIZE = 32 := rfl
  refine ⟨rfl, ?_, ?_⟩
  · show PACK bs 0 % 16 ≤ 1
    rw [pack_zero]
    omega
  · show MIN_BLOCK_SIZE ≤ PACK bs 0
    rw [pack_zero]
    omega

theorem tagok_alloc_pack (bs : Nat) (h16 : 16 ∣ bs) (h32 : 32 ≤ bs) :
    TagOk ⟨PACK bs 1, PACK bs 1⟩ := by
  have hm : MIN_BLOCK_SIZE = 32 := rfl
  refine ⟨rfl, ?_, ?_⟩
  · show PACK bs 1 % 16 ≤ 1
    rw [pack_one bs h16]
    omega
  · show MIN_BLOCK_SIZE ≤ PACK bs 1
    rw [pack_one bs h16]
    omega

theorem blkAlloc_pack_zero (x y : Nat) (h : 16 ∣ x) :
    blkAlloc ⟨PACK x 0, y⟩ = 0 := by
  show PACK x 0 % 2 = 0
  rw [pack_zero]
  omega

theorem blkAlloc_pack_one (x y : Nat) (h : 16 ∣ x) :
    blkAlloc ⟨PACK x 1, y⟩ = 1 := by
  show PACK x 1 % 2 = 1
  rw [pack_one x h]
  omega

theorem blkSize_pack_zero (x y : Nat) (h : 16 ∣ x) :
    blkSize ⟨PACK x 0, y⟩ = x := by
  show GET_SIZE (PACK x 0) = x
  exact getsize_pack_zero x h

theorem blkSize_pack_one (x y : Nat) (h : 16 ∣ x) :
    blkSize ⟨PACK x 1, y⟩ = x := by
  show GET_SIZE (PACK x 1) = x
  exact getsize_pack_one x h

/-- The size `extend` requests is 16-aligned and covers the pending block
plus the chunk overhead. -/
theorem newsize_facts (s : AllocState) (size : Nat) (hps : 16 ∣ s.pagesize)
    (hpos : 0 < s.pagesize) :
    16 ∣ (if s.map_multiplier * s.pagesize
        < PAGE_ALIGN s.pagesize (size + PAGE_OVERHEAD)
      then PAGE_ALIGN s.pagesize (size + PAGE_OVERHEAD)
      else s.map_multiplier * s.pagesize)
    ∧ size + PAGE_OVERHEAD ≤ (if s.map_multiplier * s.pagesize
        < PAGE_ALIGN s.pagesize (size + PAGE_OVERHEAD)
      then PAGE_ALIGN s.pagesize (size + PAGE_OVERHEAD)
      else s.map_multiplier * s.pagesize) := by
  have hreq := page_align_ge s.pagesize (size + PAGE_OVERHEAD) hpos
  have hreqd : 16 ∣ PAGE_ALIGN s.pagesize (size + PAGE_OVERHEAD) :=
    dvd_trans hps (page_align_dvd _ _)
  split
  · exact ⟨hreqd, hreq⟩
  · rename_i hc
    exact ⟨Dvd.dvd.mul_left hps _, by omega⟩

theorem chunkAt_mk (fl : List Nat) (npc mm ps : Nat) (cs : List Chunk)
    (nb cap : Nat) (ml : List Nat) (ul : List (Nat × Nat)) (pe : Bool)
    (ci : Nat) :
    chunkAt ⟨fl, npc, mm, ps, cs, nb, cap, ml, ul, pe⟩ ci
      = cs.getD ci emptyChunk := rfl

theorem payloadAddr_mk (b csz : Nat) (blocks : List Block) (t i : Nat) :
    payloadAddr ⟨b, csz, blocks, t⟩ i
      = b + PAGE_PAD + WORD + sizesSum (blocks.take i) := rfl

/-- The state `extend` builds on success is well-formed. -/
theorem statewf_extend_state (s : AllocState) (N : Nat) (hWF : StateWF s)
    (hdvd : 16 ∣ N) (hbig : 64 ≤ N) :
    StateWF
      { free_list := (s.nextBase + PAGE_PAD + OVERHEAD + WORD) :: s.free_list,
        num_page_chunks := s.num_page_chunks + 1,
        map_multiplier := (if s.map_multiplier < MAX_PAGE_PER_MAP
          then s.map_multiplier * 2 else s.map_multiplier),
        pagesize := s.pagesize,
        chunks := s.chunks ++ [⟨s.nextBase, N,
          [⟨PACK OVERHEAD 1, PACK OVERHEAD 1⟩,
           ⟨PACK (N - PAGE_OVERHEAD) 0, PACK (N - PAGE_OVERHEAD) 0⟩],
          PACK WORD 1⟩],
        nextBase := s.nextBase + N,
        mapCap := s.mapCap,
        mapLog := s.mapLog ++ [N],
        unmapLog := s.unmapLog,
        pagerErr := s.pagerErr } := by
  obtain ⟨hwf, hcount, hmult, hps, hpos, hord, hnext, hnb, hnd, hfl1, hfl2,
    hnoadj, herr⟩ := hWF
  have hpov : PAGE_OVERHEAD = 32 := rfl
  have hov : OVERHEAD = 16 := rfl
  have hpw : PAGE_PAD + WORD = 16 := rfl
  have hbs16 : 16 ∣ N - PAGE_OVERHEAD := by
    rw [hpov]
    omega
  have hbs32 : 32 ≤ N - PAGE_OVERHEAD := by omega
  have hsentsize : blkSize ⟨PACK OVERHEAD 1, PACK OVERHEAD 1⟩ = 16 := by decide
  have hnewwf : ChunkWF ⟨s.nextBase, N,
      [⟨PACK OVERHEAD 1, PACK OVERHEAD 1⟩,
       ⟨PACK (N - PAGE_OVERHEAD) 0, PACK (N - PAGE_OVERHEAD) 0⟩],
      PACK WORD 1⟩ := by
    refine ⟨rfl, rfl, ?_, ?_, ?_, by simp⟩
    · intro b hb
      simp at hb
      rw [hb]
      exact tagok_free_pack _ hbs16 hbs32
    · show sizesSum _ + OVERHEAD = N
      rw [sizesSum_cons, sizesSum_cons, sizesSum_nil]
      rw [hsentsize, blkSize_pack_zero _ _ hbs16]
      omega
    · show s.nextBase % 16 = 0
      omega
  have hbp : payloadAddr (⟨s.nextBase, N,
      [⟨PACK OVERHEAD 1, PACK OVERHEAD 1⟩,
       ⟨PACK (N - PAGE_OVERHEAD) 0, PACK (N - PAGE_OVERHEAD) 0⟩],
      PACK WORD 1⟩ : Chunk) 1 = s.nextBase + PAGE_PAD + OVERHEAD + WORD := by
    rw [payloadAddr_mk]
    simp only [List.take_succ_cons, List.take_zero]
    rw [sizesSum_cons, sizesSum_nil, hsentsize]
    omega
  have hfresh : ∀ a ∈ s.free_list, a < s.nextBase := by
    intro a ha
    exact freeAt_lt_nextBase s hwf hnext a (hfl1 a ha)
  refine ⟨?_, ?_, ?_, hps, hpos, ?_, ?_, ?_, ?_, ?_, ?_, ?_, herr⟩
  · -- all chunks well-formed
    intro c hc
    rcases List.mem_append.1 hc with h1 | h2
    · exact hwf c h1
    · simp at h2
      rw [h2]
      exact hnewwf
  · -- chunk count
    simp [hcount]
  · -- multiplier stays in the reachable set
    show (if s.map_multiplier < MAX_PAGE_PER_MAP
      then s.map_multiplier * 2 else s.map_multiplier) ∈ [1, 2, 4, 8, 16, 32]
    simp at hmult
    rcases hmult with h | h | h | h | h | h <;> rw [h] <;> decide
  · -- chunks ordered
    rw [List.pairwise_append]
    refine ⟨hord, by simp, ?_⟩
    intro a ha b hb
    simp at hb
    rw [hb]
    exact hnext a ha
  · -- chunks end below nextBase
    intro c hc
    show c.base + c.csize ≤ s.nextBase + N
    rcases List.mem_append.1 hc with h1 | h2
    · have := hnext c h1
      omega
    · rw [show c = (⟨s.nextBase, N,
          [⟨PACK OVERHEAD 1, PACK OVERHEAD 1⟩,
           ⟨PACK (N - PAGE_OVERHEAD) 0, PACK (N - PAGE_OVERHEAD) 0⟩],
          PACK WORD 1⟩ : Chunk) from by simpa using h2]
  · -- nextBase stays aligned
    exact Nat.dvd_add hnb hdvd
  · -- free list has no duplicates
    refine List.nodup_cons.2 ⟨?_, hnd⟩
    intro hmem
    have := hfresh _ hmem
    have hx : PAGE_PAD + OVERHEAD + WORD = 32 := rfl
    omega
  · -- every free-list node is a free block
    intro a ha
    rcases List.mem_cons.1 ha with h1 | h2
    · refine ⟨s.chunks.length, by simp, 1, ?_, by omega, ?_, ?_⟩
      · rw [chunkAt_mk, getD_append_right _ _ _ _ (by omega)]
        simp
      · rw [chunkAt_mk, getD_append_right _ _ _ _ (by omega)]
        simp only [Nat.sub_self, List.getD_cons_zero]
        show blkAlloc (blockAt _ 1) = 0
        unfold blockAt
        simp only [List.getD_cons_succ, List.getD_cons_zero]
        exact blkAlloc_pack_zero _ _ hbs16
      · rw [chunkAt_mk, getD_append_right _ _ _ _ (by omega)]
        simp only [Nat.sub_self, List.getD_cons_zero]
        rw [hbp, h1]
    · obtain ⟨ci, hci, i, hilen, hi, hfree, hpa⟩ := hfl1 a h2
      refine ⟨ci, by simp; omega, i, ?_, hi, ?_, ?_⟩
      · rw [chunkAt_mk, getD_append_left _ _ _ _ hci]
        exact hilen
      · rw [chunkAt_mk, getD_append_left _ _ _ _ hci]
        exact hfree
      · rw [chunkAt_mk, getD_append_left _ _ _ _ hci]
        exact hpa
  · -- every free block is on the free list
    intro ci hci i hilen hi hfree
    rw [List.length_append] at hci
    simp only [List.length_cons] at hci
    by_cases hlt : ci < s.chunks.length
    · rw [chunkAt_mk, getD_append_left _ _ _ _ hlt] at hilen hfree ⊢
      right
      exact hfl2 ci hlt i hilen hi hfree
    · have hceq : ci = s.chunks.length := by simp at hci; omega
      subst hceq
      rw [chunkAt_mk, getD_append_right _ _ _ _ (by omega)] at hilen hfree ⊢
      simp only [Nat.sub_self, List.getD_cons_zero] at hilen hfree ⊢
      have hieq : i = 1 := by
        simp at hilen
        omega
      subst hieq
      rw [hbp]
      exact List.mem_cons_self _ _
  · -- no adjacent free blocks
    intro c hc
    rcases List.mem_append.1 hc with h1 | h2
    · exact hnoadj c h1
    · simp at h2
      rw [h2]
      intro j hj
      simp at hj
      have hj0 : j = 0 := by omega
      subst hj0
      left
      show blkAlloc ⟨PACK OVERHEAD 1, PACK OVERHEAD 1⟩ = 1
      decide

/-- On pager failure `extend` only advances the multiplier and the log;
the invariant survives. -/
theorem statewf_mult_log (s : AllocState) (hWF : StateWF s) (ml : List Nat) :
    StateWF { s with
      map_multiplier := (if s.map_multiplier < MAX_PAGE_PER_MAP
        then s.map_multiplier * 2 else s.map_multiplier),
      mapLog := ml } := by
  obtain ⟨hwf, hcount, hmult, hps, hpos, hord, hnext, hnb, hnd, hfl1, hfl2,
    hnoadj, herr⟩ := hWF
  refine ⟨hwf, hcount, ?_, hps, hpos, hord, hnext, hnb, hnd, hfl1, hfl2,
    hnoadj, herr⟩
  show (if s.map_multiplier < MAX_PAGE_PER_MAP
    then s.map_multiplier * 2 else s.map_multiplier) ∈ [1, 2, 4, 8, 16, 32]
  simp at hmult
  rcases hmult with h | h | h | h | h | h <;> rw [h] <;> decide

/-- `extend` preserves the invariant and returns the fresh payload pointer
(or null on pager failure). -/
theorem extend_wf (s : AllocState) (size : Nat) (hWF : StateWF s)
    (hsz : MIN_BLOCK_SIZE ≤ size)
    (hsm : size + PAGE_OVERHEAD < SIZE_MOD)
    (hA : PAGE_ALIGN s.pagesize (size + PAGE_OVERHEAD) < 2 ^ 31)
    (hB : s.map_multiplier * s.pagesize < 2 ^ 31) :
    StateWF (extend s size).2 ∧
      ((extend s size).1 = none
        ∨ (extend s size).1 = some (s.nextBase + PAGE_PAD + OVERHEAD + WORD)) := by
  have hps : 16 ∣ s.pagesize := hWF.2.2.2.1
  have hpos : 0 < s.pagesize := hWF.2.2.2.2.1
  obtain ⟨h16, hge⟩ := newsize_facts s size hps hpos
  have hm : MIN_BLOCK_SIZE = 32 := rfl
  have hpov : PAGE_OVERHEAD = 32 := rfl
  by_cases hcap : (if s.map_multiplier * s.pagesize
      < PAGE_ALIGN s.pagesize (size + PAGE_OVERHEAD)
    then PAGE_ALIGN s.pagesize (size + PAGE_OVERHEAD)
    else s.map_multiplier * s.pagesize) ≤ s.mapCap
  · rw [extend_success s size hsm hA hB hpos hcap]
    constructor
    · exact statewf_extend_state s _ hWF h16 (by omega)
    · right
      rfl
  · rw [extend_fail s size hsm hA hB hcap]
    constructor
    · exact statewf_mult_log s hWF _
    · left
      rfl

/-!
## `allocate`: characterization and invariant preservation
-/

theorem allocate_eq_split (s : AllocState) (ci i size : Nat)
    (hrem : MIN_BLOCK_SIZE ≤ blkSize (blockAt (chunkAt s ci) i) - size)
    (hi : i < (chunkAt s ci).blocks.length) (h16 : 16 ∣ size) :
    allocate s ci i size =
      { s with
        chunks := s.chunks.set ci { chunkAt s ci with
          blocks := (chunkAt s ci).blocks.take i ++
            [⟨PACK size 1, PACK size 1⟩,
             ⟨PACK (blkSize (blockAt (chunkAt s ci) i) - size) 0,
              PACK (blkSize (blockAt (chunkAt s ci) i) - size) 0⟩] ++
            (chunkAt s ci).blocks.drop (i + 1) },
        free_list := del_free
          (add_free s.free_list (payloadAddr (chunkAt s ci) i + size))
          (payloadAddr (chunkAt s ci) i) } := by
  unfold allocate
  simp only []
  rw [if_pos hrem, if_pos hrem]
  have h1 : blockAt { chunkAt s ci with
      blocks := (chunkAt s ci).blocks.take i ++
        [⟨size, size⟩,
         ⟨PACK (blkSize (blockAt (chunkAt s ci) i) - size) 0,
          PACK (blkSize (blockAt (chunkAt s ci) i) - size) 0⟩] ++
        (chunkAt s ci).blocks.drop (i + 1) } i = ⟨size, size⟩ := by
    unfold blockAt
    simp only []
    rw [splice_getD_mid _ _ i 1 i _ (by omega) (by simp) (by omega)]
    simp [Nat.sub_self]
  rw [h1]
  have h2 : blkSize (⟨size, size⟩ : Block) = size := by
    show GET_SIZE size = size
    exact getsize_of_dvd size h16
  rw [h2]
  have h3 : ({ chunkAt s ci with
      blocks := (chunkAt s ci).blocks.take i ++
        [⟨size, size⟩,
         ⟨PACK (blkSize (blockAt (chunkAt s ci) i) - size) 0,
          PACK (blkSize (blockAt (chunkAt s ci) i) - size) 0⟩] ++
        (chunkAt s ci).blocks.drop (i + 1) } : Chunk).blocks.take i
      = (chunkAt s ci).blocks.take i := by
    simp only []
    exact splice_take _ _ i 1 i (by omega) (by omega)
  have h4 : ({ chunkAt s ci with
      blocks := (chunkAt s ci).blocks.take i ++
        [⟨size, size⟩,
         ⟨PACK (blkSize (blockAt (chunkAt s ci) i) - size) 0,
          PACK (blkSize (blockAt (chunkAt s ci) i) - size) 0⟩] ++
        (chunkAt s ci).blocks.drop (i + 1) } : Chunk).blocks.drop (i + 1)
      = [⟨PACK (blkSize (blockAt (chunkAt s ci) i) - size) 0,
          PACK (blkSize (blockAt (chunkAt s ci) i) - size) 0⟩] ++
        (chunkAt s ci).blocks.drop (i + 1) := by
    simp only []
    have := splice_drop (chunkAt s ci).blocks
      [⟨size, size⟩,
       ⟨PACK (blkSize (blockAt (chunkAt s ci) i) - size) 0,
        PACK (blkSize (blockAt (chunkAt s ci) i) - size) 0⟩] i 1 1
      (by simp) (by omega)
    simpa using this
  rw [h3, h4, List.set_set]
  simp only [List.append_assoc, List.singleton_append, List.cons_append,
    List.nil_append]

theorem allocate_eq_nosplit (s : AllocState) (ci i size : Nat)
    (hrem : ¬ MIN_BLOCK_SIZE ≤ blkSize (blockAt (chunkAt s ci) i) - size) :
    allocate s ci i size =
      { s with
        chunks := s.chunks.set ci { chunkAt s ci with
          blocks := (chunkAt s ci).blocks.take i ++
            [⟨PACK (blkSize (blockAt (chunkAt s ci) i)) 1,
              PACK (blkSize (blockAt (chunkAt s ci) i)) 1⟩] ++
            (chunkAt s ci).blocks.drop (i + 1) },
        free_list := del_free s.free_list (payloadAddr (chunkAt s ci) i) } := by
  unfold allocate
  simp only []
  rw [if_neg hrem, if_neg hrem]

theorem splice_take_mid (l mid : List α) (i k t : Nat) (ht : t ≤ mid.length)
    (hi : i ≤ l.length) :
    (l.take i ++ mid ++ l.drop (i + k)).take (i + t)
      = l.take i ++ mid.take t := by
  have hlen : (l.take i).length = i := by rw [List.length_take]; omega
  rw [List.append_assoc, List.take_append_eq_append_take, hlen,
    List.take_take, Nat.min_eq_right (by omega)]
  have h1 : i + t - i = t := by omega
  rw [h1, List.take_append_eq_append_take]
  have h2 : t - mid.length = 0 := by omega
  rw [h2, List.take_zero, List.append_nil]

theorem splice_take_ge (l mid : List α) (i k t : Nat) (hi : i ≤ l.length) :
    (l.take i ++ mid ++ l.drop (i + k)).take (i + mid.length + t)
      = l.take i ++ mid ++ (l.drop (i + k)).take t := by
  have hlen : (l.take i).length = i := by rw [List.length_take]; omega
  rw [List.append_assoc, List.take_append_eq_append_take, hlen,
    List.take_take, Nat.min_eq_right (by omega)]
  have h1 : i + mid.length + t - i = mid.length + t := by omega
  rw [h1, List.take_append_eq_append_take]
  have h2 : mid.length + t - mid.length = t := by omega
  have h3 : mid.take (mid.length + t) = mid := List.take_of_length_le (by omega)
  rw [h2, h3, List.append_assoc]

theorem payloadAddr_splice_le (c : Chunk) (mid : List Block) (i k j : Nat)
    (hj : j ≤ i) (hi : i ≤ c.blocks.length) :
    payloadAddr { c with
        blocks := c.blocks.take i ++ mid ++ c.blocks.drop (i + k) } j
      = payloadAddr c j := by
  unfold payloadAddr
  simp only []
  rw [splice_take c.blocks mid i k j hj hi]

theorem payloadAddr_splice_mid (c : Chunk) (mid : List Block) (i k t : Nat)
    (ht : t ≤ mid.length) (hi : i ≤ c.blocks.length) :
    payloadAddr { c with
        blocks := c.blocks.take i ++ mid ++ c.blocks.drop (i + k) } (i + t)
      = payloadAddr c i + sizesSum (mid.take t) := by
  unfold payloadAddr
  simp only []
  rw [splice_take_mid c.blocks mid i k t ht hi, sizesSum_append]
  omega

theorem payloadAddr_splice_ge (c : Chunk) (mid : List Block) (i k t : Nat)
    (hi : i + k ≤ c.blocks.length)
    (hsum : sizesSum mid = sizesSum ((c.blocks.take (i + k)).drop i)) :
    payloadAddr { c with
        blocks := c.blocks.take i ++ mid ++ c.blocks.drop (i + k) }
        (i + mid.length + t)
      = payloadAddr c (i + k + t) := by
  unfold payloadAddr
  simp only []
  rw [splice_take_ge c.blocks mid i k t (by omega), sizesSum_append,
    sizesSum_append]
  have hdecomp : c.blocks.take (i + k + t)
      = c.blocks.take (i + k) ++ (c.blocks.drop (i + k)).take t := by
    rw [← List.take_add]
  rw [hdecomp, sizesSum_append]
  have hdecomp2 : c.blocks.take (i + k)
      = c.blocks.take i ++ (c.blocks.take (i + k)).drop i := by
    conv_lhs => rw [← List.take_append_drop i (c.blocks.take (i + k))]
    rw [List.take_take, Nat.min_eq_left (by omega)]
  rw [hdecomp2, sizesSum_append]
  omega

theorem splice1_getD_at (l : List α) (b : α) (i k : Nat) (d : α)
    (hi : i ≤ l.length) :
    (l.take i ++ [b] ++ l.drop (i + k)).getD i d = b := by
  have := splice_getD_mid l [b] i k i d (by omega) (by simp) hi
  simpa using this

theorem splice2_getD_at0 (l : List α) (b1 b2 : α) (i k : Nat) (d : α)
    (hi : i ≤ l.length) :
    (l.take i ++ [b1, b2] ++ l.drop (i + k)).getD i d = b1 := by
  have := splice_getD_mid l [b1, b2] i k i d (by omega) (by simp) hi
  simpa using this

theorem splice2_getD_at1 (l : List α) (b1 b2 : α) (i k : Nat) (d : α)
    (hi : i ≤ l.length) :
    (l.take i ++ [b1, b2] ++ l.drop (i + k)).getD (i + 1) d = b2 := by
  have := splice_getD_mid l [b1, b2] i k (i + 1) d (by omega) (by simp) hi
  rw [this, show i + 1 - i = 1 from by omega]
  rfl

theorem splice1_getD_ge (l : List α) (b : α) (i k j : Nat) (d : α)
    (hj : i + 1 ≤ j) (hi : i ≤ l.length) :
    (l.take i ++ [b] ++ l.drop (i + k)).getD j d = l.getD (j - 1 + k) d := by
  have := splice_getD_ge l [b] i k j d (by simp; omega) hi
  simpa using this

theorem splice2_getD_ge (l : List α) (b1 b2 : α) (i k j : Nat) (d : α)
    (hj : i + 2 ≤ j) (hi : i ≤ l.length) :
    (l.take i ++ [b1, b2] ++ l.drop (i + k)).getD j d
      = l.getD (j - 2 + k) d := by
  have := splice_getD_ge l [b1, b2] i k j d (by simp; omega) hi
  simpa using this

theorem pa_splice1_ge (c : Chunk) (b : Block) (i k j : Nat)
    (hj : i + 1 ≤ j) (hik : i + k ≤ c.blocks.length)
    (hsum : sizesSum [b] = sizesSum ((c.blocks.take (i + k)).drop i)) :
    payloadAddr { c with
        blocks := c.blocks.take i ++ [b] ++ c.blocks.drop (i + k) } j
      = payloadAddr c (j - 1 + k) := by
  have := payloadAddr_splice_ge c [b] i k (j - i - 1) hik hsum
  rw [show i + ([b] : List Block).length + (j - i - 1) = j from by
      simp; omega,
    show i + k + (j - i - 1) = j - 1 + k from by omega] at this
  exact this

theorem pa_splice2_ge (c : Chunk) (b1 b2 : Block) (i k j : Nat)
    (hj : i + 2 ≤ j) (hik : i + k ≤ c.blocks.length)
    (hsum : sizesSum [b1, b2] = sizesSum ((c.blocks.take (i + k)).drop i)) :
    payloadAddr { c with
        blocks := c.blocks.take i ++ [b1, b2] ++ c.blocks.drop (i + k) } j
      = payloadAddr c (j - 2 + k) := by
  have := payloadAddr_splice_ge c [b1, b2] i k (j - i - 2) hik hsum
  rw [show i + ([b1, b2] : List Block).length + (j - i - 2) = j from by
      simp; omega,
    show i + k + (j - i - 2) = j - 2 + k from by omega] at this
  exact this

theorem pa_splice2_at1 (c : Chunk) (b1 b2 : Block) (i k : Nat)
    (hi : i ≤ c.blocks.length) :
    payloadAddr { c with
        blocks := c.blocks.take i ++ [b1, b2] ++ c.blocks.drop (i + k) }
        (i + 1)
      = payloadAddr c i + blkSize b1 := by
  have := payloadAddr_splice_mid c [b1, b2] i k 1 (by simp) hi
  rw [this]
  simp only [List.take_succ_cons, List.take_zero, sizesSum_cons, sizesSum_nil]
  omega

/-- No block's payload address lies strictly inside another block's
extent. -/
theorem addr_inside_block (s : AllocState)
    (hwf : ∀ c ∈ s.chunks, ChunkWF c)
    (hord : s.chunks.Pairwise (fun a b => a.base + a.csize ≤ b.base))
    (ci i : Nat) (hci : ci < s.chunks.length)
    (hilen : i < (chunkAt s ci).blocks.length) (cj j : Nat)
    (hcj : cj < s.chunks.length) (hjlen : j < (chunkAt s cj).blocks.length)
    (q : Nat) (h1 : payloadAddr (chunkAt s ci) i < q)
    (h2 : q < payloadAddr (chunkAt s ci) i
      + blkSize (blockAt (chunkAt s ci) i)) :
    payloadAddr (chunkAt s cj) j ≠ q := by
  intro heq
  have hwi := hwf _ (chunkAt_mem s ci hci)
  have hwj := hwf _ (chunkAt_mem s cj hcj)
  have hposi := chunkwf_pos _ hwi
  have hposj := chunkwf_pos _ hwj
  by_cases hcc : ci = cj
  · subst hcc
    rcases Nat.lt_trichotomy j i with hji | hji | hji
    · -- address of j is at most address of i
      have := payloadAddr_mono (chunkAt s ci) j i (by omega)
      omega
    · subst hji
      omega
    · -- address of j is at least the end of block i
      have hstep := payloadAddr_succ (chunkAt s ci) i hilen
      have := payloadAddr_mono (chunkAt s ci) (i + 1) j (by omega)
      omega
  · have hri := payloadAddr_range _ hwi i hilen
    have hrj := payloadAddr_range _ hwj j hjlen
    have hposbj : 0 < blkSize (blockAt (chunkAt s cj) j) := by
      apply hposj
      rw [blockAt, getD_eq_getElem _ _ _ hjlen]
      exact List.getElem_mem hjlen
    rw [List.pairwise_iff_getElem] at hord
    rcases Nat.lt_or_ge ci cj with hlt | hge
    · have := hord ci cj hci hcj hlt
      rw [← chunkAt_eq s ci hci, ← chunkAt_eq s cj hcj] at this
      omega
    · have hlt2 : cj < ci := by omega
      have := hord cj ci hcj hci hlt2
      rw [← chunkAt_eq s ci hci, ← chunkAt_eq s cj hcj] at this
      omega

/-- Master lemma: replacing chunk `ci` by a well-formed chunk with the same
footprint, together with a free list matching the new block layout,
preserves the invariant.  The flat hypotheses allow use both from fully
well-formed states and from the mid-`mm_free` states of `coalesce`. -/
theorem statewf_set (s : AllocState) (ci : Nat) (c' : Chunk) (fl : List Nat)
    (hwf : ∀ c ∈ s.chunks, ChunkWF c)
    (hcount : s.num_page_chunks = s.chunks.length)
    (hmult : s.map_multiplier ∈ [1, 2, 4, 8, 16, 32])
    (hps : 16 ∣ s.pagesize) (hpos : 0 < s.pagesize)
    (hord : List.Pairwise (fun a b => a.base + a.csize ≤ b.base) s.chunks)
    (hnext : ∀ c ∈ s.chunks, c.base + c.csize ≤ s.nextBase)
    (hnb : 16 ∣ s.nextBase) (herr : s.pagerErr = false)
    (hci : ci < s.chunks.length)
    (hbase : c'.base = (chunkAt s ci).base)
    (hcsize : c'.csize = (chunkAt s ci).csize)
    (hcwf : ChunkWF c') (hadj : NoAdjFree c'.blocks)
    (honoadj : ∀ cj, cj < s.chunks.length → cj ≠ ci →
      NoAdjFree (chunkAt s cj).blocks)
    (hnodup : fl.Nodup)
    (hfa1 : ∀ a ∈ fl,
      FreeAt { s with chunks := s.chunks.set ci c', free_list := fl } a)
    (hfa2 : ∀ cj, cj < s.chunks.length →
      ∀ j, j < (if cj = ci then c' else chunkAt s cj).blocks.length → 1 ≤ j →
        blkAlloc (blockAt (if cj = ci then c' else chunkAt s cj) j) = 0 →
        payloadAddr (if cj = ci then c' else chunkAt s cj) j ∈ fl) :
    StateWF { s with chunks := s.chunks.set ci c', free_list := fl } := by
  refine ⟨?_, ?_, hmult, hps, hpos, ?_, ?_, hnb, hnodup, hfa1, ?_, ?_, herr⟩
  · intro c hc
    rcases List.mem_or_eq_of_mem_set hc with h1 | h2
    · exact hwf c h1
    · rw [h2]
      exact hcwf
  · show s.num_page_chunks = (s.chunks.set ci c').length
    rw [List.length_set]
    exact hcount
  · exact pairwise_set_congr s.chunks ci c' hord hci hbase hcsize
  · intro c hc
    rcases List.mem_or_eq_of_mem_set hc with h1 | h2
    · exact hnext c h1
    · rw [h2]
      show c'.base + c'.csize ≤ s.nextBase
      rw [hbase, hcsize]
      exact hnext _ (chunkAt_mem s ci hci)
  · intro cj hcj j hjlen hj hfree
    have hcj' : cj < s.chunks.length := by
      have h0 : cj < (s.chunks.set ci c').length := hcj
      rw [List.length_set] at h0
      exact h0
    by_cases heq : cj = ci
    · subst heq
      rw [chunkAt_set_self s cj c' fl hcj'] at hjlen hfree ⊢
      have := hfa2 cj hcj' j (by rw [if_pos rfl]; exact hjlen) hj
        (by rw [if_pos rfl]; exact hfree)
      rw [if_pos rfl] at this
      exact this
    · rw [chunkAt_set_ne s ci cj c' fl (fun h => heq h.symm)] at hjlen hfree ⊢
      have := hfa2 cj hcj' j (by rw [if_neg heq]; exact hjlen) hj
        (by rw [if_neg heq]; exact hfree)
      rw [if_neg heq] at this
      exact this
  · intro c hc
    obtain ⟨k, hk, hkeq⟩ := List.getElem_of_mem hc
    have hk' : k < s.chunks.length := by
      rw [List.length_set] at hk
      exact hk
    by_cases hkc : k = ci
    · subst hkc
      rw [List.getElem_set_self] at hkeq
      rw [← hkeq]
      exact hadj
    · rw [List.getElem_set_ne (fun h => hkc h.symm)] at hkeq
      rw [← hkeq, ← chunkAt_eq s k hk']
      exact honoadj k hk' hkc

/-- `allocate` on a free block preserves the invariant. -/
theorem allocate_wf (s : AllocState) (ci i size : Nat) (hWF : StateWF s)
    (hci : ci < s.chunks.length) (hi : 1 ≤ i)
    (hilen : i < (chunkAt s ci).blocks.length)
    (hfree : blkAlloc (blockAt (chunkAt s ci) i) = 0)
    (hsz : MIN_BLOCK_SIZE ≤ size) (h16 : 16 ∣ size)
    (hle : size ≤ blkSize (blockAt (chunkAt s ci) i)) :
    StateWF (allocate s ci i size) := by
  have hwfl := hWF.1
  have hord := hWF.2.2.2.2.2.1
  have hnd := hWF.2.2.2.2.2.2.2.2.1
  have hfl1 := hWF.2.2.2.2.2.2.2.2.2.1
  have hfl2 := hWF.2.2.2.2.2.2.2.2.2.2.1
  have hnoadj := hWF.2.2.2.2.2.2.2.2.2.2.2.1
  have hwfc := hwfl _ (chunkAt_mem s ci hci)
  have htag := blockAt_tagok _ hwfc i hi hilen
  have hbs16 : 16 ∣ blkSize (blockAt (chunkAt s ci) i) := tagok_size_dvd _
  have hbs32 : MIN_BLOCK_SIZE ≤ blkSize (blockAt (chunkAt s ci) i) :=
    tagok_size_ge _ htag
  have hmbs : MIN_BLOCK_SIZE = 32 := rfl
  have hpmem : payloadAddr (chunkAt s ci) i ∈ s.free_list :=
    hfl2 ci hci i hilen hi hfree
  have hstep := payloadAddr_succ (chunkAt s ci) i hilen
  by_cases hrem : MIN_BLOCK_SIZE ≤ blkSize (blockAt (chunkAt s ci) i) - size
  · -- split case
    rw [allocate_eq_split s ci i size hrem hilen h16]
    have hrem16 : 16 ∣ blkSize (blockAt (chunkAt s ci) i) - size := by
      obtain ⟨u, hu⟩ := hbs16
      obtain ⟨v, hv⟩ := h16
      exact ⟨u - v, by omega⟩
    have hX1 : blkSize (⟨PACK size 1, PACK size 1⟩ : Block) = size :=
      blkSize_pack_one _ _ h16
    have hX2 : blkSize (⟨PACK (blkSize (blockAt (chunkAt s ci) i) - size) 0,
        PACK (blkSize (blockAt (chunkAt s ci) i) - size) 0⟩ : Block)
        = blkSize (blockAt (chunkAt s ci) i) - size :=
      blkSize_pack_zero _ _ hrem16
    have hsum : sizesSum [(⟨PACK size 1, PACK size 1⟩ : Block),
        ⟨PACK (blkSize (blockAt (chunkAt s ci) i) - size) 0,
         PACK (blkSize (blockAt (chunkAt s ci) i) - size) 0⟩]
        = sizesSum (((chunkAt s ci).blocks.take (i + 1)).drop i) := by
      rw [segment_one (chunkAt s ci).blocks i ⟨0, 0⟩ hilen]
      rw [sizesSum_cons, sizesSum_cons, sizesSum_nil, sizesSum_cons,
        sizesSum_nil, hX1, hX2]
      show size + (_ - size + 0) = blkSize (blockAt (chunkAt s ci) i) + 0
      omega
    have hlen' : ((chunkAt s ci).blocks.take i ++
        [(⟨PACK size 1, PACK size 1⟩ : Block),
         ⟨PACK (blkSize (blockAt (chunkAt s ci) i) - size) 0,
          PACK (blkSize (blockAt (chunkAt s ci) i) - size) 0⟩] ++
        (chunkAt s ci).blocks.drop (i + 1)).length
        = (chunkAt s ci).blocks.length + 1 := by
      rw [splice_length _ _ i 1 (by omega)]
      simp
      omega
    have hpfree : payloadAddr (chunkAt s ci) i + size ∉ s.free_list := by
      intro hmem
      obtain ⟨cj, hcj, j, hjlen, hj, hfr, hpa⟩ := hfl1 _ hmem
      exact addr_inside_block s hwfl hord ci i hci hilen cj j hcj hjlen
        (payloadAddr (chunkAt s ci) i + size) (by omega) (by omega) hpa
    have herase : del_free (add_free s.free_list
        (payloadAddr (chunkAt s ci) i + size)) (payloadAddr (chunkAt s ci) i)
        = (payloadAddr (chunkAt s ci) i + size) ::
          s.free_list.erase (payloadAddr (chunkAt s ci) i) := by
      unfold del_free add_free
      rw [List.erase_cons_tail]
      simp
      omega
    rw [herase]
    refine statewf_set s ci _ _ hWF.1 hWF.2.1 hWF.2.2.1 hWF.2.2.2.1
      hWF.2.2.2.2.1 hord hWF.2.2.2.2.2.2.1 hWF.2.2.2.2.2.2.2.1
      hWF.2.2.2.2.2.2.2.2.2.2.2.2 hci ?_ ?_ ?_ ?_
      (fun cj hcj _ => hnoadj _ (chunkAt_mem s cj hcj)) ?_ ?_ ?_
    · rfl
    · rfl
    · -- new chunk is well-formed
      exact chunkwf_splice _ hwfc i 1 _ hi (by omega) (by simp)
        (by
          intro b hb
          simp at hb
          rcases hb with hb | hb <;> rw [hb]
          · exact tagok_alloc_pack _ h16 (by omega)
          · exact tagok_free_pack _ hrem16 (by omega))
        hsum
    · -- no adjacent free blocks in the new chunk
      intro j hj
      simp only [] at hj ⊢
      rw [hlen'] at hj
      have hmidlen : ([(⟨PACK size 1, PACK size 1⟩ : Block),
          ⟨PACK (blkSize (blockAt (chunkAt s ci) i) - size) 0,
           PACK (blkSize (blockAt (chunkAt s ci) i) - size) 0⟩] :
          List Block).length = 2 := rfl
      rcases Nat.lt_trichotomy (j + 1) i with hji | hji | hji
      · rw [splice_getD_lt _ _ i 1 j _ (by omega) (by omega),
          splice_getD_lt _ _ i 1 (j + 1) _ (by omega) (by omega)]
        exact hnoadj _ (chunkAt_mem s ci hci) j (by omega)
      · right
        rw [splice_getD_mid _ _ i 1 (j + 1) _ (by omega) (by omega) (by omega)]
        rw [show j + 1 - i = 0 from by omega]
        exact blkAlloc_pack_one _ _ h16
      · rcases Nat.lt_trichotomy j i with hji2 | hji2 | hji2
        · omega
        · left
          rw [splice_getD_mid _ _ i 1 j _ (by omega) (by omega) (by omega)]
          rw [show j - i = 0 from by omega]
          exact blkAlloc_pack_one _ _ h16
        · rcases Nat.lt_trichotomy j (i + 1) with hji3 | hji3 | hji3
          · omega
          · right
            rw [splice_getD_ge _ _ i 1 (j + 1) _ (by rw [hmidlen]; omega)
              (by omega)]
            rw [hmidlen, show j + 1 - 2 + 1 = i + 1 from by omega]
            have := hnoadj _ (chunkAt_mem s ci hci) i (by omega)
            rcases this with h | h
            · exfalso
              unfold blockAt at hfree
              omega
            · exact h
          · rw [splice_getD_ge _ _ i 1 j _ (by rw [hmidlen]; omega) (by omega),
              splice_getD_ge _ _ i 1 (j + 1) _ (by rw [hmidlen]; omega)
                (by omega)]
            rw [hmidlen, show j - 2 + 1 = j - 1 from by omega,
              show j + 1 - 2 + 1 = j - 1 + 1 from by omega]
            exact hnoadj _ (chunkAt_mem s ci hci) (j - 1) (by omega)
    · -- no duplicates in the new free list
      refine List.nodup_cons.2 ⟨?_, hnd.erase _⟩
      intro hmem
      exact hpfree (List.mem_of_mem_erase hmem)
    · -- every node of the new free list is a free block
      intro a ha
      rcases List.mem_cons.1 ha with h1 | h2
      · -- the head is the freshly split remainder block
        refine ⟨ci, ?_, i + 1, ?_, by omega, ?_, ?_⟩
        · show ci < (s.chunks.set ci _).length
          rw [List.length_set]
          exact hci
        · rw [chunkAt_set_self s ci _ _ hci]
          show i + 1 < (_ : List Block).length
          rw [hlen']
          omega
        · rw [chunkAt_set_self s ci _ _ hci]
          unfold blockAt
          rw [splice2_getD_at1 _ _ _ i 1 _ (by omega)]
          exact blkAlloc_pack_zero _ _ hrem16
        · rw [chunkAt_set_self s ci _ _ hci]
          rw [pa_splice2_at1 _ _ _ i 1 (by omega), hX1, h1]
      · -- old nodes move with their blocks
        have hane : a ≠ payloadAddr (chunkAt s ci) i :=
          ((List.Nodup.mem_erase_iff hnd).1 h2).1
        have hafl : a ∈ s.free_list := List.mem_of_mem_erase h2
        obtain ⟨cj, hcj, j, hjlen, hj, hfr, hpa⟩ := hfl1 a hafl
        by_cases hcc : cj = ci
        · rw [hcc] at hcj hjlen hfr hpa
          have hji : j ≠ i := by
            intro h
            subst h
            exact hane hpa.symm
          rcases Nat.lt_or_ge j i with hlt | hge
          · refine ⟨ci, ?_, j, ?_, hj, ?_, ?_⟩
            · show ci < (s.chunks.set ci _).length
              rw [List.length_set]
              exact hcj
            · rw [chunkAt_set_self s ci _ _ hcj]
              show j < (_ : List Block).length
              rw [hlen']
              omega
            · rw [chunkAt_set_self s ci _ _ hcj]
              unfold blockAt
              rw [splice_getD_lt _ _ i 1 j _ (by omega) (by omega)]
              exact hfr
            · rw [chunkAt_set_self s ci _ _ hcj]
              rw [payloadAddr_splice_le _ _ i 1 j (by omega) (by omega)]
              exact hpa
          · have hgt : i < j := by omega
            refine ⟨ci, ?_, j + 1, ?_, by omega, ?_, ?_⟩
            · show ci < (s.chunks.set ci _).length
              rw [List.length_set]
              exact hcj
            · rw [chunkAt_set_self s ci _ _ hcj]
              show j + 1 < (_ : List Block).length
              rw [hlen']
              omega
            · rw [chunkAt_set_self s ci _ _ hcj]
              unfold blockAt
              rw [splice2_getD_ge _ _ _ i 1 (j + 1) _ (by omega) (by omega)]
              rw [show j + 1 - 2 + 1 = j from by omega]
              exact hfr
            · rw [chunkAt_set_self s ci _ _ hcj]
              rw [pa_splice2_ge _ _ _ i 1 (j + 1) (by omega) (by omega) hsum]
              rw [show j + 1 - 2 + 1 = j from by omega]
              exact hpa
        · refine ⟨cj, ?_, j, ?_, hj, ?_, ?_⟩
          · show cj < (s.chunks.set ci _).length
            rw [List.length_set]
            exact hcj
          · rw [chunkAt_set_ne s ci cj _ _ (fun h => hcc h.symm)]
            exact hjlen
          · rw [chunkAt_set_ne s ci cj _ _ (fun h => hcc h.symm)]
            exact hfr
          · rw [chunkAt_set_ne s ci cj _ _ (fun h => hcc h.symm)]
            exact hpa
    · -- every free block is on the new free list
      intro cj hcj j hjlen hj hfr
      by_cases hcc : cj = ci
      · rw [if_pos hcc] at hjlen hfr ⊢
        simp only [] at hjlen hfr
        rw [hlen'] at hjlen
        rcases Nat.lt_trichotomy j i with hlt | heq | hgt
        · -- old block left of the split point
          have hne : payloadAddr (chunkAt s ci) j
              ≠ payloadAddr (chunkAt s ci) i := by
            intro h
            have := payloadAddr_strict (chunkAt s ci) j i
              (chunkwf_pos _ hwfc) hlt (by omega)
            omega
          unfold blockAt at hfr
          rw [splice_getD_lt _ _ i 1 j _ (by omega) (by omega)] at hfr
          have hmem := hfl2 ci hci j (by omega) hj hfr
          right
          rw [payloadAddr_splice_le _ _ i 1 j (by omega) (by omega)]
          exact (List.Nodup.mem_erase_iff hnd).2 ⟨hne, hmem⟩
        · -- the allocated block itself: not free
          exfalso
          subst heq
          unfold blockAt at hfr
          rw [splice2_getD_at0 _ _ _ j 1 _ (by omega)] at hfr
          rw [blkAlloc_pack_one _ _ h16] at hfr
          omega
        · rcases Nat.lt_trichotomy j (i + 1) with hlt2 | heq2 | hgt2
          · omega
          · -- the remainder block: it is the new head
            rw [heq2, pa_splice2_at1 _ _ _ i 1 (by omega), hX1]
            exact List.mem_cons_self _ _
          · -- old block right of the split point
            unfold blockAt at hfr
            simp only [] at hfr
            rw [splice2_getD_ge _ _ _ i 1 j _ (by omega) (by omega)] at hfr
            rw [show j - 2 + 1 = j - 1 from by omega] at hfr
            have hmem := hfl2 ci hci (j - 1) (by omega) (by omega) hfr
            have hne : payloadAddr (chunkAt s ci) (j - 1)
                ≠ payloadAddr (chunkAt s ci) i := by
              intro h
              have := payloadAddr_strict (chunkAt s ci) i (j - 1)
                (chunkwf_pos _ hwfc) (by omega) (by omega)
              omega
            right
            rw [pa_splice2_ge _ _ _ i 1 j (by omega) (by omega) hsum]
            rw [show j - 2 + 1 = j - 1 from by omega]
            exact (List.Nodup.mem_erase_iff hnd).2 ⟨hne, hmem⟩
      · -- blocks of other chunks are untouched
        rw [if_neg hcc] at hjlen hfr ⊢
        have hmem := hfl2 cj hcj j hjlen hj hfr
        have hne : payloadAddr (chunkAt s cj) j
            ≠ payloadAddr (chunkAt s ci) i := by
          intro h
          exact hcc (payloadAddr_inj s hwfl hord cj j ci i hcj hj hjlen hci
            hi hilen h).1
        right
        exact (List.Nodup.mem_erase_iff hnd).2 ⟨hne, hmem⟩
  · -- no-split case
    rw [allocate_eq_nosplit s ci i size hrem]
    have hX : blkSize (⟨PACK (blkSize (blockAt (chunkAt s ci) i)) 1,
        PACK (blkSize (blockAt (chunkAt s ci) i)) 1⟩ : Block)
        = blkSize (blockAt (chunkAt s ci) i) := blkSize_pack_one _ _ hbs16
    have hsum : sizesSum [(⟨PACK (blkSize (blockAt (chunkAt s ci) i)) 1,
        PACK (blkSize (blockAt (chunkAt s ci) i)) 1⟩ : Block)]
        = sizesSum (((chunkAt s ci).blocks.take (i + 1)).drop i) := by
      rw [segment_one (chunkAt s ci).blocks i ⟨0, 0⟩ hilen]
      rw [sizesSum_cons, sizesSum_nil, sizesSum_cons, sizesSum_nil, hX]
      rfl
    have hlen' : ((chunkAt s ci).blocks.take i ++
        [(⟨PACK (blkSize (blockAt (chunkAt s ci) i)) 1,
          PACK (blkSize (blockAt (chunkAt s ci) i)) 1⟩ : Block)] ++
        (chunkAt s ci).blocks.drop (i + 1)).length
        = (chunkAt s ci).blocks.length := by
      rw [splice_length _ _ i 1 (by omega)]
      simp
      omega
    refine statewf_set s ci _ _ hWF.1 hWF.2.1 hWF.2.2.1 hWF.2.2.2.1
      hWF.2.2.2.2.1 hord hWF.2.2.2.2.2.2.1 hWF.2.2.2.2.2.2.2.1
      hWF.2.2.2.2.2.2.2.2.2.2.2.2 hci ?_ ?_ ?_ ?_
      (fun cj hcj _ => hnoadj _ (chunkAt_mem s cj hcj)) ?_ ?_ ?_
    · rfl
    · rfl
    · exact chunkwf_splice _ hwfc i 1 _ hi (by omega) (by simp)
        (by
          intro b hb
          simp at hb
          rw [hb]
          exact tagok_alloc_pack _ hbs16 (by omega))
        hsum
    · -- no adjacent free blocks
      intro j hj
      simp only [] at hj ⊢
      rw [hlen'] at hj
      rcases Nat.lt_trichotomy (j + 1) i with hji | hji | hji
      · rw [splice_getD_lt _ _ i 1 j _ (by omega) (by omega),
          splice_getD_lt _ _ i 1 (j + 1) _ (by omega) (by omega)]
        exact hnoadj _ (chunkAt_mem s ci hci) j (by omega)
      · right
        rw [show j + 1 = i from hji]
        rw [splice1_getD_at _ _ i 1 _ (by omega)]
        exact blkAlloc_pack_one _ _ hbs16
      · rcases Nat.lt_trichotomy j i with hji2 | hji2 | hji2
        · omega
        · left
          rw [hji2, splice1_getD_at _ _ i 1 _ (by omega)]
          exact blkAlloc_pack_one _ _ hbs16
        · rw [splice1_getD_ge _ _ i 1 j _ (by omega) (by omega),
            splice1_getD_ge _ _ i 1 (j + 1) _ (by omega) (by omega)]
          rw [show j - 1 + 1 = j from by omega,
            show j + 1 - 1 + 1 = j + 1 from by omega]
          exact hnoadj _ (chunkAt_mem s ci hci) j (by omega)
    · exact hnd.erase _
    · -- free-list nodes are free blocks
      intro a ha
      have hane : a ≠ payloadAddr (chunkAt s ci) i :=
        ((List.Nodup.mem_erase_iff hnd).1 ha).1
      have hafl : a ∈ s.free_list := List.mem_of_mem_erase ha
      obtain ⟨cj, hcj, j, hjlen, hj, hfr, hpa⟩ := hfl1 a hafl
      by_cases hcc : cj = ci
      · rw [hcc] at hcj hjlen hfr hpa
        have hji : j ≠ i := by
          intro h
          subst h
          exact hane hpa.symm
        refine ⟨ci, ?_, j, ?_, hj, ?_, ?_⟩
        · show ci < (s.chunks.set ci _).length
          rw [List.length_set]
          exact hcj
        · rw [chunkAt_set_self s ci _ _ hcj]
          show j < (_ : List Block).length
          rw [hlen']
          exact hjlen
        · rw [chunkAt_set_self s ci _ _ hcj]
          unfold blockAt
          rcases Nat.lt_or_ge j i with hlt | hge
          · rw [splice_getD_lt _ _ i 1 j _ (by omega) (by omega)]
            exact hfr
          · rw [splice1_getD_ge _ _ i 1 j _ (by omega) (by omega)]
            rw [show j - 1 + 1 = j from by omega]
            exact hfr
        · rw [chunkAt_set_self s ci _ _ hcj]
          rcases Nat.lt_or_ge j i with hlt | hge
          · rw [payloadAddr_splice_le _ _ i 1 j (by omega) (by omega)]
            exact hpa
          · rw [pa_splice1_ge _ _ i 1 j (by omega) (by omega) hsum]
            rw [show j - 1 + 1 = j from by omega]
            exact hpa
      · refine ⟨cj, ?_, j, ?_, hj, ?_, ?_⟩
        · show cj < (s.chunks.set ci _).length
          rw [List.length_set]
          exact hcj
        · rw [chunkAt_set_ne s ci cj _ _ (fun h => hcc h.symm)]
          exact hjlen
        · rw [chunkAt_set_ne s ci cj _ _ (fun h => hcc h.symm)]
          exact hfr
        · rw [chunkAt_set_ne s ci cj _ _ (fun h => hcc h.symm)]
          exact hpa
    · -- free blocks are on the free list
      intro cj hcj j hjlen hj hfr
      by_cases hcc : cj = ci
      · rw [if_pos hcc] at hjlen hfr ⊢
        simp only [] at hjlen hfr
        rw [hlen'] at hjlen
        rcases Nat.lt_trichotomy j i with hlt | heq | hgt
        · have hne : payloadAddr (chunkAt s ci) j
              ≠ payloadAddr (chunkAt s ci) i := by
            intro h
            have := payloadAddr_strict (chunkAt s ci) j i
              (chunkwf_pos _ hwfc) hlt (by omega)
            omega
          unfold blockAt at hfr
          rw [splice_getD_lt _ _ i 1 j _ (by omega) (by omega)] at hfr
          have hmem := hfl2 ci hci j (by omega) hj hfr
          rw [payloadAddr_splice_le _ _ i 1 j (by omega) (by omega)]
          exact (List.Nodup.mem_erase_iff hnd).2 ⟨hne, hmem⟩
        · exfalso
          subst heq
          unfold blockAt at hfr
          simp only [] at hfr
          rw [splice1_getD_at _ _ j 1 _ (by omega)] at hfr
          have hone := blkAlloc_pack_one (blkSize (blockAt (chunkAt s ci) j))
            (PACK (blkSize (blockAt (chunkAt s ci) j)) 1) hbs16
          unfold blockAt at hone
          omega
        · unfold blockAt at hfr
          rw [splice1_getD_ge _ _ i 1 j _ (by omega) (by omega)] at hfr
          rw [show j - 1 + 1 = j from by omega] at hfr
          have hmem := hfl2 ci hci j (by omega) hj hfr
          have hne : payloadAddr (chunkAt s ci) j
              ≠ payloadAddr (chunkAt s ci) i := by
            intro h
            have := payloadAddr_strict (chunkAt s ci) i j
              (chunkwf_pos _ hwfc) (by omega) (by omega)
            omega
          rw [pa_splice1_ge _ _ i 1 j (by omega) (by omega) hsum]
          rw [show j - 1 + 1 = j from by omega]
          exact (List.Nodup.mem_erase_iff hnd).2 ⟨hne, hmem⟩
      · rw [if_neg hcc] at hjlen hfr ⊢
        have hmem := hfl2 cj hcj j hjlen hj hfr
        have hne : payloadAddr (chunkAt s cj) j
            ≠ payloadAddr (chunkAt s ci) i := by
          intro h
          exact hcc (payloadAddr_inj s hwfl hord cj j ci i hcj hj hjlen hci
            hi hilen h).1
        exact (List.Nodup.mem_erase_iff hnd).2 ⟨hne, hmem⟩

/-!
## `coalesce`: characterization and invariant preservation
-/

theorem coalesce_eq_case1 (s : AllocState) (ci i : Nat)
    (hl : GET_ALLOC (blockAt (chunkAt s ci) (i - 1)).hdr = 1)
    (hr : GET_ALLOC (hdrRight (chunkAt s ci) i) = 1) :
    coalesce s ci i = some (i, payloadAddr (chunkAt s ci) i,
      { s with free_list :=
          payloadAddr (chunkAt s ci) i :: s.free_list }) := by
  unfold coalesce
  simp only [hl, hr]
  rfl

theorem coalesce_eq_case2 (s : AllocState) (ci i : Nat)
    (hl : GET_ALLOC (blockAt (chunkAt s ci) (i - 1)).hdr = 0)
    (hr : GET_ALLOC (hdrRight (chunkAt s ci) i) = 1) :
    coalesce s ci i = some (i - 1, payloadAddr (chunkAt s ci) (i - 1),
      { s with chunks := s.chunks.set ci { chunkAt s ci with
          blocks := (chunkAt s ci).blocks.take (i - 1) ++
            [⟨PACK (GET_SIZE (blockAt (chunkAt s ci) (i - 1)).hdr
                + blkSize (blockAt (chunkAt s ci) i)) 0,
              PACK (GET_SIZE (blockAt (chunkAt s ci) (i - 1)).hdr
                + blkSize (blockAt (chunkAt s ci) i)) 0⟩] ++
            (chunkAt s ci).blocks.drop (i + 1) } }) := by
  unfold coalesce
  simp only [hl, hr]
  rfl

theorem coalesce_eq_case3 (s : AllocState) (ci i : Nat)
    (hl : GET_ALLOC (blockAt (chunkAt s ci) (i - 1)).hdr = 1)
    (hr : GET_ALLOC (hdrRight (chunkAt s ci) i) = 0) :
    coalesce s ci i = some (i, payloadAddr (chunkAt s ci) i,
      { s with
        chunks := s.chunks.set ci { chunkAt s ci with
          blocks := (chunkAt s ci).blocks.take i ++
            [⟨PACK (blkSize (blockAt (chunkAt s ci) i)
                + GET_SIZE (hdrRight (chunkAt s ci) i)) 0,
              PACK (blkSize (blockAt (chunkAt s ci) i)
                + GET_SIZE (hdrRight (chunkAt s ci) i)) 0⟩] ++
            (chunkAt s ci).blocks.drop (i + 2) },
        free_list := payloadAddr (chunkAt s ci) i ::
          s.free_list.erase (payloadAddr (chunkAt s ci) i
            + blkSize (blockAt (chunkAt s ci) i)) }) := by
  unfold coalesce
  simp only [hl, hr]
  rfl

theorem coalesce_eq_case4 (s : AllocState) (ci i : Nat)
    (hl : GET_ALLOC (blockAt (chunkAt s ci) (i - 1)).hdr = 0)
    (hr : GET_ALLOC (hdrRight (chunkAt s ci) i) = 0) :
    coalesce s ci i = some (i - 1, payloadAddr (chunkAt s ci) (i - 1),
      { s with
        chunks := s.chunks.set ci { chunkAt s ci with
          blocks := (chunkAt s ci).blocks.take (i - 1) ++
            [⟨PACK (GET_SIZE (blockAt (chunkAt s ci) (i - 1)).hdr
                + blkSize (blockAt (chunkAt s ci) i)
                + GET_SIZE (hdrRight (chunkAt s ci) i)) 0,
              PACK (GET_SIZE (blockAt (chunkAt s ci) (i - 1)).hdr
                + blkSize (blockAt (chunkAt s ci) i)
                + GET_SIZE (hdrRight (chunkAt s ci) i)) 0⟩] ++
            (chunkAt s ci).blocks.drop (i + 2) },
        free_list := s.free_list.erase (payloadAddr (chunkAt s ci) i
          + blkSize (blockAt (chunkAt s ci) i)) }) := by
  unfold coalesce
  simp only [hl, hr]
  rfl

theorem segment_three (l : List α) (i : Nat) (d : α) (h : i + 2 < l.length) :
    (l.take (i + 3)).drop i = [l.getD i d, l.getD (i + 1) d, l.getD (i + 2) d] := by
  apply List.ext_getElem?
  intro j
  match j with
  | 0 =>
    rw [List.getElem?_drop, List.getElem?_take]
    rw [if_pos (by omega)]
    simp [getD_eq_getElem _ _ d (show i < l.length by omega),
      List.getElem?_eq_getElem (show i < l.length by omega)]
  | 1 =>
    rw [List.getElem?_drop, List.getElem?_take]
    rw [if_pos (by omega)]
    simp [getD_eq_getElem _ _ d (show i + 1 < l.length by omega),
      List.getElem?_eq_getElem (show i + 1 < l.length by omega)]
  | 2 =>
    rw [List.getElem?_drop, List.getElem?_take]
    rw [if_pos (by omega)]
    simp [getD_eq_getElem _ _ d h, List.getElem?_eq_getElem h]
  | (n + 3) =>
    rw [List.getElem?_drop, List.getElem?_take]
    rw [if_neg (by omega)]
    simp

/-- A free right neighbour is an interior block, not the terminator. -/
theorem rfree_interior (c : Chunk) (h : ChunkWF c) (i : Nat)
    (hi : i < c.blocks.length) (hr : GET_ALLOC (hdrRight c i) = 0) :
    i + 1 < c.blocks.length := by
  rcases Nat.lt_or_ge (i + 1) c.blocks.length with h1 | h1
  · exact h1
  · exfalso
    have hlen : c.blocks.length = i + 1 := by omega
    rw [hdrRight_term c i hlen, h.2.1] at hr
    simp [GET_ALLOC, PACK] at hr

/-- A free left neighbour is an interior block, not the sentinel. -/
theorem lfree_ge2 (c : Chunk) (h : ChunkWF c) (i : Nat) (hi : 1 ≤ i)
    (hl : GET_ALLOC (blockAt c (i - 1)).hdr = 0) : 2 ≤ i := by
  rcases Nat.lt_or_ge i 2 with h1 | h1
  · exfalso
    have hi1 : i = 1 := by omega
    rw [hi1] at hl
    rw [show (1 : Nat) - 1 = 0 from rfl, blockAt_sentinel c h] at hl
    simp [GET_ALLOC, PACK] at hl
  · exact h1

/-- Case 1 of `coalesce` (both neighbours allocated) restores the full
invariant by inserting the freed block. -/
theorem coalesce_case1_wf (s : AllocState) (ci i : Nat)
    (hP : PreCoalesce s ci i)
    (hl : GET_ALLOC (blockAt (chunkAt s ci) (i - 1)).hdr = 1)
    (hr : GET_ALLOC (hdrRight (chunkAt s ci) i) = 1) :
    StateWF { s with
      free_list := payloadAddr (chunkAt s ci) i :: s.free_list } := by
  obtain ⟨hwf, hcount, hmult, hps, hpos, hord, hnext, hnb, hnd, hf1, hf2,
    hnoadj, herr, hci, hi, hilen, hfree⟩ := hP
  refine ⟨hwf, hcount, hmult, hps, hpos, hord, hnext, hnb, ?_, ?_, ?_, ?_,
    herr⟩
  · refine List.nodup_cons.2 ⟨?_, hnd⟩
    intro hmem
    exact (hf1 _ hmem).2 rfl
  · intro a ha
    rcases List.mem_cons.1 ha with h1 | h2
    · exact ⟨ci, hci, i, hilen, hi, hfree, h1.symm⟩
    · exact (hf1 a h2).1
  · intro cj hcj j hjlen hj hfr
    by_cases hcc : cj = ci ∧ j = i
    · obtain ⟨rfl, rfl⟩ := hcc
      exact List.mem_cons_self _ _
    · exact List.mem_cons_of_mem _ (hf2 cj hcj j hjlen hj hfr hcc)
  · intro c hc
    intro j hj
    obtain ⟨cj, hcj, hcjeq⟩ : ∃ cj, cj < s.chunks.length ∧ chunkAt s cj = c := by
      obtain ⟨cj, hcj, hcjeq⟩ := List.getElem_of_mem hc
      exact ⟨cj, hcj, by rw [chunkAt_eq s cj hcj, hcjeq]⟩
    rw [← hcjeq] at hj ⊢
    by_cases hcc : cj = ci
    · subst hcc
      by_cases hji : j = i - 1
      · subst hji
        left
        exact hl
      · by_cases hji2 : j = i
        · subst hji2
          right
          rw [hdrRight_eq _ _ hj] at hr
          exact hr
        · exact hnoadj cj hcj j hj (fun _ => ⟨hji, hji2⟩)
    · exact hnoadj cj hcj j hj (fun h => absurd h hcc)

/-- Case 2 of `coalesce` (left neighbour free, right allocated) restores
the invariant: the left block absorbs the freed one.  The free list is
untouched — the left neighbour was already on it. -/
theorem coalesce_case2_wf (s : AllocState) (ci i : Nat)
    (hP : PreCoalesce s ci i)
    (hl : GET_ALLOC (blockAt (chunkAt s ci) (i - 1)).hdr = 0)
    (hr : GET_ALLOC (hdrRight (chunkAt s ci) i) = 1) :
    StateWF { s with chunks := s.chunks.set ci { chunkAt s ci with
      blocks := (chunkAt s ci).blocks.take (i - 1) ++
        [⟨PACK (GET_SIZE (blockAt (chunkAt s ci) (i - 1)).hdr
            + blkSize (blockAt (chunkAt s ci) i)) 0,
          PACK (GET_SIZE (blockAt (chunkAt s ci) (i - 1)).hdr
            + blkSize (blockAt (chunkAt s ci) i)) 0⟩] ++
        (chunkAt s ci).blocks.drop (i + 1) } } := by
  obtain ⟨hwf, hcount, hmult, hps, hpos, hord, hnext, hnb, hnd, hf1, hf2,
    hnoadjP, herr, hci, hi, hilen, hfree⟩ := hP
  have hwfc := hwf _ (chunkAt_mem s ci hci)
  have hge2 := lfree_ge2 _ hwfc i hi hl
  have htagl := blockAt_tagok _ hwfc (i - 1) (by omega) (by omega)
  have htagi := blockAt_tagok _ hwfc i hi hilen
  have hlsz := tagok_size_ge _ htagl
  have hisz := tagok_size_ge _ htagi
  have hmbs : MIN_BLOCK_SIZE = 32 := rfl
  have hm16 : 16 ∣ GET_SIZE (blockAt (chunkAt s ci) (i - 1)).hdr
      + blkSize (blockAt (chunkAt s ci) i) :=
    Nat.dvd_add (getsize_dvd _) (tagok_size_dvd _)
  have hm32 : 32 ≤ GET_SIZE (blockAt (chunkAt s ci) (i - 1)).hdr
      + blkSize (blockAt (chunkAt s ci) i) := by
    have h1 : blkSize (blockAt (chunkAt s ci) (i - 1))
        = GET_SIZE (blockAt (chunkAt s ci) (i - 1)).hdr := rfl
    omega
  have hsum : sizesSum [(⟨PACK (GET_SIZE (blockAt (chunkAt s ci) (i - 1)).hdr
        + blkSize (blockAt (chunkAt s ci) i)) 0,
      PACK (GET_SIZE (blockAt (chunkAt s ci) (i - 1)).hdr
        + blkSize (blockAt (chunkAt s ci) i)) 0⟩ : Block)]
      = sizesSum (((chunkAt s ci).blocks.take (i - 1 + 2)).drop (i - 1)) := by
    rw [segment_two (chunkAt s ci).blocks (i - 1) ⟨0, 0⟩ (by omega)]
    rw [show i - 1 + 1 = i from by omega]
    rw [sizesSum_cons, sizesSum_nil, sizesSum_cons, sizesSum_cons,
      sizesSum_nil, blkSize_pack_zero _ _ hm16]
    have e1 : blkSize ((chunkAt s ci).blocks.getD (i - 1) ⟨0, 0⟩)
        = GET_SIZE (blockAt (chunkAt s ci) (i - 1)).hdr := rfl
    have e2 : blkSize ((chunkAt s ci).blocks.getD i ⟨0, 0⟩)
        = blkSize (blockAt (chunkAt s ci) i) := rfl
    omega
  have hppos := chunkwf_pos _ hwfc
  rw [show i + 1 = i - 1 + 2 from by omega]
  refine statewf_set s ci _ _ hwf hcount hmult hps hpos hord hnext hnb herr
    hci rfl rfl ?_ ?_
    (fun cj hcj hne => fun j hj =>
      hnoadjP cj hcj j hj (fun h => absurd h hne)) hnd ?_ ?_
  · -- new chunk well-formed
    exact chunkwf_splice _ hwfc (i - 1) 2 _ (by omega) (by omega) (by simp)
      (by
        intro b hb
        simp at hb
        rw [hb]
        exact tagok_free_pack _ hm16 hm32)
      hsum
  · -- no adjacent free blocks
    intro j hj
    simp only [] at hj ⊢
    rw [splice_length _ _ (i - 1) 2 (by omega)] at hj
    simp only [List.length_cons, List.length_nil] at hj
    rcases Nat.lt_trichotomy (j + 1) (i - 1) with hji | hji | hji
    · rw [splice_getD_lt _ _ (i - 1) 2 j _ (by omega) (by omega),
        splice_getD_lt _ _ (i - 1) 2 (j + 1) _ (by omega) (by omega)]
      exact hnoadjP ci hci j (by omega) (fun _ => by omega)
    · -- pair (i-2, merged): the old pair (i-2, i-1) had i-1 free
      left
      rw [splice_getD_lt _ _ (i - 1) 2 j _ (by omega) (by omega)]
      have := hnoadjP ci hci j (by omega) (fun _ => by omega)
      rcases this with h | h
      · exact h
      · exfalso
        rw [show j + 1 = i - 1 from hji] at h
        have e : blkAlloc ((chunkAt s ci).blocks.getD (i - 1) ⟨0, 0⟩)
            = GET_ALLOC (blockAt (chunkAt s ci) (i - 1)).hdr := rfl
        omega
    · rcases Nat.lt_trichotomy j (i - 1) with hji2 | hji2 | hji2
      · omega
      · -- pair (merged, old i+1): the right neighbour is allocated
        right
        rw [splice1_getD_ge _ _ (i - 1) 2 (j + 1) _ (by omega) (by omega)]
        rw [show j + 1 - 1 + 2 = i + 1 from by omega]
        rw [hdrRight_eq _ _ (by omega)] at hr
        exact hr
      · -- pairs strictly right of the merge
        rw [splice1_getD_ge _ _ (i - 1) 2 j _ (by omega) (by omega),
          splice1_getD_ge _ _ (i - 1) 2 (j + 1) _ (by omega) (by omega)]
        rw [show j - 1 + 2 = j + 1 from by omega,
          show j + 1 - 1 + 2 = j + 1 + 1 from by omega]
        exact hnoadjP ci hci (j + 1) (by omega) (fun _ => by omega)
  · -- free-list nodes are still free blocks
    intro a ha
    obtain ⟨⟨cj, hcj, j, hjlen, hj, hfr, hpa⟩, hane⟩ := hf1 a ha
    by_cases hcc : cj = ci
    · rw [hcc] at hcj hjlen hfr hpa
      have hji : j ≠ i := by
        intro h
        subst h
        exact hane hpa.symm
      rcases Nat.lt_trichotomy j (i - 1) with hlt | heq | hgt
      · refine ⟨ci, ?_, j, ?_, hj, ?_, ?_⟩
        · show ci < (s.chunks.set ci _).length
          rw [List.length_set]
          exact hcj
        · rw [chunkAt_set_self s ci _ _ hcj]
          show j < (_ : List Block).length
          rw [splice_length _ _ (i - 1) 2 (by omega)]
          simp only [List.length_cons, List.length_nil]
          omega
        · rw [chunkAt_set_self s ci _ _ hcj]
          unfold blockAt
          rw [splice_getD_lt _ _ (i - 1) 2 j _ (by omega) (by omega)]
          exact hfr
        · rw [chunkAt_set_self s ci _ _ hcj]
          rw [payloadAddr_splice_le _ _ (i - 1) 2 j (by omega) (by omega)]
          exact hpa
      · -- the left neighbour: it becomes the merged block, same address
        refine ⟨ci, ?_, i - 1, ?_, by omega, ?_, ?_⟩
        · show ci < (s.chunks.set ci _).length
          rw [List.length_set]
          exact hcj
        · rw [chunkAt_set_self s ci _ _ hcj]
          show i - 1 < (_ : List Block).length
          rw [splice_length _ _ (i - 1) 2 (by omega)]
          simp only [List.length_cons, List.length_nil]
          omega
        · rw [chunkAt_set_self s ci _ _ hcj]
          unfold blockAt
          rw [splice1_getD_at _ _ (i - 1) 2 _ (by omega)]
          exact blkAlloc_pack_zero _ _ hm16
        · rw [chunkAt_set_self s ci _ _ hcj]
          rw [payloadAddr_splice_le _ _ (i - 1) 2 (i - 1) (by omega)
            (by omega)]
          rw [← heq]
          exact hpa
      · have hgt2 : i + 1 ≤ j := by omega
        refine ⟨ci, ?_, j - 1, ?_, by omega, ?_, ?_⟩
        · show ci < (s.chunks.set ci _).length
          rw [List.length_set]
          exact hcj
        · rw [chunkAt_set_self s ci _ _ hcj]
          show j - 1 < (_ : List Block).length
          rw [splice_length _ _ (i - 1) 2 (by omega)]
          simp only [List.length_cons, List.length_nil]
          omega
        · rw [chunkAt_set_self s ci _ _ hcj]
          unfold blockAt
          rw [splice1_getD_ge _ _ (i - 1) 2 (j - 1) _ (by omega) (by omega)]
          rw [show j - 1 - 1 + 2 = j from by omega]
          exact hfr
        · rw [chunkAt_set_self s ci _ _ hcj]
          rw [pa_splice1_ge _ _ (i - 1) 2 (j - 1) (by omega) (by omega) hsum]
          rw [show j - 1 - 1 + 2 = j from by omega]
          exact hpa
    · refine ⟨cj, ?_, j, ?_, hj, ?_, ?_⟩
      · show cj < (s.chunks.set ci _).length
        rw [List.length_set]
        exact hcj
      · rw [chunkAt_set_ne s ci cj _ _ (fun h => hcc h.symm)]
        exact hjlen
      · rw [chunkAt_set_ne s ci cj _ _ (fun h => hcc h.symm)]
        exact hfr
      · rw [chunkAt_set_ne s ci cj _ _ (fun h => hcc h.symm)]
        exact hpa
  · -- free blocks are on the free list
    intro cj hcj j hjlen hj hfr
    by_cases hcc : cj = ci
    · rw [if_pos hcc] at hjlen hfr ⊢
      simp only [] at hjlen hfr
      rw [splice_length _ _ (i - 1) 2 (by omega)] at hjlen
      simp only [List.length_cons, List.length_nil] at hjlen
      rcases Nat.lt_trichotomy j (i - 1) with hlt | heq | hgt
      · unfold blockAt at hfr
        rw [splice_getD_lt _ _ (i - 1) 2 j _ (by omega) (by omega)] at hfr
        rw [payloadAddr_splice_le _ _ (i - 1) 2 j (by omega) (by omega)]
        exact hf2 ci hci j (by omega) hj hfr (by omega)
      · rw [payloadAddr_splice_le _ _ (i - 1) 2 j (by omega) (by omega)]
        subst heq
        have hfrl : blkAlloc (blockAt (chunkAt s ci) (i - 1)) = 0 := hl
        exact hf2 ci hci (i - 1) (by omega) hj hfrl (by omega)
      · unfold blockAt at hfr
        rw [splice1_getD_ge _ _ (i - 1) 2 j _ (by omega) (by omega)] at hfr
        rw [show j - 1 + 2 = j + 1 from by omega] at hfr
        rw [pa_splice1_ge _ _ (i - 1) 2 j (by omega) (by omega) hsum]
        rw [show j - 1 + 2 = j + 1 from by omega]
        exact hf2 ci hci (j + 1) (by omega) (by omega) hfr (by omega)
    · rw [if_neg hcc] at hjlen hfr ⊢
      exact hf2 cj hcj j hjlen hj hfr (fun h => hcc h.1)

/-- Case 3 of `coalesce` (right neighbour free, left allocated) restores
the invariant: the freed block absorbs its right neighbour, the right
neighbour leaves the free list and the freed address is pushed. -/
theorem coalesce_case3_wf (s : AllocState) (ci i : Nat)
    (hP : PreCoalesce s ci i)
    (hl : GET_ALLOC (blockAt (chunkAt s ci) (i - 1)).hdr = 1)
    (hr : GET_ALLOC (hdrRight (chunkAt s ci) i) = 0) :
    StateWF { s with
      chunks := s.chunks.set ci { chunkAt s ci with
        blocks := (chunkAt s ci).blocks.take i ++
          [⟨PACK (blkSize (blockAt (chunkAt s ci) i)
              + GET_SIZE (hdrRight (chunkAt s ci) i)) 0,
            PACK (blkSize (blockAt (chunkAt s ci) i)
              + GET_SIZE (hdrRight (chunkAt s ci) i)) 0⟩] ++
          (chunkAt s ci).blocks.drop (i + 2) },
      free_list := payloadAddr (chunkAt s ci) i ::
        s.free_list.erase (payloadAddr (chunkAt s ci) (i + 1)) } := by
  obtain ⟨hwf, hcount, hmult, hps, hpos, hord, hnext, hnb, hnd, hf1, hf2,
    hnoadjP, herr, hci, hi, hilen, hfree⟩ := hP
  have hwfc := hwf _ (chunkAt_mem s ci hci)
  have hipl : i + 1 < (chunkAt s ci).blocks.length :=
    rfree_interior _ hwfc i hilen hr
  have her : hdrRight (chunkAt s ci) i
      = (blockAt (chunkAt s ci) (i + 1)).hdr := hdrRight_eq _ _ hipl
  rw [her] at hr
  have hr1 : blkAlloc (blockAt (chunkAt s ci) (i + 1)) = 0 := hr
  have htagi := blockAt_tagok _ hwfc i hi hilen
  have htagi1 := blockAt_tagok _ hwfc (i + 1) (by omega) hipl
  have hisz := tagok_size_ge _ htagi
  have hmbs : MIN_BLOCK_SIZE = 32 := rfl
  have hm16 : 16 ∣ blkSize (blockAt (chunkAt s ci) i)
      + GET_SIZE (hdrRight (chunkAt s ci) i) := by
    rw [her]
    exact Nat.dvd_add (tagok_size_dvd _) (getsize_dvd _)
  have hm32 : 32 ≤ blkSize (blockAt (chunkAt s ci) i)
      + GET_SIZE (hdrRight (chunkAt s ci) i) := by omega
  have hsum : sizesSum [(⟨PACK (blkSize (blockAt (chunkAt s ci) i)
        + GET_SIZE (hdrRight (chunkAt s ci) i)) 0,
      PACK (blkSize (blockAt (chunkAt s ci) i)
        + GET_SIZE (hdrRight (chunkAt s ci) i)) 0⟩ : Block)]
      = sizesSum (((chunkAt s ci).blocks.take (i + 2)).drop i) := by
    rw [segment_two (chunkAt s ci).blocks i ⟨0, 0⟩ hipl]
    rw [sizesSum_cons, sizesSum_nil, sizesSum_cons, sizesSum_cons,
      sizesSum_nil, blkSize_pack_zero _ _ hm16, her]
    have e1 : blkSize ((chunkAt s ci).blocks.getD i ⟨0, 0⟩)
        = blkSize (blockAt (chunkAt s ci) i) := rfl
    have e2 : blkSize ((chunkAt s ci).blocks.getD (i + 1) ⟨0, 0⟩)
        = GET_SIZE (blockAt (chunkAt s ci) (i + 1)).hdr := rfl
    omega
  have hrAmem : payloadAddr (chunkAt s ci) (i + 1) ∈ s.free_list :=
    hf2 ci hci (i + 1) hipl (by omega) hr1 (by omega)
  have hrAinj : ∀ cj, cj < s.chunks.length → ∀ j, 1 ≤ j →
      j < (chunkAt s cj).blocks.length →
      payloadAddr (chunkAt s cj) j = payloadAddr (chunkAt s ci) (i + 1) →
      cj = ci ∧ j = i + 1 := by
    intro cj hcj j hj hjlen heq
    have := payloadAddr_inj s hwf hord cj j ci (i + 1) hcj hj hjlen hci
      (by omega) hipl heq
    exact this
  refine statewf_set s ci _ _ hwf hcount hmult hps hpos hord hnext hnb herr
    hci rfl rfl ?_ ?_
    (fun cj hcj hne => fun j hj =>
      hnoadjP cj hcj j hj (fun h => absurd h hne)) ?_ ?_ ?_
  · -- new chunk well-formed
    exact chunkwf_splice _ hwfc i 2 _ hi (by omega) (by simp)
      (by
        intro b hb
        simp at hb
        rw [hb]
        exact tagok_free_pack _ hm16 hm32)
      hsum
  · -- no adjacent free blocks
    intro j hj
    simp only [] at hj ⊢
    rw [splice_length _ _ i 2 (by omega)] at hj
    simp only [List.length_cons, List.length_nil] at hj
    rcases Nat.lt_trichotomy (j + 1) i with hji | hji | hji
    · rw [splice_getD_lt _ _ i 2 j _ (by omega) (by omega),
        splice_getD_lt _ _ i 2 (j + 1) _ (by omega) (by omega)]
      exact hnoadjP ci hci j (by omega) (fun _ => by omega)
    · -- pair (i-1, merged): the left neighbour is allocated
      left
      rw [splice_getD_lt _ _ i 2 j _ (by omega) (by omega)]
      have e : blkAlloc ((chunkAt s ci).blocks.getD (i - 1) ⟨0, 0⟩)
          = GET_ALLOC (blockAt (chunkAt s ci) (i - 1)).hdr := rfl
      rw [show j = i - 1 from by omega]
      omega
    · rcases Nat.lt_trichotomy j i with hji2 | hji2 | hji2
      · omega
      · -- pair (merged, old i+2): old pair (i+1, i+2) with i+1 free
        right
        rw [splice1_getD_ge _ _ i 2 (j + 1) _ (by omega) (by omega)]
        rw [show j + 1 - 1 + 2 = i + 2 from by omega]
        have := hnoadjP ci hci (i + 1) (by omega) (fun _ => by omega)
        rcases this with h | h
        · exfalso
          have e : blkAlloc ((chunkAt s ci).blocks.getD (i + 1) ⟨0, 0⟩)
              = blkAlloc (blockAt (chunkAt s ci) (i + 1)) := rfl
          omega
        · exact h
      · rw [splice1_getD_ge _ _ i 2 j _ (by omega) (by omega),
          splice1_getD_ge _ _ i 2 (j + 1) _ (by omega) (by omega)]
        rw [show j - 1 + 2 = j + 1 from by omega,
          show j + 1 - 1 + 2 = j + 1 + 1 from by omega]
        exact hnoadjP ci hci (j + 1) (by omega) (fun _ => by omega)
  · -- the new free list has no duplicates
    refine List.nodup_cons.mpr ⟨?_, hnd.erase _⟩
    intro hmem
    exact (hf1 _ (List.mem_of_mem_erase hmem)).2 rfl
  · -- free-list nodes are still free blocks
    intro a ha
    rcases List.mem_cons.mp ha with hhd | htl
    · -- the freed address: the merged block at index i
      refine ⟨ci, ?_, i, ?_, hi, ?_, ?_⟩
      · show ci < (s.chunks.set ci _).length
        rw [List.length_set]
        exact hci
      · rw [chunkAt_set_self s ci _ _ hci]
        show i < (_ : List Block).length
        rw [splice_length _ _ i 2 (by omega)]
        simp only [List.length_cons, List.length_nil]
        omega
      · rw [chunkAt_set_self s ci _ _ hci]
        unfold blockAt
        rw [splice1_getD_at _ _ i 2 _ (by omega)]
        exact blkAlloc_pack_zero _ _ hm16
      · rw [chunkAt_set_self s ci _ _ hci]
        rw [payloadAddr_splice_le _ _ i 2 i (by omega) (by omega)]
        exact hhd.symm
    · have hane2 : a ≠ payloadAddr (chunkAt s ci) (i + 1) :=
        ((List.Nodup.mem_erase_iff hnd).mp htl).1
      have hafl : a ∈ s.free_list := List.mem_of_mem_erase htl
      obtain ⟨⟨cj, hcj, j, hjlen, hj, hfr, hpa⟩, hane⟩ := hf1 a hafl
      by_cases hcc : cj = ci
      · rw [hcc] at hcj hjlen hfr hpa
        have hji : j ≠ i := by
          intro h
          subst h
          exact hane hpa.symm
        have hji1 : j ≠ i + 1 := by
          intro h
          subst h
          exact hane2 hpa.symm
        rcases Nat.lt_trichotomy j i with hlt | heq | hgt
        · refine ⟨ci, ?_, j, ?_, hj, ?_, ?_⟩
          · show ci < (s.chunks.set ci _).length
            rw [List.length_set]
            exact hcj
          · rw [chunkAt_set_self s ci _ _ hcj]
            show j < (_ : List Block).length
            rw [splice_length _ _ i 2 (by omega)]
            simp only [List.length_cons, List.length_nil]
            omega
          · rw [chunkAt_set_self s ci _ _ hcj]
            unfold blockAt
            rw [splice_getD_lt _ _ i 2 j _ (by omega) (by omega)]
            exact hfr
          · rw [chunkAt_set_self s ci _ _ hcj]
            rw [payloadAddr_splice_le _ _ i 2 j (by omega) (by omega)]
            exact hpa
        · omega
        · have hgt2 : i + 2 ≤ j := by omega
          refine ⟨ci, ?_, j - 1, ?_, by omega, ?_, ?_⟩
          · show ci < (s.chunks.set ci _).length
            rw [List.length_set]
            exact hcj
          · rw [chunkAt_set_self s ci _ _ hcj]
            show j - 1 < (_ : List Block).length
            rw [splice_length _ _ i 2 (by omega)]
            simp only [List.length_cons, List.length_nil]
            omega
          · rw [chunkAt_set_self s ci _ _ hcj]
            unfold blockAt
            rw [splice1_getD_ge _ _ i 2 (j - 1) _ (by omega) (by omega)]
            rw [show j - 1 - 1 + 2 = j from by omega]
            exact hfr
          · rw [chunkAt_set_self s ci _ _ hcj]
            rw [pa_splice1_ge _ _ i 2 (j - 1) (by omega) (by omega) hsum]
            rw [show j - 1 - 1 + 2 = j from by omega]
            exact hpa
      · refine ⟨cj, ?_, j, ?_, hj, ?_, ?_⟩
        · show cj < (s.chunks.set ci _).length
          rw [List.length_set]
          exact hcj
        · rw [chunkAt_set_ne s ci cj _ _ (fun h => hcc h.symm)]
          exact hjlen
        · rw [chunkAt_set_ne s ci cj _ _ (fun h => hcc h.symm)]
          exact hfr
        · rw [chunkAt_set_ne s ci cj _ _ (fun h => hcc h.symm)]
          exact hpa
  · -- free blocks are on the free list
    intro cj hcj j hjlen hj hfr
    by_cases hcc : cj = ci
    · rw [if_pos hcc] at hjlen hfr ⊢
      simp only [] at hjlen hfr
      rw [splice_length _ _ i 2 (by omega)] at hjlen
      simp only [List.length_cons, List.length_nil] at hjlen
      rcases Nat.lt_trichotomy j i with hlt | heq | hgt
      · unfold blockAt at hfr
        rw [splice_getD_lt _ _ i 2 j _ (by omega) (by omega)] at hfr
        rw [payloadAddr_splice_le _ _ i 2 j (by omega) (by omega)]
        have hmem := hf2 ci hci j (by omega) hj hfr (by omega)
        refine List.mem_cons_of_mem _ ((List.Nodup.mem_erase_iff hnd).mpr
          ⟨?_, hmem⟩)
        intro heq
        have := hrAinj ci hci j hj (by omega) heq
        omega
      · rw [payloadAddr_splice_le _ _ i 2 j (by omega) (by omega)]
        rw [heq]
        exact List.mem_cons_self _ _
      · unfold blockAt at hfr
        rw [splice1_getD_ge _ _ i 2 j _ (by omega) (by omega)] at hfr
        rw [show j - 1 + 2 = j + 1 from by omega] at hfr
        rw [pa_splice1_ge _ _ i 2 j (by omega) (by omega) hsum]
        rw [show j - 1 + 2 = j + 1 from by omega]
        have hmem := hf2 ci hci (j + 1) (by omega) (by omega) hfr (by omega)
        refine List.mem_cons_of_mem _ ((List.Nodup.mem_erase_iff hnd).mpr
          ⟨?_, hmem⟩)
        intro heq
        have := hrAinj ci hci (j + 1) (by omega) (by omega) heq
        omega
    · rw [if_neg hcc] at hjlen hfr ⊢
      have hmem := hf2 cj hcj j hjlen hj hfr (fun h => hcc h.1)
      refine List.mem_cons_of_mem _ ((List.Nodup.mem_erase_iff hnd).mpr
        ⟨?_, hmem⟩)
      intro heq
      have := hrAinj cj hcj j hj hjlen heq
      exact hcc this.1

/-- Case 4 of `coalesce` (both neighbours free) restores the invariant:
the left neighbour absorbs the freed block and the right neighbour, and
the right neighbour leaves the free list. -/
theorem coalesce_case4_wf (s : AllocState) (ci i : Nat)
    (hP : PreCoalesce s ci i)
    (hl : GET_ALLOC (blockAt (chunkAt s ci) (i - 1)).hdr = 0)
    (hr : GET_ALLOC (hdrRight (chunkAt s ci) i) = 0) :
    StateWF { s with
      chunks := s.chunks.set ci { chunkAt s ci with
        blocks := (chunkAt s ci).blocks.take (i - 1) ++
          [⟨PACK (GET_SIZE (blockAt (chunkAt s ci) (i - 1)).hdr
              + blkSize (blockAt (chunkAt s ci) i)
              + GET_SIZE (hdrRight (chunkAt s ci) i)) 0,
            PACK (GET_SIZE (blockAt (chunkAt s ci) (i - 1)).hdr
              + blkSize (blockAt (chunkAt s ci) i)
              + GET_SIZE (hdrRight (chunkAt s ci) i)) 0⟩] ++
          (chunkAt s ci).blocks.drop (i + 2) },
      free_list := s.free_list.erase (payloadAddr (chunkAt s ci) (i + 1)) }
    := by
  obtain ⟨hwf, hcount, hmult, hps, hpos, hord, hnext, hnb, hnd, hf1, hf2,
    hnoadjP, herr, hci, hi, hilen, hfree⟩ := hP
  have hwfc := hwf _ (chunkAt_mem s ci hci)
  have hge2 := lfree_ge2 _ hwfc i hi hl
  have hipl : i + 1 < (chunkAt s ci).blocks.length :=
    rfree_interior _ hwfc i hilen hr
  have her : hdrRight (chunkAt s ci) i
      = (blockAt (chunkAt s ci) (i + 1)).hdr := hdrRight_eq _ _ hipl
  rw [her] at hr
  have hr1 : blkAlloc (blockAt (chunkAt s ci) (i + 1)) = 0 := hr
  have htagl := blockAt_tagok _ hwfc (i - 1) (by omega) (by omega)
  have htagi := blockAt_tagok _ hwfc i hi hilen
  have hlsz := tagok_size_ge _ htagl
  have hisz := tagok_size_ge _ htagi
  have hmbs : MIN_BLOCK_SIZE = 32 := rfl
  have hm16 : 16 ∣ GET_SIZE (blockAt (chunkAt s ci) (i - 1)).hdr
      + blkSize (blockAt (chunkAt s ci) i)
      + GET_SIZE (hdrRight (chunkAt s ci) i) := by
    rw [her]
    exact Nat.dvd_add (Nat.dvd_add (getsize_dvd _) (tagok_size_dvd _))
      (getsize_dvd _)
  have hm32 : 32 ≤ GET_SIZE (blockAt (chunkAt s ci) (i - 1)).hdr
      + blkSize (blockAt (chunkAt s ci) i)
      + GET_SIZE (hdrRight (chunkAt s ci) i) := by
    have h1 : blkSize (blockAt (chunkAt s ci) (i - 1))
        = GET_SIZE (blockAt (chunkAt s ci) (i - 1)).hdr := rfl
    omega
  have hsum : sizesSum [(⟨PACK (GET_SIZE (blockAt (chunkAt s ci) (i - 1)).hdr
        + blkSize (blockAt (chunkAt s ci) i)
        + GET_SIZE (hdrRight (chunkAt s ci) i)) 0,
      PACK (GET_SIZE (blockAt (chunkAt s ci) (i - 1)).hdr
        + blkSize (blockAt (chunkAt s ci) i)
        + GET_SIZE (hdrRight (chunkAt s ci) i)) 0⟩ : Block)]
      = sizesSum (((chunkAt s ci).blocks.take (i - 1 + 3)).drop (i - 1)) := by
    rw [segment_three (chunkAt s ci).blocks (i - 1) ⟨0, 0⟩ (by omega)]
    rw [show i - 1 + 1 = i from by omega, show i - 1 + 2 = i + 1 from by omega]
    rw [sizesSum_cons, sizesSum_nil, sizesSum_cons, sizesSum_cons,
      sizesSum_cons, sizesSum_nil, blkSize_pack_zero _ _ hm16, her]
    have e1 : blkSize ((chunkAt s ci).blocks.getD (i - 1) ⟨0, 0⟩)
        = GET_SIZE (blockAt (chunkAt s ci) (i - 1)).hdr := rfl
    have e2 : blkSize ((chunkAt s ci).blocks.getD i ⟨0, 0⟩)
        = blkSize (blockAt (chunkAt s ci) i) := rfl
    have e3 : blkSize ((chunkAt s ci).blocks.getD (i + 1) ⟨0, 0⟩)
        = GET_SIZE (blockAt (chunkAt s ci) (i + 1)).hdr := rfl
    omega
  have hrAinj : ∀ cj, cj < s.chunks.length → ∀ j, 1 ≤ j →
      j < (chunkAt s cj).blocks.length →
      payloadAddr (chunkAt s cj) j = payloadAddr (chunkAt s ci) (i + 1) →
      cj = ci ∧ j = i + 1 :=
    fun cj hcj j hj hjlen heq =>
      payloadAddr_inj s hwf hord cj j ci (i + 1) hcj hj hjlen hci
        (by omega) hipl heq
  rw [show i + 2 = i - 1 + 3 from by omega]
  refine statewf_set s ci _ _ hwf hcount hmult hps hpos hord hnext hnb herr
    hci rfl rfl ?_ ?_
    (fun cj hcj hne => fun j hj =>
      hnoadjP cj hcj j hj (fun h => absurd h hne)) (hnd.erase _) ?_ ?_
  · -- new chunk well-formed
    exact chunkwf_splice _ hwfc (i - 1) 3 _ (by omega) (by omega) (by simp)
      (by
        intro b hb
        simp at hb
        rw [hb]
        exact tagok_free_pack _ hm16 hm32)
      hsum
  · -- no adjacent free blocks
    intro j hj
    simp only [] at hj ⊢
    rw [splice_length _ _ (i - 1) 3 (by omega)] at hj
    simp only [List.length_cons, List.length_nil] at hj
    rcases Nat.lt_trichotomy (j + 1) (i - 1) with hji | hji | hji
    · rw [splice_getD_lt _ _ (i - 1) 3 j _ (by omega) (by omega),
        splice_getD_lt _ _ (i - 1) 3 (j + 1) _ (by omega) (by omega)]
      exact hnoadjP ci hci j (by omega) (fun _ => by omega)
    · -- pair (i-2, merged): the old pair (i-2, i-1) had i-1 free
      left
      rw [splice_getD_lt _ _ (i - 1) 3 j _ (by omega) (by omega)]
      have := hnoadjP ci hci j (by omega) (fun _ => by omega)
      rcases this with h | h
      · exact h
      · exfalso
        rw [show j + 1 = i - 1 from hji] at h
        have e : blkAlloc ((chunkAt s ci).blocks.getD (i - 1) ⟨0, 0⟩)
            = GET_ALLOC (blockAt (chunkAt s ci) (i - 1)).hdr := rfl
        omega
    · rcases Nat.lt_trichotomy j (i - 1) with hji2 | hji2 | hji2
      · omega
      · -- pair (merged, old i+2): old pair (i+1, i+2) with i+1 free
        right
        rw [splice1_getD_ge _ _ (i - 1) 3 (j + 1) _ (by omega) (by omega)]
        rw [show j + 1 - 1 + 3 = i + 2 from by omega]
        have := hnoadjP ci hci (i + 1) (by omega) (fun _ => by omega)
        rcases this with h | h
        · exfalso
          have e : blkAlloc ((chunkAt s ci).blocks.getD (i + 1) ⟨0, 0⟩)
              = blkAlloc (blockAt (chunkAt s ci) (i + 1)) := rfl
          omega
        · exact h
      · rw [splice1_getD_ge _ _ (i - 1) 3 j _ (by omega) (by omega),
          splice1_getD_ge _ _ (i - 1) 3 (j + 1) _ (by omega) (by omega)]
        rw [show j - 1 + 3 = j + 2 from by omega,
          show j + 1 - 1 + 3 = j + 2 + 1 from by omega]
        exact hnoadjP ci hci (j + 2) (by omega) (fun _ => by omega)
  · -- free-list nodes are still free blocks
    intro a ha
    have hane2 : a ≠ payloadAddr (chunkAt s ci) (i + 1) :=
      ((List.Nodup.mem_erase_iff hnd).mp ha).1
    have hafl : a ∈ s.free_list := List.mem_of_mem_erase ha
    obtain ⟨⟨cj, hcj, j, hjlen, hj, hfr, hpa⟩, hane⟩ := hf1 a hafl
    by_cases hcc : cj = ci
    · rw [hcc] at hcj hjlen hfr hpa
      have hji : j ≠ i := by
        intro h
        subst h
        exact hane hpa.symm
      have hji1 : j ≠ i + 1 := by
        intro h
        subst h
        exact hane2 hpa.symm
      rcases Nat.lt_trichotomy j (i - 1) with hlt | heq | hgt
      · refine ⟨ci, ?_, j, ?_, hj, ?_, ?_⟩
        · show ci < (s.chunks.set ci _).length
          rw [List.length_set]
          exact hcj
        · rw [chunkAt_set_self s ci _ _ hcj]
          show j < (_ : List Block).length
          rw [splice_length _ _ (i - 1) 3 (by omega)]
          simp only [List.length_cons, List.length_nil]
          omega
        · rw [chunkAt_set_self s ci _ _ hcj]
          unfold blockAt
          rw [splice_getD_lt _ _ (i - 1) 3 j _ (by omega) (by omega)]
          exact hfr
        · rw [chunkAt_set_self s ci _ _ hcj]
          rw [payloadAddr_splice_le _ _ (i - 1) 3 j (by omega) (by omega)]
          exact hpa
      · -- the left neighbour becomes the merged block, same address
        refine ⟨ci, ?_, i - 1, ?_, by omega, ?_, ?_⟩
        · show ci < (s.chunks.set ci _).length
          rw [List.length_set]
          exact hcj
        · rw [chunkAt_set_self s ci _ _ hcj]
          show i - 1 < (_ : List Block).length
          rw [splice_length _ _ (i - 1) 3 (by omega)]
          simp only [List.length_cons, List.length_nil]
          omega
        · rw [chunkAt_set_self s ci _ _ hcj]
          unfold blockAt
          rw [splice1_getD_at _ _ (i - 1) 3 _ (by omega)]
          exact blkAlloc_pack_zero _ _ hm16
        · rw [chunkAt_set_self s ci _ _ hcj]
          rw [payloadAddr_splice_le _ _ (i - 1) 3 (i - 1) (by omega)
            (by omega)]
          rw [← heq]
          exact hpa
      · have hgt2 : i + 2 ≤ j := by omega
        refine ⟨ci, ?_, j - 2, ?_, by omega, ?_, ?_⟩
        · show ci < (s.chunks.set ci _).length
          rw [List.length_set]
          exact hcj
        · rw [chunkAt_set_self s ci _ _ hcj]
          show j - 2 < (_ : List Block).length
          rw [splice_length _ _ (i - 1) 3 (by omega)]
          simp only [List.length_cons, List.length_nil]
          omega
        · rw [chunkAt_set_self s ci _ _ hcj]
          unfold blockAt
          rw [splice1_getD_ge _ _ (i - 1) 3 (j - 2) _ (by omega) (by omega)]
          rw [show j - 2 - 1 + 3 = j from by omega]
          exact hfr
        · rw [chunkAt_set_self s ci _ _ hcj]
          rw [pa_splice1_ge _ _ (i - 1) 3 (j - 2) (by omega) (by omega) hsum]
          rw [show j - 2 - 1 + 3 = j from by omega]
          exact hpa
    · refine ⟨cj, ?_, j, ?_, hj, ?_, ?_⟩
      · show cj < (s.chunks.set ci _).length
        rw [List.length_set]
        exact hcj
      · rw [chunkAt_set_ne s ci cj _ _ (fun h => hcc h.symm)]
        exact hjlen
      · rw [chunkAt_set_ne s ci cj _ _ (fun h => hcc h.symm)]
        exact hfr
      · rw [chunkAt_set_ne s ci cj _ _ (fun h => hcc h.symm)]
        exact hpa
  · -- free blocks are on the free list
    intro cj hcj j hjlen hj hfr
    by_cases hcc : cj = ci
    · rw [if_pos hcc] at hjlen hfr ⊢
      simp only [] at hjlen hfr
      rw [splice_length _ _ (i - 1) 3 (by omega)] at hjlen
      simp only [List.length_cons, List.length_nil] at hjlen
      rcases Nat.lt_trichotomy j (i - 1) with hlt | heq | hgt
      · unfold blockAt at hfr
        rw [splice_getD_lt _ _ (i - 1) 3 j _ (by omega) (by omega)] at hfr
        rw [payloadAddr_splice_le _ _ (i - 1) 3 j (by omega) (by omega)]
        have hmem := hf2 ci hci j (by omega) hj hfr (by omega)
        refine (List.Nodup.mem_erase_iff hnd).mpr ⟨?_, hmem⟩
        intro heq
        have := hrAinj ci hci j hj (by omega) heq
        omega
      · rw [payloadAddr_splice_le _ _ (i - 1) 3 j (by omega) (by omega)]
        subst heq
        have hfrl : blkAlloc (blockAt (chunkAt s ci) (i - 1)) = 0 := hl
        have hmem := hf2 ci hci (i - 1) (by omega) hj hfrl (by omega)
        refine (List.Nodup.mem_erase_iff hnd).mpr ⟨?_, hmem⟩
        intro heq
        have := hrAinj ci hci (i - 1) hj (by omega) heq
        omega
      · unfold blockAt at hfr
        rw [splice1_getD_ge _ _ (i - 1) 3 j _ (by omega) (by omega)] at hfr
        rw [show j - 1 + 3 = j + 2 from by omega] at hfr
        rw [pa_splice1_ge _ _ (i - 1) 3 j (by omega) (by omega) hsum]
        rw [show j - 1 + 3 = j + 2 from by omega]
        have hmem := hf2 ci hci (j + 2) (by omega) (by omega) hfr (by omega)
        refine (List.Nodup.mem_erase_iff hnd).mpr ⟨?_, hmem⟩
        intro heq
        have := hrAinj ci hci (j + 2) (by omega) (by omega) heq
        omega
    · rw [if_neg hcc] at hjlen hfr ⊢
      have hmem := hf2 cj hcj j hjlen hj hfr (fun h => hcc h.1)
      refine (List.Nodup.mem_erase_iff hnd).mpr ⟨?_, hmem⟩
      intro heq
      have := hrAinj cj hcj j hj hjlen heq
      exact hcc this.1

/-- A tag word's alloc bit is zero or one. -/
theorem getalloc_cases (w : Nat) : GET_ALLOC w = 0 ∨ GET_ALLOC w = 1 :=
  Nat.mod_two_eq_zero_or_one w

/-- Clearing the tags of a live allocated block — the first two `PUT`s of
`mm_free` — produces the mid-`mm_free` state `coalesce` expects. -/
theorem precoalesce_clear (s : AllocState) (ci i : Nat) (hWF : StateWF s)
    (hci : ci < s.chunks.length) (hi : 1 ≤ i)
    (hilen : i < (chunkAt s ci).blocks.length)
    (halloc : blkAlloc (blockAt (chunkAt s ci) i) = 1) :
    PreCoalesce { s with chunks := s.chunks.set ci { chunkAt s ci with
      blocks := (chunkAt s ci).blocks.take i ++
        [⟨PACK (blkSize (blockAt (chunkAt s ci) i)) 0,
          PACK (blkSize (blockAt (chunkAt s ci) i)) 0⟩] ++
        (chunkAt s ci).blocks.drop (i + 1) } } ci i := by
  obtain ⟨hwf, hcount, hmult, hps, hpos, hord, hnext, hnb, hnd, hfl1, hfl2,
    hnoadj, herr⟩ := hWF
  have hwfc := hwf _ (chunkAt_mem s ci hci)
  have htagi := blockAt_tagok _ hwfc i hi hilen
  have hm16 : 16 ∣ blkSize (blockAt (chunkAt s ci) i) := tagok_size_dvd _
  have hmbs : MIN_BLOCK_SIZE = 32 := rfl
  have hm32 : 32 ≤ blkSize (blockAt (chunkAt s ci) i) := by
    have := tagok_size_ge _ htagi
    omega
  have hsum : sizesSum [(⟨PACK (blkSize (blockAt (chunkAt s ci) i)) 0,
      PACK (blkSize (blockAt (chunkAt s ci) i)) 0⟩ : Block)]
      = sizesSum (((chunkAt s ci).blocks.take (i + 1)).drop i) := by
    rw [segment_one (chunkAt s ci).blocks i ⟨0, 0⟩ hilen]
    rw [sizesSum_cons, sizesSum_nil, sizesSum_cons, sizesSum_nil,
      blkSize_pack_zero _ _ hm16]
    rfl
  have hlen' : ((chunkAt s ci).blocks.take i ++
      [(⟨PACK (blkSize (blockAt (chunkAt s ci) i)) 0,
        PACK (blkSize (blockAt (chunkAt s ci) i)) 0⟩ : Block)] ++
      (chunkAt s ci).blocks.drop (i + 1)).length
      = (chunkAt s ci).blocks.length := by
    rw [splice_length _ _ i 1 (by omega)]
    simp only [List.length_cons, List.length_nil]
    omega
  refine ⟨?_, ?_, hmult, hps, hpos, ?_, ?_, hnb, hnd, ?_, ?_, ?_, herr,
    ?_, hi, ?_, ?_⟩
  · intro c hc
    rcases List.mem_or_eq_of_mem_set hc with h1 | h2
    · exact hwf c h1
    · rw [h2]
      exact chunkwf_splice _ hwfc i 1 _ hi (by omega) (by simp)
        (by
          intro b hb
          simp at hb
          rw [hb]
          exact tagok_free_pack _ hm16 hm32)
        hsum
  · show s.num_page_chunks = (s.chunks.set ci _).length
    rw [List.length_set]
    exact hcount
  · exact pairwise_set_congr s.chunks ci _ hord hci rfl rfl
  · intro c hc
    rcases List.mem_or_eq_of_mem_set hc with h1 | h2
    · exact hnext c h1
    · rw [h2]
      show (chunkAt s ci).base + (chunkAt s ci).csize ≤ s.nextBase
      exact hnext _ (chunkAt_mem s ci hci)
  · -- free-list nodes stay free blocks distinct from the cleared one
    intro a ha
    obtain ⟨cj, hcj, j, hjlen, hj, hfr, hpa⟩ := hfl1 a ha
    have hnotsame : ¬(cj = ci ∧ j = i) := by
      intro ⟨h1, h2⟩
      rw [h1, h2] at hfr
      omega
    constructor
    · by_cases hcc : cj = ci
      · rw [hcc] at hcj hjlen hfr hpa
        have hji : j ≠ i := fun h => hnotsame ⟨hcc, h⟩
        refine ⟨ci, ?_, j, ?_, hj, ?_, ?_⟩
        · show ci < (s.chunks.set ci _).length
          rw [List.length_set]
          exact hcj
        · rw [chunkAt_set_self s ci _ _ hcj]
          show j < (_ : List Block).length
          rw [hlen']
          exact hjlen
        · rw [chunkAt_set_self s ci _ _ hcj]
          unfold blockAt
          rcases Nat.lt_or_ge j i with hlt | hge
          · rw [splice_getD_lt _ _ i 1 j _ (by omega) (by omega)]
            exact hfr
          · rw [splice1_getD_ge _ _ i 1 j _ (by omega) (by omega)]
            rw [show j - 1 + 1 = j from by omega]
            exact hfr
        · rw [chunkAt_set_self s ci _ _ hcj]
          rcases Nat.lt_or_ge j i with hlt | hge
          · rw [payloadAddr_splice_le _ _ i 1 j (by omega) (by omega)]
            exact hpa
          · have hgt : i + 1 ≤ j := by omega
            rw [pa_splice1_ge _ _ i 1 j (by omega) (by omega) hsum]
            rw [show j - 1 + 1 = j from by omega]
            exact hpa
      · refine ⟨cj, ?_, j, ?_, hj, ?_, ?_⟩
        · show cj < (s.chunks.set ci _).length
          rw [List.length_set]
          exact hcj
        · rw [chunkAt_set_ne s ci cj _ _ (fun h => hcc h.symm)]
          exact hjlen
        · rw [chunkAt_set_ne s ci cj _ _ (fun h => hcc h.symm)]
          exact hfr
        · rw [chunkAt_set_ne s ci cj _ _ (fun h => hcc h.symm)]
          exact hpa
    · -- distinct block, distinct address
      rw [chunkAt_set_self s ci _ _ hci]
      rw [payloadAddr_splice_le _ _ i 1 i (by omega) (by omega)]
      intro heq
      have := payloadAddr_inj s hwf hord cj j ci i hcj hj hjlen hci hi hilen
        (by rw [hpa, heq])
      exact hnotsame this
  · -- free blocks away from (ci, i) are on the free list
    intro cj hcj j hjlen hj hfr hne
    rw [List.length_set] at hcj
    by_cases hcc : cj = ci
    · rw [hcc] at hcj hjlen hfr hne ⊢
      rw [chunkAt_set_self s ci _ _ hcj] at hjlen hfr ⊢
      simp only [] at hjlen hfr
      rw [hlen'] at hjlen
      have hji : j ≠ i := fun h => hne ⟨rfl, h⟩
      rcases Nat.lt_or_ge j i with hlt | hge
      · unfold blockAt at hfr
        rw [splice_getD_lt _ _ i 1 j _ (by omega) (by omega)] at hfr
        rw [payloadAddr_splice_le _ _ i 1 j (by omega) (by omega)]
        exact hfl2 ci hci j hjlen hj hfr
      · unfold blockAt at hfr
        rw [splice1_getD_ge _ _ i 1 j _ (by omega) (by omega)] at hfr
        rw [show j - 1 + 1 = j from by omega] at hfr
        rw [pa_splice1_ge _ _ i 1 j (by omega) (by omega) hsum]
        rw [show j - 1 + 1 = j from by omega]
        exact hfl2 ci hci j hjlen hj hfr
    · rw [chunkAt_set_ne s ci cj _ _ (fun h => hcc h.symm)] at hjlen hfr ⊢
      exact hfl2 cj hcj j hjlen hj hfr
  · -- no adjacent free pairs away from the cleared block
    intro cj hcj j hjlen hne
    rw [List.length_set] at hcj
    by_cases hcc : cj = ci
    · rw [hcc] at hcj hjlen hne ⊢
      rw [chunkAt_set_self s ci _ _ hcj] at hjlen ⊢
      obtain ⟨hne1, hne2⟩ := hne rfl
      simp only [] at hjlen ⊢
      rw [hlen'] at hjlen
      have hgj : ∀ m, m ≠ i → m < (chunkAt s ci).blocks.length →
          ((chunkAt s ci).blocks.take i ++
            [(⟨PACK (blkSize (blockAt (chunkAt s ci) i)) 0,
              PACK (blkSize (blockAt (chunkAt s ci) i)) 0⟩ : Block)] ++
            (chunkAt s ci).blocks.drop (i + 1)).getD m ⟨0, 0⟩
          = (chunkAt s ci).blocks.getD m ⟨0, 0⟩ := by
        intro m hm hmlen
        rcases Nat.lt_or_ge m i with hlt | hge
        · rw [splice_getD_lt _ _ i 1 m _ (by omega) (by omega)]
        · rw [splice1_getD_ge _ _ i 1 m _ (by omega) (by omega)]
          rw [show m - 1 + 1 = m from by omega]
      rw [hgj j (by omega) (by omega), hgj (j + 1) (by omega) (by omega)]
      have := hnoadj _ (chunkAt_mem s ci hci)
      exact this j (by omega)
    · rw [chunkAt_set_ne s ci cj _ _ (fun h => hcc h.symm)] at hjlen ⊢
      have := hnoadj _ (chunkAt_mem s cj hcj)
      exact this j hjlen
  · show ci < (s.chunks.set ci _).length
    rw [List.length_set]
    exact hci
  · rw [chunkAt_set_self s ci _ _ hci]
    show i < (_ : List Block).length
    rw [hlen']
    exact hilen
  · rw [chunkAt_set_self s ci _ _ hci]
    unfold blockAt
    rw [splice1_getD_at _ _ i 1 _ (by omega)]
    exact blkAlloc_pack_zero _ _ hm16

/-- `List.findIdx?` returns the unique index satisfying the predicate. -/
theorem findIdx_unique {α : Type} (p : α → Bool) (d : α) :
    ∀ (l : List α) (k off : Nat), k < l.length → p (l.getD k d) = true →
    (∀ m, m < l.length → m ≠ k → p (l.getD m d) = false) →
    List.findIdx? p l off = some (off + k) := by
  intro l
  induction l with
  | nil =>
    intro k off hk
    simp at hk
  | cons a t ih =>
    intro k off hk hp ho
    show (if p a then some off else List.findIdx? p t (off + 1))
      = some (off + k)
    cases k with
    | zero =>
      rw [List.getD_cons_zero] at hp
      rw [if_pos hp]
      simp
    | succ k2 =>
      have hpa : p a = false := by
        have := ho 0 (by omega) (by omega)
        rwa [List.getD_cons_zero] at this
      rw [if_neg (by simp [hpa])]
      have hrec := ih k2 (off + 1)
        (by simp only [List.length_cons] at hk; omega)
        (by rwa [List.getD_cons_succ] at hp)
        (fun m hm hmk => by
          have := ho (m + 1) (by simp only [List.length_cons]; omega)
            (by omega)
          rwa [List.getD_cons_succ] at this)
      rw [hrec]
      congr 1
      omega

/-- `try_unmap` preserves the invariant.  Under `StateWF`, the sentinel
check (`GET_SIZE(HDRP(prev)) == OVERHEAD`) can only fire at block 1 and the
terminator check (`GET(HDRP(next)) == 0x9`) only when the block is last, so
the unmap path runs exactly on a chunk whose single interior block is `bp`,
and then the pager arguments match the live mapping. -/
theorem try_unmap_wf (s : AllocState) (ci j : Nat) (hWF : StateWF s)
    (hci : ci < s.chunks.length) (hj : 1 ≤ j)
    (hjlen : j < (chunkAt s ci).blocks.length) :
    StateWF (try_unmap s ci j) := by
  obtain ⟨hwf, hcount, hmult, hps, hpos, hord, hnext, hnb, hnd, hfl1, hfl2,
    hnoadj, herr⟩ := hWF
  have hwfc := hwf _ (chunkAt_mem s ci hci)
  by_cases hcond : GET_SIZE (blockAt (chunkAt s ci) (j - 1)).hdr = OVERHEAD
      ∧ hdrRight (chunkAt s ci) j = 9
  · -- the unmap path: the chunk has exactly one interior block
    obtain ⟨h1, h2⟩ := hcond
    have hov : OVERHEAD = 16 := rfl
    have hmbs : MIN_BLOCK_SIZE = 32 := rfl
    have hj1 : j = 1 := by
      by_contra hne
      have htag := blockAt_tagok _ hwfc (j - 1) (by omega) (by omega)
      have hge := tagok_size_ge _ htag
      have e : blkSize (blockAt (chunkAt s ci) (j - 1))
          = GET_SIZE (blockAt (chunkAt s ci) (j - 1)).hdr := rfl
      omega
    subst hj1
    have hlen2 : (chunkAt s ci).blocks.length = 2 := by
      by_contra hne
      have hlt : 1 + 1 < (chunkAt s ci).blocks.length := by omega
      rw [hdrRight_eq _ _ hlt] at h2
      have htag := blockAt_tagok _ hwfc (1 + 1) (by omega) hlt
      have := htag.2.2
      omega
    have hb0 := blockAt_sentinel _ hwfc
    have hlist : (chunkAt s ci).blocks
        = [blockAt (chunkAt s ci) 0, blockAt (chunkAt s ci) 1] := by
      have hseg := segment_two (chunkAt s ci).blocks 0 ⟨0, 0⟩ (by omega)
      rw [List.drop_zero, show (0 : Nat) + 1 = 1 from rfl,
        show (0 : Nat) + 2 = 2 from rfl,
        List.take_of_length_le (by omega)] at hseg
      exact hseg
    have hcons := hwfc.2.2.2.1
    have hcsize : (chunkAt s ci).csize
        = blkSize (blockAt (chunkAt s ci) 1) + PAGE_OVERHEAD := by
      have h0 : blkSize (blockAt (chunkAt s ci) 0) = OVERHEAD := by
        rw [hb0]
        rfl
      rw [hlist, sizesSum_cons, sizesSum_cons, sizesSum_nil] at hcons
      have hpo : PAGE_OVERHEAD = 32 := rfl
      omega
    have hpa0 : payloadAddr (chunkAt s ci) (1 - 1) - (WORD + PAGE_PAD)
        = (chunkAt s ci).base := by
      show payloadAddr (chunkAt s ci) 0 - (WORD + PAGE_PAD) = _
      unfold payloadAddr
      rw [List.take_zero, sizesSum_nil]
      have hwp : WORD + PAGE_PAD = 16 := rfl
      have hpp : PAGE_PAD = 8 := rfl
      have hw : WORD = 8 := rfl
      omega
    have hcpos : ∀ cc ∈ s.chunks, 0 < cc.csize := by
      intro cc hcc
      have := (hwf cc hcc).2.2.2.1
      omega
    have horder := List.pairwise_iff_getElem.mp hord
    have hfind : List.findIdx? (fun c' =>
        c'.base == (chunkAt s ci).base && c'.csize == (chunkAt s ci).csize)
        s.chunks 0 = some ci := by
      have := findIdx_unique (fun c' =>
          c'.base == (chunkAt s ci).base
            && c'.csize == (chunkAt s ci).csize)
        emptyChunk s.chunks ci 0 hci
        (by
          show ((s.chunks.getD ci emptyChunk).base == _
            && (s.chunks.getD ci emptyChunk).csize == _) = true
          show ((chunkAt s ci).base == (chunkAt s ci).base
            && (chunkAt s ci).csize == (chunkAt s ci).csize) = true
          simp)
        (by
          intro m hm hmne
          show ((s.chunks.getD m emptyChunk).base == _
            && (s.chunks.getD m emptyChunk).csize == _) = false
          rw [Bool.eq_false_iff]
          intro htr
          rw [Bool.and_eq_true, beq_iff_eq, beq_iff_eq] at htr
          obtain ⟨hbq, hcq⟩ := htr
          rw [getD_eq_getElem _ _ _ hm] at hbq
          rw [chunkAt_eq s ci hci] at hbq
          rcases Nat.lt_or_ge m ci with hlt | hge
          · have hor := horder m ci hm hci hlt
            have hpos2 := hcpos _ (s.chunks.getElem_mem hm)
            omega
          · have hgt : ci < m := by omega
            have hor := horder ci m hci hm hgt
            have hpos2 := hcpos _ (s.chunks.getElem_mem hci)
            omega)
      simpa using this
    have hlenE : (s.chunks.eraseIdx ci).length = s.chunks.length - 1 :=
      List.length_eraseIdx_of_lt hci
    have he : s.chunks.eraseIdx ci
        = s.chunks.take ci ++ [] ++ s.chunks.drop (ci + 1) := by
      rw [List.eraseIdx_eq_take_drop_succ, List.append_nil]
    have hchlt : ∀ m, m < ci →
        chunkAt { s with
          free_list := s.free_list.erase (payloadAddr (chunkAt s ci) 1),
          chunks := s.chunks.eraseIdx ci,
          unmapLog := s.unmapLog
            ++ [((chunkAt s ci).base, (chunkAt s ci).csize)],
          num_page_chunks := s.num_page_chunks - 1 } m = chunkAt s m := by
      intro m hm
      show (s.chunks.eraseIdx ci).getD m emptyChunk = _
      rw [he, splice_getD_lt _ _ ci 1 m _ (by omega) (by omega)]
      rfl
    have hchge : ∀ m, ci ≤ m →
        chunkAt { s with
          free_list := s.free_list.erase (payloadAddr (chunkAt s ci) 1),
          chunks := s.chunks.eraseIdx ci,
          unmapLog := s.unmapLog
            ++ [((chunkAt s ci).base, (chunkAt s ci).csize)],
          num_page_chunks := s.num_page_chunks - 1 } m
          = chunkAt s (m + 1) := by
      intro m hm
      show (s.chunks.eraseIdx ci).getD m emptyChunk = _
      rw [he, splice_getD_ge _ _ ci 1 m _ (by simp; omega) (by omega)]
      rw [show m - ([] : List Chunk).length + 1 = m + 1 from by
        simp only [List.length_nil]; omega]
      rfl
    have hAinj : ∀ cj, cj < s.chunks.length → ∀ j2, 1 ≤ j2 →
        j2 < (chunkAt s cj).blocks.length →
        payloadAddr (chunkAt s cj) j2 = payloadAddr (chunkAt s ci) 1 →
        cj = ci ∧ j2 = 1 :=
      fun cj hcj j2 hj2 hj2len heq =>
        payloadAddr_inj s hwf hord cj j2 ci 1 hcj hj2 hj2len hci
          (by omega) (by omega) heq
    unfold try_unmap
    simp only []
    rw [if_pos (by
      rw [h1, h2]
      rfl)]
    unfold mem_unmap del_free
    simp only []
    rw [show (1 : Nat) - 1 = 0 from rfl] at hpa0
    rw [hpa0, ← hcsize, hfind]
    show StateWF { s with
      free_list := s.free_list.erase (payloadAddr (chunkAt s ci) 1),
      chunks := s.chunks.eraseIdx ci,
      unmapLog := s.unmapLog
        ++ [((chunkAt s ci).base, (chunkAt s ci).csize)],
      num_page_chunks := s.num_page_chunks - 1 }
    refine ⟨?_, ?_, hmult, hps, hpos, ?_, ?_, hnb, hnd.erase _, ?_, ?_,
      ?_, herr⟩
    · intro c hc
      exact hwf c (List.mem_of_mem_eraseIdx hc)
    · show s.num_page_chunks - 1 = (s.chunks.eraseIdx ci).length
      rw [hlenE]
      omega
    · exact hord.sublist (List.eraseIdx_sublist s.chunks ci)
    · intro c hc
      exact hnext c (List.mem_of_mem_eraseIdx hc)
    · -- surviving free-list nodes are free blocks of surviving chunks
      intro a ha
      have hane : a ≠ payloadAddr (chunkAt s ci) 1 :=
        ((List.Nodup.mem_erase_iff hnd).mp ha).1
      have hafl : a ∈ s.free_list := List.mem_of_mem_erase ha
      obtain ⟨cj, hcj, j2, hj2len, hj2, hfr2, hpa2⟩ := hfl1 a hafl
      have hccne : cj ≠ ci := by
        intro hcc
        rw [hcc] at hj2len hpa2
        have : j2 = 1 := by omega
        rw [this] at hpa2
        exact hane hpa2.symm
      rcases Nat.lt_or_ge cj ci with hlt | hge
      · refine ⟨cj, ?_, j2, ?_, hj2, ?_, ?_⟩
        · show cj < (s.chunks.eraseIdx ci).length
          omega
        · rw [hchlt cj hlt]
          exact hj2len
        · rw [hchlt cj hlt]
          exact hfr2
        · rw [hchlt cj hlt]
          exact hpa2
      · have hgt : ci < cj := by omega
        refine ⟨cj - 1, ?_, j2, ?_, hj2, ?_, ?_⟩
        · show cj - 1 < (s.chunks.eraseIdx ci).length
          omega
        · rw [hchge (cj - 1) (by omega), show cj - 1 + 1 = cj from by omega]
          exact hj2len
        · rw [hchge (cj - 1) (by omega), show cj - 1 + 1 = cj from by omega]
          exact hfr2
        · rw [hchge (cj - 1) (by omega), show cj - 1 + 1 = cj from by omega]
          exact hpa2
    · -- free blocks of surviving chunks are on the surviving free list
      intro ck hck j2 hj2len hj2 hfr2
      show _ ∈ s.free_list.erase (payloadAddr (chunkAt s ci) 1)
      rw [hlenE] at hck
      rcases Nat.lt_or_ge ck ci with hlt | hge
      · rw [hchlt ck hlt] at hj2len hfr2 ⊢
        have hmem := hfl2 ck (by omega) j2 hj2len hj2 hfr2
        refine (List.Nodup.mem_erase_iff hnd).mpr ⟨?_, hmem⟩
        intro heq
        have := hAinj ck (by omega) j2 hj2 hj2len heq
        omega
      · rw [hchge ck hge] at hj2len hfr2 ⊢
        have hmem := hfl2 (ck + 1) (by omega) j2 hj2len hj2 hfr2
        refine (List.Nodup.mem_erase_iff hnd).mpr ⟨?_, hmem⟩
        intro heq
        have := hAinj (ck + 1) (by omega) j2 hj2 hj2len heq
        omega
    · intro c hc
      exact hnoadj c (List.mem_of_mem_eraseIdx hc)
  · -- the guard fails: the state is unchanged
    unfold try_unmap
    simp only []
    rw [if_neg (by
      intro htr
      rw [Bool.and_eq_true, beq_iff_eq, beq_iff_eq] at htr
      exact hcond htr)]
    exact ⟨hwf, hcount, hmult, hps, hpos, hord, hnext, hnb, hnd, hfl1,
      hfl2, hnoadj, herr⟩

/-- `chunkAt` after updating only the chunk list. -/
theorem chunkAt_set_only (s : AllocState) (ci : Nat) (c' : Chunk)
    (h : ci < s.chunks.length) :
    chunkAt { s with chunks := s.chunks.set ci c' } ci = c' :=
  chunkAt_set_self s ci c' s.free_list h

/-- `mm_free` of a live allocated block preserves the invariant: clearing
the tags yields the mid-free state, each `coalesce` case restores `StateWF`,
and the conditional `try_unmap` preserves it. -/
theorem mm_free_wf (s : AllocState) (p : Nat) (s' : AllocState)
    (hWF : StateWF s) (hv : ValidFreeArg s p)
    (hstep : mm_free s p = some s') : StateWF s' := by
  obtain ⟨ci, hci, i, hilen, hi, halloc, hpa⟩ := hv
  have hfb : findBlock s p = some (ci, i) := by
    rw [← hpa]
    exact findBlock_payload s hWF.1 hWF.2.2.2.2.2.1 ci i hci hi hilen
  have hP := precoalesce_clear s ci i hWF hci hi hilen halloc
  unfold mm_free at hstep
  rw [hfb] at hstep
  have hP2 : PreCoalesce (clearTags s ci i) ci i := hP
  have hstep2 : (match coalesce (clearTags s ci i) ci i with
      | none => none
      | some (j, _, s2) =>
        some (if 1 < s2.num_page_chunks then try_unmap s2 ci j else s2))
      = some s' := hstep
  clear hstep hP
  generalize hg : clearTags s ci i = S1 at hP2 hstep2
  have hPq := hP2
  obtain ⟨hwf1, -, -, -, -, -, -, -, -, -, -, -, -, hci1, hi1, hilen1, -⟩ :=
    hPq
  have hwfc1 := hwf1 _ (chunkAt_mem S1 ci hci1)
  rcases getalloc_cases (blockAt (chunkAt S1 ci) (i - 1)).hdr with hl | hl <;>
    rcases getalloc_cases (hdrRight (chunkAt S1 ci) i) with hr | hr
  · -- both neighbours free
    have hge2 := lfree_ge2 _ hwfc1 i hi1 hl
    have hipl := rfree_interior _ hwfc1 i hilen1 hr
    rw [coalesce_eq_case4 S1 ci i hl hr] at hstep2
    have hs' := (Option.some.inj hstep2).symm
    rw [← payloadAddr_succ (chunkAt S1 ci) i hilen1] at hs'
    have hwf2 := coalesce_case4_wf S1 ci i hP2 hl hr
    rw [hs']
    split
    · refine try_unmap_wf _ ci (i - 1) hwf2 ?_ ?_ ?_
      · show ci < (S1.chunks.set ci _).length
        rw [List.length_set]
        exact hci1
      · omega
      · rw [chunkAt_set_self S1 ci _ _ hci1]
        show i - 1 < (_ : List Block).length
        rw [show i + 2 = i - 1 + 3 from by omega]
        rw [splice_length _ _ (i - 1) 3 (by omega)]
        simp only [List.length_cons, List.length_nil]
        omega
    · exact hwf2
  · -- left neighbour free, right allocated
    have hge2 := lfree_ge2 _ hwfc1 i hi1 hl
    rw [coalesce_eq_case2 S1 ci i hl hr] at hstep2
    have hs' := (Option.some.inj hstep2).symm
    have hwf2 := coalesce_case2_wf S1 ci i hP2 hl hr
    rw [hs']
    split
    · refine try_unmap_wf _ ci (i - 1) hwf2 ?_ ?_ ?_
      · show ci < (S1.chunks.set ci _).length
        rw [List.length_set]
        exact hci1
      · omega
      · rw [chunkAt_set_only S1 ci _ hci1]
        show i - 1 < (_ : List Block).length
        rw [show i + 1 = i - 1 + 2 from by omega]
        rw [splice_length _ _ (i - 1) 2 (by omega)]
        simp only [List.length_cons, List.length_nil]
        omega
    · exact hwf2
  · -- right neighbour free, left allocated
    have hipl := rfree_interior _ hwfc1 i hilen1 hr
    rw [coalesce_eq_case3 S1 ci i hl hr] at hstep2
    have hs' := (Option.some.inj hstep2).symm
    rw [← payloadAddr_succ (chunkAt S1 ci) i hilen1] at hs'
    have hwf2 := coalesce_case3_wf S1 ci i hP2 hl hr
    rw [hs']
    split
    · refine try_unmap_wf _ ci i hwf2 ?_ ?_ ?_
      · show ci < (S1.chunks.set ci _).length
        rw [List.length_set]
        exact hci1
      · exact hi1
      · rw [chunkAt_set_self S1 ci _ _ hci1]
        show i < (_ : List Block).length
        rw [splice_length _ _ i 2 (by omega)]
        simp only [List.length_cons, List.length_nil]
        omega
    · exact hwf2
  · -- no free neighbours
    rw [coalesce_eq_case1 S1 ci i hl hr] at hstep2
    have hs' := (Option.some.inj hstep2).symm
    have hwf2 := coalesce_case1_wf S1 ci i hP2 hl hr
    rw [hs']
    split
    · exact try_unmap_wf _ ci i hwf2 hci1 hi1 hilen1
    · exact hwf2

/-- If the first-fit walk misses every node, the state is unchanged. -/
theorem ffbAux_none_state (s : AllocState) (reqsize : Nat) :
    ∀ l s2, ffbAux s reqsize l = some (none, s2) → s2 = s := by
  intro l
  induction l with
  | nil =>
    intro s2 h
    replace h : some ((none : Option Nat), s) = some (none, s2) := h
    have h2 := Option.some.inj h
    injection h2 with h3 h4
    exact h4.symm
  | cons n rest ih =>
    intro s2 h
    unfold ffbAux at h
    cases hfb : findBlock s n with
    | none =>
      rw [hfb] at h
      exact absurd h (by simp)
    | some t =>
      obtain ⟨ci, i⟩ := t
      rw [hfb] at h
      replace h : (if reqsize ≤ blkSize (blockAt (chunkAt s ci) i)
          then some (some n, allocate s ci i reqsize)
          else ffbAux s reqsize rest) = some (none, s2) := h
      by_cases hle : reqsize ≤ blkSize (blockAt (chunkAt s ci) i)
      · rw [if_pos hle] at h
        simp at h
      · rw [if_neg hle] at h
        exact ih s2 h

/-- The first-fit walk preserves the invariant: a hit runs `allocate` on a
live free block, a miss leaves the state unchanged. -/
theorem ffbAux_wf (s : AllocState) (reqsize : Nat) (hWF : StateWF s)
    (h32 : MIN_BLOCK_SIZE ≤ reqsize) (h16 : 16 ∣ reqsize) :
    ∀ l, (∀ n ∈ l, FreeAt s n) → ∀ res s2,
    ffbAux s reqsize l = some (res, s2) → StateWF s2 := by
  intro l
  induction l with
  | nil =>
    intro hmem res s2 h
    replace h : some ((none : Option Nat), s) = some (res, s2) := h
    have h2 := Option.some.inj h
    injection h2 with h3 h4
    rw [← h4]
    exact hWF
  | cons n rest ih =>
    intro hmem res s2 h
    obtain ⟨ci, hci, i, hilen, hi, hfree, hpa⟩ :=
      hmem n (List.mem_cons_self n rest)
    have hfb : findBlock s n = some (ci, i) := by
      rw [← hpa]
      exact findBlock_payload s hWF.1 hWF.2.2.2.2.2.1 ci i hci hi hilen
    unfold ffbAux at h
    rw [hfb] at h
    replace h : (if reqsize ≤ blkSize (blockAt (chunkAt s ci) i)
        then some (some n, allocate s ci i reqsize)
        else ffbAux s reqsize rest) = some (res, s2) := h
    by_cases hle : reqsize ≤ blkSize (blockAt (chunkAt s ci) i)
    · rw [if_pos hle] at h
      have h2 := Option.some.inj h
      injection h2 with h3 h4
      rw [← h4]
      exact allocate_wf s ci i reqsize hWF hci hi hilen hfree h32 h16 hle
    · rw [if_neg hle] at h
      exact ih (fun m hm => hmem m (List.mem_cons_of_mem n hm)) res s2 h

/-- `mm_malloc` preserves the invariant for in-range requests. -/
theorem mm_malloc_wf (s : AllocState) (r : Nat) (res : Option Nat)
    (s' : AllocState) (hWF : StateWF s) (h1 : 1 ≤ r) (h2 : r + 31 < 2 ^ 30)
    (hps25 : s.pagesize ≤ 2 ^ 25)
    (hstep : mm_malloc s r = some (res, s')) : StateWF s' := by
  have e25 : (2 : Nat) ^ 25 = 33554432 := by norm_num
  have e30 : (2 : Nat) ^ 30 = 1073741824 := by norm_num
  have e31 : (2 : Nat) ^ 31 = 2147483648 := by norm_num
  have hs31 : (2 : Nat) ^ 31 < SIZE_MOD := by norm_num
  have hov : OVERHEAD = 16 := rfl
  have hpov : PAGE_OVERHEAD = 32 := rfl
  have h2' : r + 31 < SIZE_MOD := by omega
  have h16 : 16 ∣ ALIGN ((r + OVERHEAD) % SIZE_MOD) := align_mod _
  have h32 : MIN_BLOCK_SIZE ≤ ALIGN ((r + OVERHEAD) % SIZE_MOD) :=
    align_min r h1 h2'
  have hup : ALIGN ((r + OVERHEAD) % SIZE_MOD) ≤ r + 31 := by
    have hle := align_le ((r + OVERHEAD) % SIZE_MOD)
    have hm : (r + OVERHEAD) % SIZE_MOD ≤ r + OVERHEAD := Nat.mod_le _ _
    omega
  have hm32 : s.map_multiplier ≤ 32 := by
    have h := hWF.2.2.1
    simp only [List.mem_cons, List.not_mem_nil, or_false] at h
    omega
  have hBE : s.map_multiplier * s.pagesize < 2 ^ 31 := by
    have := Nat.mul_le_mul hm32 hps25
    have e : (32 : Nat) * 2 ^ 25 = 1073741824 := by norm_num
    omega
  have hAE : PAGE_ALIGN s.pagesize
      (ALIGN ((r + OVERHEAD) % SIZE_MOD) + PAGE_OVERHEAD) < 2 ^ 31 := by
    have hlt := page_align_lt s.pagesize
      (ALIGN ((r + OVERHEAD) % SIZE_MOD) + PAGE_OVERHEAD) hWF.2.2.2.2.1
    omega
  have hsmE : ALIGN ((r + OVERHEAD) % SIZE_MOD) + PAGE_OVERHEAD < SIZE_MOD
      := by omega
  have hRs : toSizeT (toInt32 (ALIGN ((r + OVERHEAD) % SIZE_MOD)))
      = ALIGN ((r + OVERHEAD) % SIZE_MOD) :=
    toSizeT_small _ (by omega)
  replace hstep : (match find_free_block s
      (toSizeT (toInt32 (ALIGN ((r + OVERHEAD) % SIZE_MOD)))) with
    | none => none
    | some (some p, s3) => some (some p, s3)
    | some (none, s1) =>
      match extend s1
          (toSizeT (toInt32 (ALIGN ((r + OVERHEAD) % SIZE_MOD)))) with
      | (none, s3) => some (none, s3)
      | (some _, s3) =>
        find_free_block s3
          (toSizeT (toInt32 (ALIGN ((r + OVERHEAD) % SIZE_MOD)))))
      = some (res, s') := hstep
  rw [hRs] at hstep
  cases hf : find_free_block s (ALIGN ((r + OVERHEAD) % SIZE_MOD)) with
  | none =>
    rw [hf] at hstep
    exact absurd hstep (by simp)
  | some t =>
    obtain ⟨op, s1⟩ := t
    rw [hf] at hstep
    cases op with
    | some p =>
      replace hstep : some (some p, s1) = some (res, s') := hstep
      have h3 := Option.some.inj hstep
      injection h3 with h4 h5
      rw [← h5]
      exact ffbAux_wf s _ hWF h32 h16 s.free_list
        (fun m hm => hWF.2.2.2.2.2.2.2.2.2.1 m hm) _ s1 hf
    | none =>
      have hs1 : s1 = s := ffbAux_none_state s _ s.free_list s1 hf
      subst hs1
      replace hstep : (match extend s1 (ALIGN ((r + OVERHEAD) % SIZE_MOD))
          with
        | (none, s3) => some (none, s3)
        | (some _, s3) =>
          find_free_block s3 (ALIGN ((r + OVERHEAD) % SIZE_MOD)))
          = some (res, s') := hstep
      cases he : extend s1 (ALIGN ((r + OVERHEAD) % SIZE_MOD)) with
      | mk o s2 =>
        have hwf2 : StateWF s2 := by
          have h3 := (extend_wf s1 _ hWF h32 hsmE hAE hBE).1
          rw [he] at h3
          exact h3
        rw [he] at hstep
        cases o with
        | none =>
          replace hstep : some ((none : Option Nat), s2) = some (res, s')
            := hstep
          have h3 := Option.some.inj hstep
          injection h3 with h4 h5
          rw [← h5]
          exact hwf2
        | some bp =>
          replace hstep :
              find_free_block s2 (ALIGN ((r + OVERHEAD) % SIZE_MOD))
                = some (res, s') := hstep
          exact ffbAux_wf s2 _ hwf2 h32 h16 s2.free_list
            (fun m hm => hwf2.2.2.2.2.2.2.2.2.2.1 m hm) res s' hstep

/-- No step of `allocate` touches the cached page size. -/
theorem allocate_pagesize (s : AllocState) (ci i q : Nat) :
    (allocate s ci i q).pagesize = s.pagesize := by
  unfold allocate
  simp only []
  by_cases hrem : MIN_BLOCK_SIZE ≤ blkSize (blockAt (chunkAt s ci) i) - q
  · rw [if_pos hrem]
  · rw [if_neg hrem]

/-- The first-fit walk never touches the cached page size. -/
theorem ffbAux_pagesize (s : AllocState) (q : Nat) :
    ∀ l res s2, ffbAux s q l = some (res, s2) → s2.pagesize = s.pagesize := by
  intro l
  induction l with
  | nil =>
    intro res s2 h
    replace h : some ((none : Option Nat), s) = some (res, s2) := h
    have h2 := Option.some.inj h
    injection h2 with h3 h4
    rw [← h4]
  | cons a t ih =>
    intro res s2 h
    replace h : (match findBlock s a with
      | none => none
      | some (ci, i) =>
        if q ≤ blkSize (blockAt (chunkAt s ci) i) then
          some (some a, allocate s ci i q)
        else ffbAux s q t) = some (res, s2) := h
    cases hfb : findBlock s a with
    | none =>
      rw [hfb] at h
      exact absurd h (by simp)
    | some t2 =>
      obtain ⟨ci, i⟩ := t2
      rw [hfb] at h
      replace h : (if q ≤ blkSize (blockAt (chunkAt s ci) i) then
          some (some a, allocate s ci i q)
        else ffbAux s q t) = some (res, s2) := h
      by_cases hle : q ≤ blkSize (blockAt (chunkAt s ci) i)
      · rw [if_pos hle] at h
        have h2 := Option.some.inj h
        injection h2 with h3 h4
        rw [← h4]
        exact allocate_pagesize s ci i q
      · rw [if_neg hle] at h
        exact ih res s2 h

/-- `extend` never touches the cached page size. -/
theorem extend_pagesize (s : AllocState) (size : Nat) :
    (extend s size).2.pagesize = s.pagesize := by
  unfold extend mem_map
  simp only []
  by_cases hc : toSizeT
      (if toInt32 (s.map_multiplier * s.pagesize)
          < toInt32 (PAGE_ALIGN s.pagesize ((size + PAGE_OVERHEAD) % SIZE_MOD))
        then toInt32 (PAGE_ALIGN s.pagesize ((size + PAGE_OVERHEAD) % SIZE_MOD))
        else toInt32 (s.map_multiplier * s.pagesize)) ≤ s.mapCap
  · rw [if_pos hc]
  · rw [if_neg hc]

/-- The modelled pager never touches the cached page size. -/
theorem mem_unmap_pagesize (s : AllocState) (base n : Nat) :
    (mem_unmap s base n).pagesize = s.pagesize := by
  unfold mem_unmap
  cases h : s.chunks.findIdx? (fun c => c.base == base && c.csize == n) with
  | none => rfl
  | some k => rfl

/-- `try_unmap` never touches the cached page size. -/
theorem try_unmap_pagesize (s : AllocState) (ci i : Nat) :
    (try_unmap s ci i).pagesize = s.pagesize := by
  unfold try_unmap
  simp only []
  split
  · exact mem_unmap_pagesize _ _ _
  · rfl

/-- `coalesce` never touches the cached page size. -/
theorem coalesce_pagesize (s : AllocState) (ci i j q : Nat) (s2 : AllocState)
    (h : coalesce s ci i = some (j, q, s2)) : s2.pagesize = s.pagesize := by
  rcases getalloc_cases (blockAt (chunkAt s ci) (i - 1)).hdr with hl | hl <;>
    rcases getalloc_cases (hdrRight (chunkAt s ci) i) with hr | hr
  · rw [coalesce_eq_case4 s ci i hl hr] at h
    have h2 := Option.some.inj h
    injection h2 with ha hb
    injection hb with hb1 hb2
    rw [← hb2]
  · rw [coalesce_eq_case2 s ci i hl hr] at h
    have h2 := Option.some.inj h
    injection h2 with ha hb
    injection hb with hb1 hb2
    rw [← hb2]
  · rw [coalesce_eq_case3 s ci i hl hr] at h
    have h2 := Option.some.inj h
    injection h2 with ha hb
    injection hb with hb1 hb2
    rw [← hb2]
  · rw [coalesce_eq_case1 s ci i hl hr] at h
    have h2 := Option.some.inj h
    injection h2 with ha hb
    injection hb with hb1 hb2
    rw [← hb2]

/-- `mm_free` never touches the cached page size. -/
theorem mm_free_pagesize (s : AllocState) (p : Nat) (s' : AllocState)
    (h : mm_free s p = some s') : s'.pagesize = s.pagesize := by
  unfold mm_free at h
  cases hfb : findBlock s p with
  | none =>
    rw [hfb] at h
    exact absurd h (by simp)
  | some t =>
    obtain ⟨ci, i⟩ := t
    rw [hfb] at h
    replace h : (match coalesce (clearTags s ci i) ci i with
      | none => none
      | some (j, _, s2) =>
        some (if 1 < s2.num_page_chunks then try_unmap s2 ci j else s2))
        = some s' := h
    cases hc : coalesce (clearTags s ci i) ci i with
    | none =>
      rw [hc] at h
      exact absurd h (by simp)
    | some t2 =>
      obtain ⟨j, q, s2⟩ := t2
      rw [hc] at h
      replace h : some (if 1 < s2.num_page_chunks then try_unmap s2 ci j
          else s2) = some s' := h
      have h2 := Option.some.inj h
      have hps2 : s2.pagesize = s.pagesize :=
        coalesce_pagesize (clearTags s ci i) ci i j q s2 hc
      rw [← h2]
      by_cases hn : 1 < s2.num_page_chunks
      · rw [if_pos hn, try_unmap_pagesize]
        exact hps2
      · rw [if_neg hn]
        exact hps2

/-- `mm_malloc` never touches the cached page size. -/
theorem mm_malloc_pagesize (s : AllocState) (r : Nat) (res : Option Nat)
    (s' : AllocState) (h : mm_malloc s r = some (res, s')) :
    s'.pagesize = s.pagesize := by
  replace h : (match find_free_block s
      (toSizeT (toInt32 (ALIGN ((r + OVERHEAD) % SIZE_MOD)))) with
    | none => none
    | some (some p, s3) => some (some p, s3)
    | some (none, s1) =>
      match extend s1
          (toSizeT (toInt32 (ALIGN ((r + OVERHEAD) % SIZE_MOD)))) with
      | (none, s3) => some (none, s3)
      | (some _, s3) =>
        find_free_block s3
          (toSizeT (toInt32 (ALIGN ((r + OVERHEAD) % SIZE_MOD)))))
      = some (res, s') := h
  generalize toSizeT (toInt32 (ALIGN ((r + OVERHEAD) % SIZE_MOD))) = w at h
  cases hf : find_free_block s w with
  | none =>
    rw [hf] at h
    exact absurd h (by simp)
  | some t =>
    obtain ⟨op, s1⟩ := t
    rw [hf] at h
    cases op with
    | some p =>
      replace h : some (some p, s1) = some (res, s') := h
      have h2 := Option.some.inj h
      injection h2 with h3 h4
      rw [← h4]
      exact ffbAux_pagesize _ _ _ _ _ hf
    | none =>
      have hs1 : s1 = s := ffbAux_none_state s _ s.free_list s1 hf
      subst hs1
      replace h : (match extend s1 w with
        | (none, s3) => some (none, s3)
        | (some _, s3) => find_free_block s3 w) = some (res, s') := h
      cases he : extend s1 w with
      | mk o s2 =>
        have hp2 : s2.pagesize = s1.pagesize := by
          have hx := extend_pagesize s1 w
          rw [he] at hx
          exact hx
        rw [he] at h
        cases o with
        | none =>
          replace h : some ((none : Option Nat), s2) = some (res, s') := h
          have h2 := Option.some.inj h
          injection h2 with h3 h4
          rw [← h4]
          exact hp2
        | some bp =>
          replace h : find_free_block s2 w = some (res, s') := h
          have hx := ffbAux_pagesize _ _ _ _ _ h
          rw [hx, hp2]

/-- Every reachable state satisfies the global invariant, and its page size
stays within the `int`-exact range fixed at `mm_init`. -/
theorem reach_wf_ps (s : AllocState) (h : Reach s) :
    StateWF s ∧ s.pagesize ≤ 2 ^ 25 := by
  induction h with
  | init ps base0 cap hps hb =>
    obtain ⟨k, hk, hk25, hpse⟩ := hps
    refine ⟨?_, ?_⟩
    case refine_2 =>
      show ps ≤ 2 ^ 25
      rw [hpse]
      exact Nat.pow_le_pow_right (by omega) hk25
    refine ⟨?_, rfl, ?_, ?_, ?_, ?_, ?_, hb, ?_, ?_, ?_, ?_, rfl⟩
    · intro c hc
      exact absurd hc (List.not_mem_nil c)
    · show (1 : Nat) ∈ [1, 2, 4, 8, 16, 32]
      simp
    · show 16 ∣ ps
      rw [hpse]
      have h16 : (16 : Nat) = 2 ^ 4 := rfl
      rw [h16]
      exact pow_dvd_pow 2 hk
    · show 0 < ps
      rw [hpse]
      exact pow_pos (by omega) k
    · exact List.Pairwise.nil
    · intro c hc
      exact absurd hc (List.not_mem_nil c)
    · exact List.nodup_nil
    · intro a ha
      exact absurd ha (List.not_mem_nil a)
    · intro ci hci
      simp [mm_init] at hci
    · intro c hc
      exact absurd hc (List.not_mem_nil c)
  | malloc hs h1 h2 hstep ih =>
    refine ⟨mm_malloc_wf _ _ _ _ ih.1 h1 h2 ih.2 hstep, ?_⟩
    rw [mm_malloc_pagesize _ _ _ _ hstep]
    exact ih.2
  | free hs hp hstep ih =>
    refine ⟨mm_free_wf _ _ _ ih.1 hp hstep, ?_⟩
    rw [mm_free_pagesize _ _ _ hstep]
    exact ih.2

/-- Every reachable state satisfies the global invariant. -/
theorem reach_wf (s : AllocState) (h : Reach s) : StateWF s :=
  (reach_wf_ps s h).1

/-!
## Helper lemmas shared by the claim theorems
-/

/-- Setting an index to the value it already holds is the identity. -/
theorem set_getD_self (l : List α) (i : Nat) (d : α) (h : i < l.length) :
    l.set i (l.getD i d) = l := by
  rw [getD_eq_getElem l i d h]
  apply List.ext_getElem
  · simp
  · intro n h1 h2
    simp [List.getElem_set]
    intro he
    subst he
    rfl

/-- The multiplier after `extend`: doubled below the cap, kept at it,
whether or not the pager grants the mapping. -/
theorem extend_mult (s : AllocState) (size : Nat) :
    (extend s size).2.map_multiplier =
      if s.map_multiplier < MAX_PAGE_PER_MAP then s.map_multiplier * 2
      else s.map_multiplier := by
  unfold extend mem_map
  simp only []
  by_cases hc : toSizeT
      (if toInt32 (s.map_multiplier * s.pagesize)
          < toInt32 (PAGE_ALIGN s.pagesize ((size + PAGE_OVERHEAD) % SIZE_MOD))
        then toInt32 (PAGE_ALIGN s.pagesize ((size + PAGE_OVERHEAD) % SIZE_MOD))
        else toInt32 (s.map_multiplier * s.pagesize)) ≤ s.mapCap
  · rw [if_pos hc]
  · rw [if_neg hc]

/-- `try_unmap` never touches the multiplier. -/
theorem try_unmap_mult (s : AllocState) (ci j : Nat) :
    (try_unmap s ci j).map_multiplier = s.map_multiplier := by
  unfold try_unmap
  simp only []
  split
  · unfold mem_unmap del_free
    simp only []
    split <;> rfl
  · rfl

/-- When the sentinel/terminator guard fails, `try_unmap` is the
identity. -/
theorem try_unmap_noop (s : AllocState) (ci j : Nat)
    (h : ¬(GET_SIZE (blockAt (chunkAt s ci) (j - 1)).hdr = OVERHEAD
      ∧ hdrRight (chunkAt s ci) j = 9)) :
    try_unmap s ci j = s := by
  unfold try_unmap
  simp only []
  rw [if_neg (by
    intro htr
    rw [Bool.and_eq_true, beq_iff_eq, beq_iff_eq] at htr
    exact h htr)]

/-- When the guard passes, `try_unmap` decrements the chunk counter,
whatever the pager lookup finds. -/
theorem try_unmap_num_of_guard (s : AllocState) (ci j : Nat)
    (h : GET_SIZE (blockAt (chunkAt s ci) (j - 1)).hdr = OVERHEAD
      ∧ hdrRight (chunkAt s ci) j = 9) :
    (try_unmap s ci j).num_page_chunks = s.num_page_chunks - 1 := by
  unfold try_unmap
  simp only []
  rw [if_pos (by rw [h.1, h.2]; rfl)]
  unfold mem_unmap del_free
  simp only []
  split <;> rfl

/-!
## Claim theorems
-/

/-- C10: `coalesce` never returns the trailing `return NULL` — the four
`lfree`/`rfree` cases are exhaustive, so `mm_free` always hands a real
block to the unmap check. -/
theorem c10_coalesce_never_null (s : AllocState) (ci i : Nat) :
    coalesce s ci i ≠ none := by
  unfold coalesce
  rcases getalloc_cases (blockAt (chunkAt s ci) (i - 1)).hdr with hl | hl <;>
    rcases getalloc_cases (hdrRight (chunkAt s ci) i) with hr | hr <;>
      simp [hl, hr]

/-- C10 witness: the concrete mid-free state. -/
theorem c10_coalesce_never_null_witness : coalesce c3state 0 1 ≠ none :=
  c10_coalesce_never_null c3state 0 1

/-- C9: the multiplier doubles on every `extend` below `MAX_PAGE_PER_MAP`,
saturates there, never decreases, survives `try_unmap`, and advances even
when the pager refuses the mapping (the equation holds for either pager
outcome). -/
theorem c9_multiplier_policy (s : AllocState) (ci j size : Nat) :
    ((extend s size).2.map_multiplier
      = if s.map_multiplier < MAX_PAGE_PER_MAP then s.map_multiplier * 2
        else s.map_multiplier)
    ∧ s.map_multiplier ≤ (extend s size).2.map_multiplier
    ∧ (try_unmap s ci j).map_multiplier = s.map_multiplier
    ∧ (s.map_multiplier ∈ [1, 2, 4, 8, 16, 32] →
        (extend s size).2.map_multiplier ∈ [1, 2, 4, 8, 16, 32]
        ∧ (extend s size).2.map_multiplier ≤ MAX_PAGE_PER_MAP) := by
  have he := extend_mult s size
  refine ⟨he, ?_, try_unmap_mult s ci j, ?_⟩
  · rw [he]
    by_cases hm : s.map_multiplier < MAX_PAGE_PER_MAP
    · rw [if_pos hm]
      omega
    · rw [if_neg hm]
  · intro hmem
    rw [he]
    simp only [List.mem_cons, List.not_mem_nil, or_false] at hmem
    have hmax : MAX_PAGE_PER_MAP = 32 := rfl
    by_cases hm : s.map_multiplier < MAX_PAGE_PER_MAP
    · rw [if_pos hm]
      constructor
      · simp only [List.mem_cons, List.not_mem_nil, or_false]
        omega
      · omega
    · rw [if_neg hm]
      constructor
      · simp only [List.mem_cons, List.not_mem_nil, or_false]
        omega
      · omega

/-- C9 witness at a concrete state. -/
theorem c9_multiplier_policy_witness :
    (try_unmap exBase 0 1).map_multiplier = exBase.map_multiplier :=
  (c9_multiplier_policy exBase 0 1 32).2.2.1

/-- C1 (code bug): `mm_malloc(SIZE_MAX)` does not make the pager return
null.  `ALIGN(SIZE_MAX + OVERHEAD)` wraps modulo `2 ^ 64` to 16, so the
allocator requests one page, the pager grants it, and `mm_malloc` returns
a non-null pointer to a 16-byte block instead of null.  (The follow-up
`mm_malloc(16)` does succeed.) -/
theorem c1_sizemax_wraps :
    ALIGN ((SIZE_MOD - 1 + OVERHEAD) % SIZE_MOD) = 16
    ∧ mallocP exBase (SIZE_MOD - 1) = some 1048608
    ∧ (mallocD exBase (SIZE_MOD - 1)).mapLog = [4096]
    ∧ (mallocD exBase (SIZE_MOD - 1)).pagerErr = false
    ∧ mallocP (mallocD exBase (SIZE_MOD - 1)) 16 = some 1048624 := by
  refine ⟨by decide, by decide, by decide, by decide, by decide⟩

/-- C2 counterexample: after `mm_malloc 0` the walk from the sentinel
meets an interior block of size 16 < MIN_BLOCK_SIZE (header 17 = 16|1),
so the invariant as stated fails for zero-byte requests. -/
theorem c2_zero_request_small_block :
    blkSize (blockAt (chunkAt exZeroState 0) 1) = 16
    ∧ blkAlloc (blockAt (chunkAt exZeroState 0) 1) = 1
    ∧ (chunkAt exZeroState 0).blocks.length = 3
    ∧ 0 < exZeroState.chunks.length
    ∧ ¬ MIN_BLOCK_SIZE ≤ blkSize (blockAt (chunkAt exZeroState 0) 1) := by
  refine ⟨by decide, by decide, by decide, by decide, by decide⟩

/-- C2 (amended: requests of 0 bytes excluded, and requests confined to
`r + 31 < 2 ^ 30` so that neither the `size_t` rounding nor the C `int`
narrowing of the rounded size truncates): in every reachable state, every
chunk carries the sentinel `2w|1` and terminator `1w|1`, and every
interior block has equal header and footer, a 16-aligned size, and size at
least `MIN_BLOCK_SIZE`. -/
theorem c2_block_invariants (s : AllocState) (hs : Reach s) :
    ∀ c ∈ s.chunks,
      c.blocks.head? = some ⟨PACK OVERHEAD 1, PACK OVERHEAD 1⟩
      ∧ c.termHdr = PACK WORD 1
      ∧ ∀ b ∈ c.blocks.tail,
          b.ftr = b.hdr ∧ 16 ∣ blkSize b ∧ MIN_BLOCK_SIZE ≤ blkSize b := by
  intro c hc
  have hwfc := (reach_wf s hs).1 c hc
  refine ⟨hwfc.1, hwfc.2.1, ?_⟩
  intro b hb
  have ht := hwfc.2.2.1 b hb
  exact ⟨ht.1, tagok_size_dvd b, tagok_size_ge b ht⟩

/-- C2 witness: the reachable state after `mm_malloc 32`. -/
theorem c2_block_invariants_witness :
    (chunkAt (mallocD exBase 32) 0).blocks.head?
        = some ⟨PACK OVERHEAD 1, PACK OVERHEAD 1⟩
    ∧ (chunkAt (mallocD exBase 32) 0).termHdr = PACK WORD 1
    ∧ ∀ b ∈ (chunkAt (mallocD exBase 32) 0).blocks.tail,
        b.ftr = b.hdr ∧ 16 ∣ blkSize b ∧ MIN_BLOCK_SIZE ≤ blkSize b :=
  c2_block_invariants (mallocD exBase 32)
    (Reach.malloc (Reach.init 4096 1048576 1048576 ⟨12, by omega, by omega, rfl⟩
        ⟨65536, rfl⟩) (by omega) (by decide)
      (show mm_malloc exBase 32 = some (some 1048608, mallocD exBase 32)
        from by decide))
    (chunkAt (mallocD exBase 32) 0) (chunkAt_mem _ 0 (by decide))

/-- C6 counterexample: in the `malloc(0)`-poisoned run the botched unmap
check unlinks a block whose chunk then stays mapped, leaving a free block
(chunk 0, block 2, freed pointer returned by `mm_malloc 4032`) that is on
no free list — the membership "iff" fails. -/
theorem c6_membership_broken :
    mallocP exPoisonA 4032 = some 1048624
    ∧ blkAlloc (blockAt (chunkAt exPoisonF 0) 2) = 0
    ∧ 2 < (chunkAt exPoisonF 0).blocks.length
    ∧ 0 < exPoisonF.chunks.length
    ∧ payloadAddr (chunkAt exPoisonF 0) 2 ∉ exPoisonF.free_list := by
  refine ⟨by decide, by decide, by decide, by decide, by decide⟩

/-- C6 (amended: zero-byte requests excluded and requests confined to
`r + 31 < 2 ^ 30`, the range on which the C `int` size arithmetic is
exact): in every reachable state no two consecutive blocks of a chunk are
both free, and an interior block's payload address is on the explicit free
list iff its allocated bit is 0. -/
theorem c6_freelist_invariants (s : AllocState) (hs : Reach s) :
    (∀ c ∈ s.chunks, NoAdjFree c.blocks)
    ∧ ∀ ci, ci < s.chunks.length → ∀ i, 1 ≤ i →
        i < (chunkAt s ci).blocks.length →
        (payloadAddr (chunkAt s ci) i ∈ s.free_list
          ↔ blkAlloc (blockAt (chunkAt s ci) i) = 0) := by
  obtain ⟨hwf, hcount, hmult, hps, hpos, hord, hnext, hnb, hnd, hfl1, hfl2,
    hnoadj, herr⟩ := reach_wf s hs
  refine ⟨hnoadj, ?_⟩
  intro ci hci i hi hilen
  constructor
  · intro hmem
    obtain ⟨cj, hcj, j, hjlen, hj, hfr, hpa⟩ := hfl1 _ hmem
    obtain ⟨h1, h2⟩ := payloadAddr_inj s hwf hord cj j ci i hcj hj hjlen hci
      hi hilen hpa
    rw [← h1, ← h2]
    exact hfr
  · intro hfr
    exact hfl2 ci hci i hilen hi hfr

/-- C6 witness: the reachable state after `mm_malloc 32`, at the
allocated block (chunk 0, block 1). -/
theorem c6_freelist_invariants_witness :
    payloadAddr (chunkAt (mallocD exBase 32) 0) 1
        ∈ (mallocD exBase 32).free_list
      ↔ blkAlloc (blockAt (chunkAt (mallocD exBase 32) 0) 1) = 0 :=
  (c6_freelist_invariants (mallocD exBase 32)
    (Reach.malloc (Reach.init 4096 1048576 1048576 ⟨12, by omega, by omega, rfl⟩
        ⟨65536, rfl⟩) (by omega) (by decide)
      (show mm_malloc exBase 32 = some (some 1048608, mallocD exBase 32)
        from by decide))).2 0 (by decide) 1 (by omega) (by decide)

/-- C5 (amended: `need` small enough that `int reqsize =
PAGE_ALIGN(need + PAGE_OVERHEAD)` and `int newsize = map_multiplier *
pagesize` do not overflow, i.e. both below `2 ^ 31`): `extend` asks the
pager for exactly `max(PAGE_ALIGN(need + PAGE_OVERHEAD), map_multiplier *
pagesize)` bytes; when the pager grants it, the new chunk is framed by
sentinel `2w|1` and terminator `1w|1`, its interior is one free block of
size `newsize - PAGE_OVERHEAD` pushed onto the free list, the chunk count
is incremented, the block is big enough for `need`, and the re-run of the
first-fit search succeeds. -/
theorem c5_extend_behaviour (s : AllocState) (size : Nat) (hWF : StateWF s)
    (hsz : MIN_BLOCK_SIZE ≤ size)
    (hsm : size + PAGE_OVERHEAD < SIZE_MOD)
    (hA : PAGE_ALIGN s.pagesize (size + PAGE_OVERHEAD) < 2 ^ 31)
    (hB : s.map_multiplier * s.pagesize < 2 ^ 31)
    (hcap : (if s.map_multiplier * s.pagesize
        < PAGE_ALIGN s.pagesize (size + PAGE_OVERHEAD)
      then PAGE_ALIGN s.pagesize (size + PAGE_OVERHEAD)
      else s.map_multiplier * s.pagesize) ≤ s.mapCap) :
    ((if s.map_multiplier * s.pagesize
        < PAGE_ALIGN s.pagesize (size + PAGE_OVERHEAD)
      then PAGE_ALIGN s.pagesize (size + PAGE_OVERHEAD)
      else s.map_multiplier * s.pagesize)
      = max (PAGE_ALIGN s.pagesize (size + PAGE_OVERHEAD))
          (s.map_multiplier * s.pagesize))
    ∧ (extend s size).2.mapLog = s.mapLog
        ++ [if s.map_multiplier * s.pagesize
            < PAGE_ALIGN s.pagesize (size + PAGE_OVERHEAD)
          then PAGE_ALIGN s.pagesize (size + PAGE_OVERHEAD)
          else s.map_multiplier * s.pagesize]
    ∧ (extend s size).1 = some (s.nextBase + PAGE_PAD + OVERHEAD + WORD)
    ∧ (extend s size).2.num_page_chunks = s.num_page_chunks + 1
    ∧ (extend s size).2.free_list
        = (s.nextBase + PAGE_PAD + OVERHEAD + WORD) :: s.free_list
    ∧ (extend s size).2.chunks = s.chunks ++
        [⟨s.nextBase,
          (if s.map_multiplier * s.pagesize
              < PAGE_ALIGN s.pagesize (size + PAGE_OVERHEAD)
            then PAGE_ALIGN s.pagesize (size + PAGE_OVERHEAD)
            else s.map_multiplier * s.pagesize),
          [⟨PACK OVERHEAD 1, PACK OVERHEAD 1⟩,
           ⟨PACK ((if s.map_multiplier * s.pagesize
                < PAGE_ALIGN s.pagesize (size + PAGE_OVERHEAD)
              then PAGE_ALIGN s.pagesize (size + PAGE_OVERHEAD)
              else s.map_multiplier * s.pagesize) - PAGE_OVERHEAD) 0,
            PACK ((if s.map_multiplier * s.pagesize
                < PAGE_ALIGN s.pagesize (size + PAGE_OVERHEAD)
              then PAGE_ALIGN s.pagesize (size + PAGE_OVERHEAD)
              else s.map_multiplier * s.pagesize) - PAGE_OVERHEAD) 0⟩],
          PACK WORD 1⟩]
    ∧ size ≤ (if s.map_multiplier * s.pagesize
          < PAGE_ALIGN s.pagesize (size + PAGE_OVERHEAD)
        then PAGE_ALIGN s.pagesize (size + PAGE_OVERHEAD)
        else s.map_multiplier * s.pagesize) - PAGE_OVERHEAD
    ∧ ∃ s2, find_free_block (extend s size).2 size
        = some (some (s.nextBase + PAGE_PAD + OVERHEAD + WORD), s2) := by
  have heq := extend_success s size hsm hA hB hWF.2.2.2.2.1 hcap
  obtain ⟨h16N, hgeN⟩ := newsize_facts s size hWF.2.2.2.1 hWF.2.2.2.2.1
  have hpo : PAGE_OVERHEAD = 32 := rfl
  refine ⟨?_, ?_, ?_, ?_, ?_, ?_, ?_, ?_⟩
  · rcases Nat.lt_or_ge (s.map_multiplier * s.pagesize)
        (PAGE_ALIGN s.pagesize (size + PAGE_OVERHEAD)) with h | h
    · rw [if_pos h, Nat.max_eq_left (by omega)]
    · rw [if_neg (by omega), Nat.max_eq_right (by omega)]
  · rw [heq]
  · rw [heq]
  · rw [heq]
  · rw [heq]
  · rw [heq]
  · omega
  · -- the re-run of the first-fit search hits the fresh block
    have hWFE := (extend_wf s size hWF hsz hsm hA hB).1
    have hchunks : (extend s size).2.chunks = s.chunks ++
        [⟨s.nextBase,
          (if s.map_multiplier * s.pagesize
              < PAGE_ALIGN s.pagesize (size + PAGE_OVERHEAD)
            then PAGE_ALIGN s.pagesize (size + PAGE_OVERHEAD)
            else s.map_multiplier * s.pagesize),
          [⟨PACK OVERHEAD 1, PACK OVERHEAD 1⟩,
           ⟨PACK ((if s.map_multiplier * s.pagesize
                < PAGE_ALIGN s.pagesize (size + PAGE_OVERHEAD)
              then PAGE_ALIGN s.pagesize (size + PAGE_OVERHEAD)
              else s.map_multiplier * s.pagesize) - PAGE_OVERHEAD) 0,
            PACK ((if s.map_multiplier * s.pagesize
                < PAGE_ALIGN s.pagesize (size + PAGE_OVERHEAD)
              then PAGE_ALIGN s.pagesize (size + PAGE_OVERHEAD)
              else s.map_multiplier * s.pagesize) - PAGE_OVERHEAD) 0⟩],
          PACK WORD 1⟩] := by
      rw [heq]
    have hflE : (extend s size).2.free_list
        = (s.nextBase + PAGE_PAD + OVERHEAD + WORD) :: s.free_list := by
      rw [heq]
    have hcAt : chunkAt (extend s size).2 s.chunks.length =
        ⟨s.nextBase,
          (if s.map_multiplier * s.pagesize
              < PAGE_ALIGN s.pagesize (size + PAGE_OVERHEAD)
            then PAGE_ALIGN s.pagesize (size + PAGE_OVERHEAD)
            else s.map_multiplier * s.pagesize),
          [⟨PACK OVERHEAD 1, PACK OVERHEAD 1⟩,
           ⟨PACK ((if s.map_multiplier * s.pagesize
                < PAGE_ALIGN s.pagesize (size + PAGE_OVERHEAD)
              then PAGE_ALIGN s.pagesize (size + PAGE_OVERHEAD)
              else s.map_multiplier * s.pagesize) - PAGE_OVERHEAD) 0,
            PACK ((if s.map_multiplier * s.pagesize
                < PAGE_ALIGN s.pagesize (size + PAGE_OVERHEAD)
              then PAGE_ALIGN s.pagesize (size + PAGE_OVERHEAD)
              else s.map_multiplier * s.pagesize) - PAGE_OVERHEAD) 0⟩],
          PACK WORD 1⟩ := by
      unfold chunkAt
      rw [hchunks, getD_append_right _ _ _ _ (le_refl _), Nat.sub_self,
        List.getD_cons_zero]
    have hpa : payloadAddr (chunkAt (extend s size).2 s.chunks.length) 1
        = s.nextBase + PAGE_PAD + OVERHEAD + WORD := by
      rw [hcAt]
      unfold payloadAddr
      show s.nextBase + PAGE_PAD + WORD
          + sizesSum [⟨PACK OVERHEAD 1, PACK OVERHEAD 1⟩] = _
      rw [sizesSum_cons, sizesSum_nil]
      have hb : blkSize (⟨PACK OVERHEAD 1, PACK OVERHEAD 1⟩ : Block) = 16 :=
        rfl
      have hw : PAGE_PAD + WORD = 16 := rfl
      have hov : OVERHEAD = 16 := rfl
      omega
    have hlen2 : (chunkAt (extend s size).2 s.chunks.length).blocks.length
        = 2 := by
      rw [hcAt]
      rfl
    have hfb : findBlock (extend s size).2
        (s.nextBase + PAGE_PAD + OVERHEAD + WORD)
        = some (s.chunks.length, 1) := by
      rw [← hpa]
      exact findBlock_payload _ hWFE.1 hWFE.2.2.2.2.2.1 s.chunks.length 1
        (by rw [hchunks]; simp) (by omega) (by omega)
    have hsizele : size
        ≤ blkSize (blockAt (chunkAt (extend s size).2 s.chunks.length) 1)
        := by
      rw [hcAt]
      show size ≤ blkSize ⟨PACK ((if s.map_multiplier * s.pagesize
            < PAGE_ALIGN s.pagesize (size + PAGE_OVERHEAD)
          then PAGE_ALIGN s.pagesize (size + PAGE_OVERHEAD)
          else s.map_multiplier * s.pagesize) - PAGE_OVERHEAD) 0,
        PACK ((if s.map_multiplier * s.pagesize
            < PAGE_ALIGN s.pagesize (size + PAGE_OVERHEAD)
          then PAGE_ALIGN s.pagesize (size + PAGE_OVERHEAD)
          else s.map_multiplier * s.pagesize) - PAGE_OVERHEAD) 0⟩
      have hd : 16 ∣ (if s.map_multiplier * s.pagesize
          < PAGE_ALIGN s.pagesize (size + PAGE_OVERHEAD)
        then PAGE_ALIGN s.pagesize (size + PAGE_OVERHEAD)
        else s.map_multiplier * s.pagesize) - PAGE_OVERHEAD := by
        have h32 : (32 : Nat) = PAGE_OVERHEAD := rfl
        omega
      show size ≤ GET_SIZE (PACK _ 0)
      rw [getsize_pack_zero _ hd]
      omega
    refine ⟨allocate (extend s size).2 s.chunks.length 1 size, ?_⟩
    unfold find_free_block
    rw [hflE]
    show (match findBlock (extend s size).2
        (s.nextBase + PAGE_PAD + OVERHEAD + WORD) with
      | none => none
      | some (ci, i) =>
        if size ≤ blkSize (blockAt (chunkAt (extend s size).2 ci) i)
        then some (some (s.nextBase + PAGE_PAD + OVERHEAD + WORD),
          allocate (extend s size).2 ci i size)
        else ffbAux (extend s size).2 size s.free_list) = _
    rw [hfb]
    show (if size ≤ blkSize (blockAt
        (chunkAt (extend s size).2 s.chunks.length) 1)
      then some (some (s.nextBase + PAGE_PAD + OVERHEAD + WORD),
        allocate (extend s size).2 s.chunks.length 1 size)
      else ffbAux (extend s size).2 size s.free_list) = _
    rw [if_pos hsizele]

/-- C5 witness: a fresh-heap `extend` with request 32 on page size 4096. -/
theorem c5_extend_behaviour_witness :
    (extend exBase 32).1
      = some (exBase.nextBase + PAGE_PAD + OVERHEAD + WORD) :=
  (c5_extend_behaviour exBase 32
    (reach_wf exBase
      (Reach.init 4096 1048576 1048576 ⟨12, by omega, by omega, rfl⟩ ⟨65536, rfl⟩))
    (by decide) (by decide) (by decide) (by decide) (by decide)).2.2.1

/-- C5 counterexample: for `need = 2 ^ 31 - 32` the page-aligned request
`need + PAGE_OVERHEAD` rounds to `2 ^ 31`, which overflows the C
`int reqsize` to a negative value; the signed comparison then keeps
`newsize = map_multiplier * pagesize`, so the program requests `4096`
bytes from the pager instead of the claimed
`max(PAGE_ALIGN(need + PAGE_OVERHEAD), map_multiplier * pagesize)`, the
mapping nevertheless succeeds, and the guaranteed re-run of the first-fit
search fails on the 4064-byte block. -/
theorem c5_reqsize_truncates :
    PAGE_ALIGN exBase.pagesize (2 ^ 31 - 32 + PAGE_OVERHEAD) = 2 ^ 31
    ∧ toInt32 (PAGE_ALIGN exBase.pagesize (2 ^ 31 - 32 + PAGE_OVERHEAD))
        = -((2 ^ 31 : Nat) : Int)
    ∧ (extend exBase (2 ^ 31 - 32)).2.mapLog = [4096]
    ∧ (extend exBase (2 ^ 31 - 32)).1 = some 1048608
    ∧ find_free_block (extend exBase (2 ^ 31 - 32)).2 (2 ^ 31 - 32)
        = some (none, (extend exBase (2 ^ 31 - 32)).2)
    ∧ (4096 : Nat)
        ≠ max (PAGE_ALIGN exBase.pagesize (2 ^ 31 - 32 + PAGE_OVERHEAD))
            (exBase.map_multiplier * exBase.pagesize) := by
  refine ⟨by decide, by decide, by decide, by decide, by decide, by decide⟩

/-- Under the invariant, the sentinel/terminator guard of `try_unmap`
holds exactly when the block is the chunk's single interior block. -/
theorem unmap_guard_iff (s : AllocState) (ci j : Nat) (hWF : StateWF s)
    (hci : ci < s.chunks.length) (hj : 1 ≤ j)
    (hjlen : j < (chunkAt s ci).blocks.length) :
    (GET_SIZE (blockAt (chunkAt s ci) (j - 1)).hdr = OVERHEAD
      ∧ hdrRight (chunkAt s ci) j = 9)
    ↔ (j = 1 ∧ (chunkAt s ci).blocks.length = 2) := by
  have hwfc := hWF.1 _ (chunkAt_mem s ci hci)
  have hov : OVERHEAD = 16 := rfl
  have hmbs : MIN_BLOCK_SIZE = 32 := rfl
  constructor
  · intro ⟨h1, h2⟩
    have hj1 : j = 1 := by
      by_contra hne
      have htag := blockAt_tagok _ hwfc (j - 1) (by omega) (by omega)
      have hge := tagok_size_ge _ htag
      have e : blkSize (blockAt (chunkAt s ci) (j - 1))
          = GET_SIZE (blockAt (chunkAt s ci) (j - 1)).hdr := rfl
      omega
    subst hj1
    refine ⟨rfl, ?_⟩
    by_contra hne
    have hlt : 1 + 1 < (chunkAt s ci).blocks.length := by
      have := hwfc.2.2.2.2.2
      omega
    rw [hdrRight_eq _ _ hlt] at h2
    have htag := blockAt_tagok _ hwfc (1 + 1) (by omega) hlt
    have := htag.2.2
    omega
  · intro ⟨hj1, hlen2⟩
    subst hj1
    constructor
    · rw [show (1 : Nat) - 1 = 0 from rfl, blockAt_sentinel _ hwfc]
      rfl
    · rw [hdrRight_term _ _ (by omega), hwfc.2.1]
      rfl

/-- A well-formed two-block chunk's size is its interior block plus the
framing overhead. -/
theorem chunk_two_csize (c : Chunk) (hwfc : ChunkWF c)
    (hlen2 : c.blocks.length = 2) :
    c.csize = blkSize (blockAt c 1) + PAGE_OVERHEAD := by
  have hb0 := blockAt_sentinel _ hwfc
  have hlist : c.blocks = [blockAt c 0, blockAt c 1] := by
    have hseg := segment_two c.blocks 0 ⟨0, 0⟩ (by omega)
    rw [List.drop_zero, show (0 : Nat) + 1 = 1 from rfl,
      show (0 : Nat) + 2 = 2 from rfl,
      List.take_of_length_le (by omega)] at hseg
    exact hseg
  have hcons := hwfc.2.2.2.1
  have h0 : blkSize (blockAt c 0) = OVERHEAD := by
    rw [hb0]
    rfl
  rw [hlist, sizesSum_cons, sizesSum_cons, sizesSum_nil] at hcons
  have hpo : PAGE_OVERHEAD = 32 := rfl
  have hov : OVERHEAD = 16 := rfl
  omega

/-- When the guard holds (single interior block), `try_unmap` unlinks the
block, unmaps the chunk at its true base and size, and decrements the
count. -/
theorem try_unmap_fires (s : AllocState) (ci j : Nat) (hWF : StateWF s)
    (hci : ci < s.chunks.length) (hj : 1 ≤ j)
    (hjlen : j < (chunkAt s ci).blocks.length)
    (hg : j = 1 ∧ (chunkAt s ci).blocks.length = 2) :
    try_unmap s ci j = { s with
      free_list := s.free_list.erase (payloadAddr (chunkAt s ci) 1),
      num_page_chunks := s.num_page_chunks - 1,
      chunks := s.chunks.eraseIdx ci,
      unmapLog := s.unmapLog
        ++ [((chunkAt s ci).base, (chunkAt s ci).csize)] } := by
  obtain ⟨hj1, hlen2⟩ := hg
  subst hj1
  obtain ⟨hwf, hcount, hmult, hps, hpos, hord, hnext, hnb, hnd, hfl1, hfl2,
    hnoadj, herr⟩ := hWF
  have hwfc := hwf _ (chunkAt_mem s ci hci)
  have hcsize := chunk_two_csize _ hwfc hlen2
  have hguard := (unmap_guard_iff s ci 1
    ⟨hwf, hcount, hmult, hps, hpos, hord, hnext, hnb, hnd, hfl1, hfl2,
      hnoadj, herr⟩ hci (by omega) hjlen).mpr ⟨rfl, hlen2⟩
  obtain ⟨h1, h2⟩ := hguard
  have hpa0 : payloadAddr (chunkAt s ci) (1 - 1) - (WORD + PAGE_PAD)
      = (chunkAt s ci).base := by
    show payloadAddr (chunkAt s ci) 0 - (WORD + PAGE_PAD) = _
    unfold payloadAddr
    rw [List.take_zero, sizesSum_nil]
    have hwp : WORD + PAGE_PAD = 16 := rfl
    have hpp : PAGE_PAD = 8 := rfl
    have hw : WORD = 8 := rfl
    omega
  have hcpos : ∀ cc ∈ s.chunks, 0 < cc.csize := by
    intro cc hcc
    have hcc2 := (hwf cc hcc).2.2.2.1
    have hov2 : OVERHEAD = 16 := rfl
    omega
  have horder := List.pairwise_iff_getElem.mp hord
  have hfind : List.findIdx? (fun c' =>
      c'.base == (chunkAt s ci).base && c'.csize == (chunkAt s ci).csize)
      s.chunks 0 = some ci := by
    have := findIdx_unique (fun c' =>
        c'.base == (chunkAt s ci).base
          && c'.csize == (chunkAt s ci).csize)
      emptyChunk s.chunks ci 0 hci
      (by
        show ((s.chunks.getD ci emptyChunk).base == _
          && (s.chunks.getD ci emptyChunk).csize == _) = true
        show ((chunkAt s ci).base == (chunkAt s ci).base
          && (chunkAt s ci).csize == (chunkAt s ci).csize) = true
        simp)
      (by
        intro m hm hmne
        show ((s.chunks.getD m emptyChunk).base == _
          && (s.chunks.getD m emptyChunk).csize == _) = false
        rw [Bool.eq_false_iff]
        intro htr
        rw [Bool.and_eq_true, beq_iff_eq, beq_iff_eq] at htr
        obtain ⟨hbq, hcq⟩ := htr
        rw [getD_eq_getElem _ _ _ hm] at hbq
        rw [chunkAt_eq s ci hci] at hbq
        rcases Nat.lt_or_ge m ci with hlt | hge
        · have hor := horder m ci hm hci hlt
          have hpos2 := hcpos _ (s.chunks.getElem_mem hm)
          omega
        · have hgt : ci < m := by omega
          have hor := horder ci m hci hm hgt
          have hpos2 := hcpos _ (s.chunks.getElem_mem hci)
          omega)
    simpa using this
  unfold try_unmap
  simp only []
  rw [if_pos (by
    rw [h1, h2]
    rfl)]
  unfold mem_unmap del_free
  simp only []
  rw [show (1 : Nat) - 1 = 0 from rfl] at hpa0
  rw [hpa0, ← hcsize, hfind]

/-- C4 counterexample: in the `malloc(0)`-poisoned run the guard fires on
a mid-chunk 16-byte block, the base handed to the pager (1048592) is no
chunk base, the pager call violates its contract, no chunk is unmapped,
yet the count is decremented — so the claimed "iff" and base computation
fail as stated. -/
theorem c4_poisoned_unmap :
    exPoisonF.pagerErr = true
    ∧ exPoisonF.unmapLog = [(1048592, 4080)]
    ∧ exPoisonF.chunks.length = 2
    ∧ exPoisonF.num_page_chunks = 1
    ∧ (∀ c ∈ exPoisonF.chunks, c.base ≠ 1048592) := by
  refine ⟨by decide, by decide, by decide, by decide, by decide⟩

/-- C4 (amended: zero-byte and overflowing requests excluded, so every
interior block has size ≥ MIN_BLOCK_SIZE): under the invariant the guard
holds iff the coalesced block is its chunk's single interior block; when
it fires, the base passed to the pager is the chunk base
(= sentinel header address - 8), the size is `size(bp) + PAGE_OVERHEAD`
(= the whole chunk), the block is unlinked first and the count is
decremented; with the `count > 1` guard of `mm_free` the count never
reaches zero. -/
theorem c4_unmap_characterization (s : AllocState) (ci j : Nat)
    (hWF : StateWF s) (hci : ci < s.chunks.length) (hj : 1 ≤ j)
    (hjlen : j < (chunkAt s ci).blocks.length) :
    ((GET_SIZE (blockAt (chunkAt s ci) (j - 1)).hdr = OVERHEAD
        ∧ hdrRight (chunkAt s ci) j = PACK WORD 1)
      ↔ (j = 1 ∧ (chunkAt s ci).blocks.length = 2))
    ∧ (j = 1 ∧ (chunkAt s ci).blocks.length = 2 →
        try_unmap s ci j = { s with
          free_list := s.free_list.erase (payloadAddr (chunkAt s ci) 1),
          num_page_chunks := s.num_page_chunks - 1,
          chunks := s.chunks.eraseIdx ci,
          unmapLog := s.unmapLog
            ++ [((chunkAt s ci).base, (chunkAt s ci).csize)] }
        ∧ (chunkAt s ci).csize
            = blkSize (blockAt (chunkAt s ci) 1) + PAGE_OVERHEAD)
    ∧ (¬(j = 1 ∧ (chunkAt s ci).blocks.length = 2) → try_unmap s ci j = s)
    ∧ (1 < s.num_page_chunks → 1 ≤ (try_unmap s ci j).num_page_chunks) := by
  have h9 : PACK WORD 1 = 9 := rfl
  have hiff := unmap_guard_iff s ci j hWF hci hj hjlen
  refine ⟨by rw [h9]; exact hiff, ?_, ?_, ?_⟩
  · intro hg
    refine ⟨try_unmap_fires s ci j hWF hci hj hjlen hg, ?_⟩
    exact chunk_two_csize _ (hWF.1 _ (chunkAt_mem s ci hci)) hg.2
  · intro hng
    exact try_unmap_noop s ci j (fun h => hng (hiff.mp h))
  · intro hnum
    by_cases hg : GET_SIZE (blockAt (chunkAt s ci) (j - 1)).hdr = OVERHEAD
        ∧ hdrRight (chunkAt s ci) j = 9
    · rw [try_unmap_num_of_guard s ci j hg]
      omega
    · rw [try_unmap_noop s ci j hg]
      omega

/-- C4 witness: the reachable one-chunk state after `mm_malloc 32`, at
the allocated block (chunk 0, block 1) — three interior blocks, so the
guard correctly stays silent. -/
theorem c4_unmap_characterization_witness :
    try_unmap (mallocD exBase 32) 0 1 = mallocD exBase 32 :=
  ((c4_unmap_characterization (mallocD exBase 32) 0 1
    (reach_wf (mallocD exBase 32)
      (Reach.malloc (Reach.init 4096 1048576 1048576 ⟨12, by omega, by omega, rfl⟩
          ⟨65536, rfl⟩) (by omega) (by decide)
        (show mm_malloc exBase 32 = some (some 1048608, mallocD exBase 32)
          from by decide)))
    (by decide) (by omega) (by decide)).2.2.1) (by decide)

/-- C3: from the mid-free state, `coalesce` follows the four-case
`lfree`/`rfree` table exactly (the returned pointer and state of each row),
and in every case the resulting block is free, appears on the free list
exactly once, and has no free neighbour on either side. -/
theorem c3_coalesce_cases (s : AllocState) (ci i : Nat)
    (hP : PreCoalesce s ci i) :
    (GET_ALLOC (blockAt (chunkAt s ci) (i - 1)).hdr = 1 →
      GET_ALLOC (hdrRight (chunkAt s ci) i) = 1 →
      coalesce s ci i = some (i, payloadAddr (chunkAt s ci) i,
        { s with free_list :=
            payloadAddr (chunkAt s ci) i :: s.free_list }))
    ∧ (GET_ALLOC (blockAt (chunkAt s ci) (i - 1)).hdr = 0 →
      GET_ALLOC (hdrRight (chunkAt s ci) i) = 1 →
      coalesce s ci i = some (i - 1, payloadAddr (chunkAt s ci) (i - 1),
        { s with chunks := s.chunks.set ci { chunkAt s ci with
          blocks := (chunkAt s ci).blocks.take (i - 1) ++
            [⟨PACK (GET_SIZE (blockAt (chunkAt s ci) (i - 1)).hdr
                + blkSize (blockAt (chunkAt s ci) i)) 0,
              PACK (GET_SIZE (blockAt (chunkAt s ci) (i - 1)).hdr
                + blkSize (blockAt (chunkAt s ci) i)) 0⟩] ++
            (chunkAt s ci).blocks.drop (i + 1) } }))
    ∧ (GET_ALLOC (blockAt (chunkAt s ci) (i - 1)).hdr = 1 →
      GET_ALLOC (hdrRight (chunkAt s ci) i) = 0 →
      coalesce s ci i = some (i, payloadAddr (chunkAt s ci) i,
        { s with
          chunks := s.chunks.set ci { chunkAt s ci with
            blocks := (chunkAt s ci).blocks.take i ++
              [⟨PACK (blkSize (blockAt (chunkAt s ci) i)
                  + GET_SIZE (hdrRight (chunkAt s ci) i)) 0,
                PACK (blkSize (blockAt (chunkAt s ci) i)
                  + GET_SIZE (hdrRight (chunkAt s ci) i)) 0⟩] ++
              (chunkAt s ci).blocks.drop (i + 2) },
          free_list := payloadAddr (chunkAt s ci) i ::
            s.free_list.erase (payloadAddr (chunkAt s ci) i
              + blkSize (blockAt (chunkAt s ci) i)) }))
    ∧ (GET_ALLOC (blockAt (chunkAt s ci) (i - 1)).hdr = 0 →
      GET_ALLOC (hdrRight (chunkAt s ci) i) = 0 →
      coalesce s ci i = some (i - 1, payloadAddr (chunkAt s ci) (i - 1),
        { s with
          chunks := s.chunks.set ci { chunkAt s ci with
            blocks := (chunkAt s ci).blocks.take (i - 1) ++
              [⟨PACK (GET_SIZE (blockAt (chunkAt s ci) (i - 1)).hdr
                  + blkSize (blockAt (chunkAt s ci) i)
                  + GET_SIZE (hdrRight (chunkAt s ci) i)) 0,
                PACK (GET_SIZE (blockAt (chunkAt s ci) (i - 1)).hdr
                  + blkSize (blockAt (chunkAt s ci) i)
                  + GET_SIZE (hdrRight (chunkAt s ci) i)) 0⟩] ++
              (chunkAt s ci).blocks.drop (i + 2) },
          free_list := s.free_list.erase (payloadAddr (chunkAt s ci) i
            + blkSize (blockAt (chunkAt s ci) i)) }))
    ∧ ∀ j a s2, coalesce s ci i = some (j, a, s2) →
        payloadAddr (chunkAt s2 ci) j = a
        ∧ blkAlloc (blockAt (chunkAt s2 ci) j) = 0
        ∧ s2.free_list.count a = 1
        ∧ GET_ALLOC (blockAt (chunkAt s2 ci) (j - 1)).hdr = 1
        ∧ GET_ALLOC (hdrRight (chunkAt s2 ci) j) = 1 := by
  refine ⟨coalesce_eq_case1 s ci i, coalesce_eq_case2 s ci i,
    coalesce_eq_case3 s ci i, coalesce_eq_case4 s ci i, ?_⟩
  intro j a s2 hco
  have hPq := hP
  obtain ⟨hwf, hcount, hmult, hps, hpos, hord, hnext, hnb, hnd, hf1, hf2,
    hnoadjP, herr, hci, hi, hilen, hfree⟩ := hPq
  have hwfc := hwf _ (chunkAt_mem s ci hci)
  have hpinotmem : payloadAddr (chunkAt s ci) i ∉ s.free_list := by
    intro hmem
    exact (hf1 _ hmem).2 rfl
  rcases getalloc_cases (blockAt (chunkAt s ci) (i - 1)).hdr with hl | hl <;>
    rcases getalloc_cases (hdrRight (chunkAt s ci) i) with hr | hr
  · -- case 4: both free
    have hge2 := lfree_ge2 _ hwfc i hi hl
    have hipl := rfree_interior _ hwfc i hilen hr
    have her : hdrRight (chunkAt s ci) i
        = (blockAt (chunkAt s ci) (i + 1)).hdr := hdrRight_eq _ _ hipl
    have hm16 : 16 ∣ GET_SIZE (blockAt (chunkAt s ci) (i - 1)).hdr
        + blkSize (blockAt (chunkAt s ci) i)
        + GET_SIZE (hdrRight (chunkAt s ci) i) :=
      Nat.dvd_add (Nat.dvd_add (getsize_dvd _) (tagok_size_dvd _))
        (getsize_dvd _)
    rw [coalesce_eq_case4 s ci i hl hr] at hco
    have h3 := Option.some.inj hco
    injection h3 with h4 h5
    injection h5 with h6 h7
    subst h4
    subst h6
    subst h7
    rw [show i + 2 = i - 1 + 3 from by omega]
    rw [chunkAt_set_self s ci _ _ hci]
    have hrA : payloadAddr (chunkAt s ci) i
        + blkSize (blockAt (chunkAt s ci) i)
        = payloadAddr (chunkAt s ci) (i + 1) :=
      (payloadAddr_succ _ i hilen).symm
    refine ⟨?_, ?_, ?_, ?_, ?_⟩
    · rw [payloadAddr_splice_le _ _ (i - 1) 3 (i - 1) (by omega) (by omega)]
    · unfold blockAt
      rw [splice1_getD_at _ _ (i - 1) 3 _ (by omega)]
      exact blkAlloc_pack_zero _ _ hm16
    · show (s.free_list.erase _).count _ = 1
      have hlmem : payloadAddr (chunkAt s ci) (i - 1) ∈ s.free_list :=
        hf2 ci hci (i - 1) (by omega) (by omega) hl (by omega)
      have hlne : payloadAddr (chunkAt s ci) (i - 1)
          ≠ payloadAddr (chunkAt s ci) i
            + blkSize (blockAt (chunkAt s ci) i) := by
        rw [hrA]
        intro heq
        have := payloadAddr_inj s hwf hord ci (i - 1) ci (i + 1) hci
          (by omega) (by omega) hci (by omega) hipl heq
        omega
      exact List.count_eq_one_of_mem (hnd.erase _)
        ((List.Nodup.mem_erase_iff hnd).mpr ⟨hlne, hlmem⟩)
    · rw [show i - 1 - 1 = i - 2 from by omega]
      unfold blockAt
      rw [splice_getD_lt _ _ (i - 1) 3 (i - 2) _ (by omega) (by omega)]
      have hpair := hnoadjP ci hci (i - 2) (by omega) (fun _ => by omega)
      rcases hpair with h | h
      · exact h
      · exfalso
        rw [show i - 2 + 1 = i - 1 from by omega] at h
        have e : blkAlloc ((chunkAt s ci).blocks.getD (i - 1) ⟨0, 0⟩)
            = GET_ALLOC (blockAt (chunkAt s ci) (i - 1)).hdr := rfl
        omega
    · rcases Nat.lt_or_ge (i + 2) (chunkAt s ci).blocks.length with hc | hc
      · rw [hdrRight_eq _ (i - 1) (by
          show i - 1 + 1 < (_ : List Block).length
          rw [splice_length _ _ (i - 1) 3 (by omega)]
          simp only [List.length_cons, List.length_nil]
          omega)]
        rw [show i - 1 + 1 = i from by omega]
        unfold blockAt
        rw [splice1_getD_ge _ _ (i - 1) 3 i _ (by omega) (by omega)]
        rw [show i - 1 + 3 = i + 2 from by omega]
        have hpair := hnoadjP ci hci (i + 1) (by omega) (fun _ => by omega)
        rcases hpair with h | h
        · exfalso
          rw [her] at hr
          have e : blkAlloc ((chunkAt s ci).blocks.getD (i + 1) ⟨0, 0⟩)
              = GET_ALLOC (blockAt (chunkAt s ci) (i + 1)).hdr := rfl
          omega
        · exact h
      · rw [hdrRight_term _ (i - 1) (by
          show (_ : List Block).length = i - 1 + 1
          rw [splice_length _ _ (i - 1) 3 (by omega)]
          simp only [List.length_cons, List.length_nil]
          omega)]
        show GET_ALLOC (chunkAt s ci).termHdr = 1
        rw [hwfc.2.1]
        rfl
  · -- case 2: left free, right allocated
    have hge2 := lfree_ge2 _ hwfc i hi hl
    have hm16 : 16 ∣ GET_SIZE (blockAt (chunkAt s ci) (i - 1)).hdr
        + blkSize (blockAt (chunkAt s ci) i) :=
      Nat.dvd_add (getsize_dvd _) (tagok_size_dvd _)
    rw [coalesce_eq_case2 s ci i hl hr] at hco
    have h3 := Option.some.inj hco
    injection h3 with h4 h5
    injection h5 with h6 h7
    subst h4
    subst h6
    subst h7
    rw [show i + 1 = i - 1 + 2 from by omega]
    rw [chunkAt_set_only s ci _ hci]
    refine ⟨?_, ?_, ?_, ?_, ?_⟩
    · rw [payloadAddr_splice_le _ _ (i - 1) 2 (i - 1) (by omega) (by omega)]
    · unfold blockAt
      rw [splice1_getD_at _ _ (i - 1) 2 _ (by omega)]
      exact blkAlloc_pack_zero _ _ hm16
    · show s.free_list.count _ = 1
      have hlmem : payloadAddr (chunkAt s ci) (i - 1) ∈ s.free_list :=
        hf2 ci hci (i - 1) (by omega) (by omega) hl (by omega)
      exact List.count_eq_one_of_mem hnd hlmem
    · rw [show i - 1 - 1 = i - 2 from by omega]
      unfold blockAt
      rw [splice_getD_lt _ _ (i - 1) 2 (i - 2) _ (by omega) (by omega)]
      have hpair := hnoadjP ci hci (i - 2) (by omega) (fun _ => by omega)
      rcases hpair with h | h
      · exact h
      · exfalso
        rw [show i - 2 + 1 = i - 1 from by omega] at h
        have e : blkAlloc ((chunkAt s ci).blocks.getD (i - 1) ⟨0, 0⟩)
            = GET_ALLOC (blockAt (chunkAt s ci) (i - 1)).hdr := rfl
        omega
    · rcases Nat.lt_or_ge (i + 1) (chunkAt s ci).blocks.length with hc | hc
      · rw [hdrRight_eq _ (i - 1) (by
          show i - 1 + 1 < (_ : List Block).length
          rw [splice_length _ _ (i - 1) 2 (by omega)]
          simp only [List.length_cons, List.length_nil]
          omega)]
        rw [show i - 1 + 1 = i from by omega]
        unfold blockAt
        rw [splice1_getD_ge _ _ (i - 1) 2 i _ (by omega) (by omega)]
        rw [show i - 1 + 2 = i + 1 from by omega]
        rw [hdrRight_eq _ _ hc] at hr
        exact hr
      · rw [hdrRight_term _ (i - 1) (by
          show (_ : List Block).length = i - 1 + 1
          rw [splice_length _ _ (i - 1) 2 (by omega)]
          simp only [List.length_cons, List.length_nil]
          omega)]
        show GET_ALLOC (chunkAt s ci).termHdr = 1
        have hlen : (chunkAt s ci).blocks.length = i + 1 := by omega
        rw [hdrRight_term _ _ hlen] at hr
        exact hr
  · -- case 3: right free, left allocated
    have hipl := rfree_interior _ hwfc i hilen hr
    have her : hdrRight (chunkAt s ci) i
        = (blockAt (chunkAt s ci) (i + 1)).hdr := hdrRight_eq _ _ hipl
    have hm16 : 16 ∣ blkSize (blockAt (chunkAt s ci) i)
        + GET_SIZE (hdrRight (chunkAt s ci) i) :=
      Nat.dvd_add (tagok_size_dvd _) (getsize_dvd _)
    rw [coalesce_eq_case3 s ci i hl hr] at hco
    have h3 := Option.some.inj hco
    injection h3 with h4 h5
    injection h5 with h6 h7
    subst h4
    subst h6
    subst h7
    rw [chunkAt_set_self s ci _ _ hci]
    refine ⟨?_, ?_, ?_, ?_, ?_⟩
    · rw [payloadAddr_splice_le _ _ i 2 i (by omega) (by omega)]
    · unfold blockAt
      rw [splice1_getD_at _ _ i 2 _ (by omega)]
      exact blkAlloc_pack_zero _ _ hm16
    · show (_ :: s.free_list.erase _).count _ = 1
      rw [List.count_cons_self]
      rw [List.count_eq_zero.mpr (fun hmem =>
        hpinotmem (List.mem_of_mem_erase hmem))]
    · unfold blockAt
      rw [splice_getD_lt _ _ i 2 (i - 1) _ (by omega) (by omega)]
      exact hl
    · rcases Nat.lt_or_ge (i + 2) (chunkAt s ci).blocks.length with hc | hc
      · rw [hdrRight_eq _ i (by
          show i + 1 < (_ : List Block).length
          rw [splice_length _ _ i 2 (by omega)]
          simp only [List.length_cons, List.length_nil]
          omega)]
        unfold blockAt
        rw [splice1_getD_ge _ _ i 2 (i + 1) _ (by omega) (by omega)]
        rw [show i + 1 - 1 + 2 = i + 2 from by omega]
        have hpair := hnoadjP ci hci (i + 1) (by omega) (fun _ => by omega)
        rcases hpair with h | h
        · exfalso
          rw [her] at hr
          have e : blkAlloc ((chunkAt s ci).blocks.getD (i + 1) ⟨0, 0⟩)
              = GET_ALLOC (blockAt (chunkAt s ci) (i + 1)).hdr := rfl
          omega
        · exact h
      · rw [hdrRight_term _ i (by
          show (_ : List Block).length = i + 1
          rw [splice_length _ _ i 2 (by omega)]
          simp only [List.length_cons, List.length_nil]
          omega)]
        show GET_ALLOC (chunkAt s ci).termHdr = 1
        rw [hwfc.2.1]
        rfl
  · -- case 1: no free neighbours
    rw [coalesce_eq_case1 s ci i hl hr] at hco
    have h3 := Option.some.inj hco
    injection h3 with h4 h5
    injection h5 with h6 h7
    subst h4
    subst h6
    subst h7
    refine ⟨rfl, hfree, ?_, hl, hr⟩
    show (_ :: s.free_list).count _ = 1
    rw [List.count_cons_self, List.count_eq_zero.mpr hpinotmem]

/-- The concrete scenario state `c3state` is a valid mid-free state for
block 1 of its single chunk. -/
theorem precoalesce_c3state : PreCoalesce c3state 0 1 := by
  refine ⟨by decide, by decide, by decide, by decide, by decide, by decide,
    by decide, by decide, by decide, ?_, ?_, ?_, by decide, by decide,
    by decide, by decide, by decide⟩
  · intro a ha
    exact absurd ha (List.not_mem_nil a)
  · intro cj hcj j hjlen hj hfr hne
    have h1 : c3state.chunks.length = 1 := rfl
    have hcj0 : cj = 0 := by omega
    subst hcj0
    have h3 : (chunkAt c3state 0).blocks.length = 3 := rfl
    have hj2 : j = 1 ∨ j = 2 := by omega
    rcases hj2 with h | h
    · exact absurd ⟨rfl, h⟩ hne
    · subst h
      have he : blkAlloc (blockAt (chunkAt c3state 0) 2) = 1 := by decide
      omega
  · intro cj hcj j hjlen hne
    have h1 : c3state.chunks.length = 1 := rfl
    have hcj0 : cj = 0 := by omega
    subst hcj0
    have h3 : (chunkAt c3state 0).blocks.length = 3 := rfl
    obtain ⟨hne0, hne1⟩ := hne rfl
    omega

/-- C3 witness: the no-free-neighbour row of the table at the concrete
mid-free state. -/
theorem c3_coalesce_cases_witness :
    coalesce c3state 0 1 = some (1, payloadAddr (chunkAt c3state 0) 1,
      { c3state with free_list :=
          payloadAddr (chunkAt c3state 0) 1 :: c3state.free_list }) :=
  (c3_coalesce_cases c3state 0 1 precoalesce_c3state).1 (by decide)
    (by decide)

/-- A first-fit hit: the returned pointer was a node of the walked list,
its block was found and fits, and the final state is `allocate` on it. -/
theorem ffbAux_hit (s : AllocState) (reqsize : Nat) :
    ∀ l p s2, ffbAux s reqsize l = some (some p, s2) →
      p ∈ l ∧ ∃ ci i, findBlock s p = some (ci, i)
        ∧ reqsize ≤ blkSize (blockAt (chunkAt s ci) i)
        ∧ s2 = allocate s ci i reqsize := by
  intro l
  induction l with
  | nil =>
    intro p s2 h
    replace h : some ((none : Option Nat), s) = some (some p, s2) := h
    simp at h
  | cons n rest ih =>
    intro p s2 h
    unfold ffbAux at h
    cases hfb : findBlock s n with
    | none =>
      rw [hfb] at h
      exact absurd h (by simp)
    | some t =>
      obtain ⟨ci, i⟩ := t
      rw [hfb] at h
      replace h : (if reqsize ≤ blkSize (blockAt (chunkAt s ci) i)
          then some (some n, allocate s ci i reqsize)
          else ffbAux s reqsize rest) = some (some p, s2) := h
      by_cases hle : reqsize ≤ blkSize (blockAt (chunkAt s ci) i)
      · rw [if_pos hle] at h
        have h2 := Option.some.inj h
        injection h2 with h3 h4
        have h5 := Option.some.inj h3
        subst h5
        refine ⟨List.mem_cons_self n rest, ci, i, hfb, hle, h4.symm⟩
      · rw [if_neg hle] at h
        obtain ⟨hmem, hrest⟩ := ih p s2 h
        exact ⟨List.mem_cons_of_mem n hmem, hrest⟩

/-- What `allocate` leaves at the chosen index: same payload address, the
allocated bit set, and a size of at least the request. -/
theorem allocate_result (s : AllocState) (ci i size : Nat)
    (hci : ci < s.chunks.length) (hilen : i < (chunkAt s ci).blocks.length)
    (h16 : 16 ∣ size)
    (hle : size ≤ blkSize (blockAt (chunkAt s ci) i)) :
    ci < (allocate s ci i size).chunks.length
    ∧ i < (chunkAt (allocate s ci i size) ci).blocks.length
    ∧ payloadAddr (chunkAt (allocate s ci i size) ci) i
        = payloadAddr (chunkAt s ci) i
    ∧ blkAlloc (blockAt (chunkAt (allocate s ci i size) ci) i) = 1
    ∧ size ≤ blkSize (blockAt (chunkAt (allocate s ci i size) ci) i) := by
  have h16c : 16 ∣ blkSize (blockAt (chunkAt s ci) i) := tagok_size_dvd _
  by_cases hrem : MIN_BLOCK_SIZE ≤ blkSize (blockAt (chunkAt s ci) i) - size
  · rw [allocate_eq_split s ci i size hrem hilen h16]
    refine ⟨?_, ?_, ?_, ?_, ?_⟩
    · show ci < (s.chunks.set ci _).length
      rw [List.length_set]
      exact hci
    · rw [chunkAt_set_self s ci _ _ hci]
      show i < (_ : List Block).length
      rw [splice_length _ _ i 1 (by omega)]
      simp only [List.length_cons, List.length_nil]
      omega
    · rw [chunkAt_set_self s ci _ _ hci]
      rw [payloadAddr_splice_le _ _ i 1 i (by omega) (by omega)]
    · rw [chunkAt_set_self s ci _ _ hci]
      unfold blockAt
      rw [splice2_getD_at0 _ _ _ i 1 _ (by omega)]
      show GET_ALLOC (PACK size 1) = 1
      exact getalloc_pack_one size h16
    · rw [chunkAt_set_self s ci _ _ hci]
      unfold blockAt
      rw [splice2_getD_at0 _ _ _ i 1 _ (by omega)]
      show size ≤ GET_SIZE (PACK size 1)
      rw [getsize_pack_one size h16]
  · rw [allocate_eq_nosplit s ci i size hrem]
    refine ⟨?_, ?_, ?_, ?_, ?_⟩
    · show ci < (s.chunks.set ci _).length
      rw [List.length_set]
      exact hci
    · rw [chunkAt_set_self s ci _ _ hci]
      show i < (_ : List Block).length
      rw [splice_length _ _ i 1 (by omega)]
      simp only [List.length_cons, List.length_nil]
      omega
    · rw [chunkAt_set_self s ci _ _ hci]
      rw [payloadAddr_splice_le _ _ i 1 i (by omega) (by omega)]
    · rw [chunkAt_set_self s ci _ _ hci]
      unfold blockAt
      rw [splice1_getD_at _ _ i 1 _ (by omega)]
      show GET_ALLOC (PACK (blkSize (blockAt (chunkAt s ci) i)) 1) = 1
      exact getalloc_pack_one _ h16c
    · rw [chunkAt_set_self s ci _ _ hci]
      unfold blockAt
      rw [splice1_getD_at _ _ i 1 _ (by omega)]
      show size ≤ GET_SIZE (PACK (blkSize (blockAt (chunkAt s ci) i)) 1)
      rw [getsize_pack_one _ h16c]
      exact hle

/-- C7 counterexample: `mm_malloc(SIZE_MAX)` "succeeds" — it returns a
non-null, 16-aligned pointer — but the block behind it has size 16, so it
carries 0 writable payload bytes instead of `SIZE_MAX`. -/
theorem c7_sizemax_tiny_block :
    mallocP exBase (SIZE_MOD - 1) = some 1048608
    ∧ payloadAddr (chunkAt (mallocD exBase (SIZE_MOD - 1)) 0) 1 = 1048608
    ∧ blkSize (blockAt (chunkAt (mallocD exBase (SIZE_MOD - 1)) 0) 1) = 16
    ∧ ¬ (SIZE_MOD - 1) + OVERHEAD
        ≤ blkSize (blockAt (chunkAt (mallocD exBase (SIZE_MOD - 1)) 0) 1)
    := by
  refine ⟨by decide, by decide, by decide, by decide⟩

/-- C7 (amended: requests of at least 1 byte small enough
(`r + 31 < 2 ^ 30`) that neither the `size_t` rounding nor the `int`
narrowing of the rounded size truncates): a successful `mm_malloc` returns
a 16-aligned pointer to an allocated block whose size covers the request
plus both tags, so at least `r` writable payload bytes follow the
pointer. -/
theorem c7_malloc_pointer_guarantees (s : AllocState) (r p : Nat)
    (s' : AllocState) (hR : Reach s) (h1 : 1 ≤ r) (h2 : r + 31 < 2 ^ 30)
    (hstep : mm_malloc s r = some (some p, s')) :
    p % 16 = 0
    ∧ ∃ ci, ci < s'.chunks.length ∧ ∃ i, i < (chunkAt s' ci).blocks.length
        ∧ payloadAddr (chunkAt s' ci) i = p
        ∧ blkAlloc (blockAt (chunkAt s' ci) i) = 1
        ∧ r + OVERHEAD ≤ blkSize (blockAt (chunkAt s' ci) i) := by
  obtain ⟨hWF, hps25⟩ := reach_wf_ps s hR
  have e25 : (2 : Nat) ^ 25 = 33554432 := by norm_num
  have e30 : (2 : Nat) ^ 30 = 1073741824 := by norm_num
  have e31 : (2 : Nat) ^ 31 = 2147483648 := by norm_num
  have hs31 : (2 : Nat) ^ 31 < SIZE_MOD := by norm_num
  have hov : OVERHEAD = 16 := rfl
  have hpov : PAGE_OVERHEAD = 32 := rfl
  have h2' : r + 31 < SIZE_MOD := by omega
  have h16 := align_mod ((r + OVERHEAD) % SIZE_MOD)
  have h32 := align_min r h1 h2'
  have hge : r + OVERHEAD ≤ ALIGN ((r + OVERHEAD) % SIZE_MOD) := by
    have hmod : (r + OVERHEAD) % SIZE_MOD = r + OVERHEAD :=
      Nat.mod_eq_of_lt (by omega)
    rw [hmod]
    exact align_ge _ (by omega)
  have hup : ALIGN ((r + OVERHEAD) % SIZE_MOD) ≤ r + 31 := by
    have hle := align_le ((r + OVERHEAD) % SIZE_MOD)
    have hm : (r + OVERHEAD) % SIZE_MOD ≤ r + OVERHEAD := Nat.mod_le _ _
    omega
  have hm32 : s.map_multiplier ≤ 32 := by
    have h := hWF.2.2.1
    simp only [List.mem_cons, List.not_mem_nil, or_false] at h
    omega
  have hBE : s.map_multiplier * s.pagesize < 2 ^ 31 := by
    have := Nat.mul_le_mul hm32 hps25
    have e : (32 : Nat) * 2 ^ 25 = 1073741824 := by norm_num
    omega
  have hAE : PAGE_ALIGN s.pagesize
      (ALIGN ((r + OVERHEAD) % SIZE_MOD) + PAGE_OVERHEAD) < 2 ^ 31 := by
    have hlt := page_align_lt s.pagesize
      (ALIGN ((r + OVERHEAD) % SIZE_MOD) + PAGE_OVERHEAD) hWF.2.2.2.2.1
    omega
  have hsmE : ALIGN ((r + OVERHEAD) % SIZE_MOD) + PAGE_OVERHEAD < SIZE_MOD
      := by omega
  have hRs : toSizeT (toInt32 (ALIGN ((r + OVERHEAD) % SIZE_MOD)))
      = ALIGN ((r + OVERHEAD) % SIZE_MOD) :=
    toSizeT_small _ (by omega)
  replace hstep : (match find_free_block s
      (toSizeT (toInt32 (ALIGN ((r + OVERHEAD) % SIZE_MOD)))) with
    | none => none
    | some (some p0, s3) => some (some p0, s3)
    | some (none, s1) =>
      match extend s1
          (toSizeT (toInt32 (ALIGN ((r + OVERHEAD) % SIZE_MOD)))) with
      | (none, s3) => some (none, s3)
      | (some _, s3) =>
        find_free_block s3
          (toSizeT (toInt32 (ALIGN ((r + OVERHEAD) % SIZE_MOD)))))
      = some (some p, s') := hstep
  rw [hRs] at hstep
  cases hf : find_free_block s (ALIGN ((r + OVERHEAD) % SIZE_MOD)) with
  | none =>
    rw [hf] at hstep
    exact absurd hstep (by simp)
  | some t =>
    obtain ⟨op, s1⟩ := t
    rw [hf] at hstep
    cases op with
    | some p0 =>
      replace hstep : some (some p0, s1) = some (some p, s') := hstep
      have h3 := Option.some.inj hstep
      injection h3 with h4 h5
      rw [h4, h5] at hf
      obtain ⟨hmem, ci, i, hfb, hle, hs2⟩ :=
        ffbAux_hit s (ALIGN ((r + OVERHEAD) % SIZE_MOD)) s.free_list p s' hf
      obtain ⟨hci, hi, hilen, hpa⟩ := findBlock_sound s p ci i hfb
      subst hs2
      obtain ⟨g1, g2, g3, g4, g5⟩ := allocate_result s ci i
        (ALIGN ((r + OVERHEAD) % SIZE_MOD)) hci hilen h16 hle
      refine ⟨?_, ci, g1, i, g2, ?_, g4, ?_⟩
      · rw [← hpa]
        exact payloadAddr_align _ (hWF.1 _ (chunkAt_mem s ci hci)) i
      · rw [g3]
        exact hpa
      · omega
    | none =>
      have hs1 : s1 = s := ffbAux_none_state s _ s.free_list s1 hf
      subst hs1
      replace hstep : (match extend s1 (ALIGN ((r + OVERHEAD) % SIZE_MOD))
          with
        | (none, s3) => some (none, s3)
        | (some _, s3) =>
          find_free_block s3 (ALIGN ((r + OVERHEAD) % SIZE_MOD)))
          = some (some p, s') := hstep
      cases he : extend s1 (ALIGN ((r + OVERHEAD) % SIZE_MOD)) with
      | mk o s2 =>
        have hwf2 : StateWF s2 := by
          have h3 := (extend_wf s1 _ hWF h32 hsmE hAE hBE).1
          rw [he] at h3
          exact h3
        rw [he] at hstep
        cases o with
        | none =>
          replace hstep : some ((none : Option Nat), s2) = some (some p, s')
            := hstep
          simp at hstep
        | some bp =>
          replace hstep :
              find_free_block s2 (ALIGN ((r + OVERHEAD) % SIZE_MOD))
                = some (some p, s') := hstep
          obtain ⟨hmem, ci, i, hfb, hle, hs3⟩ :=
            ffbAux_hit s2 (ALIGN ((r + OVERHEAD) % SIZE_MOD)) s2.free_list
              p s' hstep
          obtain ⟨hci, hi, hilen, hpa⟩ := findBlock_sound s2 p ci i hfb
          subst hs3
          obtain ⟨g1, g2, g3, g4, g5⟩ := allocate_result s2 ci i
            (ALIGN ((r + OVERHEAD) % SIZE_MOD)) hci hilen h16 hle
          refine ⟨?_, ci, g1, i, g2, ?_, g4, ?_⟩
          · rw [← hpa]
            exact payloadAddr_align _ (hwf2.1 _ (chunkAt_mem s2 ci hci)) i
          · rw [g3]
            exact hpa
          · omega

/-- C7 witness: `mm_malloc 32` on the fresh heap. -/
theorem c7_malloc_pointer_guarantees_witness :
    (1048608 : Nat) % 16 = 0
    ∧ ∃ ci, ci < (mallocD exBase 32).chunks.length
        ∧ ∃ i, i < (chunkAt (mallocD exBase 32) ci).blocks.length
        ∧ payloadAddr (chunkAt (mallocD exBase 32) ci) i = 1048608
        ∧ blkAlloc (blockAt (chunkAt (mallocD exBase 32) ci) i) = 1
        ∧ 32 + OVERHEAD
            ≤ blkSize (blockAt (chunkAt (mallocD exBase 32) ci) i) :=
  c7_malloc_pointer_guarantees exBase 32 1048608 (mallocD exBase 32)
    (Reach.init 4096 1048576 1048576 ⟨12, by omega, by omega, rfl⟩ ⟨65536, rfl⟩)
    (by omega) (by decide)
    (show mm_malloc exBase 32 = some (some 1048608, mallocD exBase 32)
      from by decide)

/-- Final step of the round-trip argument: once the state after `mm_free`
is the conditional unmap of the target state, an unchanged chunk counter
forces the guard not to have fired. -/
theorem roundtrip_finish (s : AllocState) (p : Nat) (s2 : AllocState)
    (ci i : Nat)
    (hs2 : s2 = if 1 < ({ s with
        free_list := p :: s.free_list.erase p } : AllocState).num_page_chunks
      then try_unmap { s with free_list := p :: s.free_list.erase p } ci i
      else { s with free_list := p :: s.free_list.erase p })
    (hnoun : s2.num_page_chunks = s.num_page_chunks) :
    s2 = { s with free_list := p :: s.free_list.erase p } := by
  by_cases hn : 1 < s.num_page_chunks
  · rw [if_pos hn] at hs2
    by_cases hg : GET_SIZE (blockAt (chunkAt { s with
          free_list := p :: s.free_list.erase p } ci) (i - 1)).hdr = OVERHEAD
        ∧ hdrRight (chunkAt { s with
          free_list := p :: s.free_list.erase p } ci) i = 9
    · exfalso
      have hdec := try_unmap_num_of_guard _ ci i hg
      rw [← hs2] at hdec
      have hdec2 : s2.num_page_chunks = s.num_page_chunks - 1 := hdec
      omega
    · rw [try_unmap_noop _ ci i hg] at hs2
      exact hs2
  · rw [if_neg hn] at hs2
    exact hs2

/-- C8 counterexample: a round trip `p = mm_malloc 32; mm_free p` that
fits in the existing heap (no pager call) restores the chunks, tags and
count, but reorders the free list — the fitting block was not at its
head, and the free pushes it there. -/
theorem c8_roundtrip_reorders :
    mallocP exRt5 32 = some 1048608
    ∧ exRt6.mapLog = exRt5.mapLog
    ∧ mm_free exRt6 1048608 = some exRt7
    ∧ exRt7.chunks = exRt5.chunks
    ∧ exRt7.num_page_chunks = exRt5.num_page_chunks
    ∧ exRt5.free_list = [1048688, 1048608, 1048752]
    ∧ exRt7.free_list = [1048608, 1048688, 1048752]
    ∧ exRt7.free_list ≠ exRt5.free_list := by
  refine ⟨by decide, by decide, by decide, by decide, by decide, by decide,
    by decide, by decide⟩

/-- Decomposing a list at an index, `getD` form. -/
theorem list_decomp_getD (l : List α) (i : Nat) (d : α) (h : i < l.length) :
    l = l.take i ++ [l.getD i d] ++ l.drop (i + 1) := by
  rw [getD_eq_getElem l i d h]
  exact list_decomp l i h

/-- C8 (amended): for a request `n` in the range where the `int` narrowing
of `newsize` is exact (`n + 31 < 2 ^ 30`, so `ALIGN(n + OVERHEAD)` is also
the size the program searches with), when the request is served from the
existing heap (the first-fit search finds a block, so no pager call is
made) and the freeing does not unmap a chunk (the chunk count is
unchanged), the round trip `p = mm_malloc n; mm_free p` restores every
component of the state except that `p` now sits at the head of the free
list: the blocks and tags, the chunks, the counters, the multiplier and
the pager logs are all exactly those of the initial state. -/
theorem c8_roundtrip_headmove (s : AllocState) (n p : Nat)
    (s1 s2 : AllocState) (hWF : StateWF s) (h1 : 1 ≤ n)
    (h2 : n + 31 < 2 ^ 30)
    (hffb : find_free_block s (ALIGN ((n + OVERHEAD) % SIZE_MOD))
      = some (some p, s1))
    (hfree : mm_free s1 p = some s2)
    (hnoun : s2.num_page_chunks = s1.num_page_chunks) :
    s2 = { s with free_list := p :: s.free_list.erase p } := by
  have hs30 : (2 : Nat) ^ 30 < SIZE_MOD := by norm_num
  have h16 : 16 ∣ ALIGN ((n + OVERHEAD) % SIZE_MOD) := align_mod _
  have h32 : MIN_BLOCK_SIZE ≤ ALIGN ((n + OVERHEAD) % SIZE_MOD) :=
    align_min n h1 (by omega)
  obtain ⟨hmem, ci, i, hfb, hle, hs1⟩ :=
    ffbAux_hit s (ALIGN ((n + OVERHEAD) % SIZE_MOD)) s.free_list p s1 hffb
  obtain ⟨hci, hi, hilen, hpa⟩ := findBlock_sound s p ci i hfb
  generalize hN : ALIGN ((n + OVERHEAD) % SIZE_MOD) = N at h16 h32 hle hs1
  subst hs1
  have hWFq := hWF
  obtain ⟨hwf, hcount, hmult, hps, hpos, hord, hnext, hnb, hnd, hfl1, hfl2,
    hnoadj, herr⟩ := hWFq
  have hwfc := hwf _ (chunkAt_mem s ci hci)
  have hmbs : MIN_BLOCK_SIZE = 32 := rfl
  have hfree0 : blkAlloc (blockAt (chunkAt s ci) i) = 0 := by
    obtain ⟨cj, hcj, j, hjlen, hj, hfr, hpa2⟩ := hfl1 p hmem
    obtain ⟨e1, e2⟩ := payloadAddr_inj s hwf hord cj j ci i hcj hj hjlen hci
      hi hilen (by rw [hpa2, hpa])
    rw [← e1, ← e2]
    exact hfr
  have hlalloc : GET_ALLOC (blockAt (chunkAt s ci) (i - 1)).hdr = 1 := by
    rcases Nat.lt_or_ge i 2 with hlt | hge
    · have hieq : i = 1 := by omega
      rw [hieq, show (1 : Nat) - 1 = 0 from rfl, blockAt_sentinel _ hwfc]
      rfl
    · have hpair := hnoadj _ (chunkAt_mem s ci hci) (i - 1) (by omega)
      rcases hpair with h | h
      · have e : blkAlloc ((chunkAt s ci).blocks.getD (i - 1) ⟨0, 0⟩)
            = GET_ALLOC (blockAt (chunkAt s ci) (i - 1)).hdr := rfl
        omega
      · exfalso
        rw [show i - 1 + 1 = i from by omega] at h
        have e : blkAlloc ((chunkAt s ci).blocks.getD i ⟨0, 0⟩)
            = blkAlloc (blockAt (chunkAt s ci) i) := rfl
        omega
  have hralloc : GET_ALLOC (hdrRight (chunkAt s ci) i) = 1 := by
    rcases Nat.lt_or_ge (i + 1) (chunkAt s ci).blocks.length with hlt | hge
    · rw [hdrRight_eq _ _ hlt]
      have hpair := hnoadj _ (chunkAt_mem s ci hci) i (by omega)
      rcases hpair with h | h
      · exfalso
        have e : blkAlloc ((chunkAt s ci).blocks.getD i ⟨0, 0⟩)
            = blkAlloc (blockAt (chunkAt s ci) i) := rfl
        omega
      · have e : blkAlloc ((chunkAt s ci).blocks.getD (i + 1) ⟨0, 0⟩)
            = GET_ALLOC (blockAt (chunkAt s ci) (i + 1)).hdr := rfl
        omega
    · rw [hdrRight_term _ _ (by omega), hwfc.2.1]
      rfl
  have htag := blockAt_tagok _ hwfc i hi hilen
  have hhdr : (blockAt (chunkAt s ci) i).hdr
      = blkSize (blockAt (chunkAt s ci) i) := by
    have e : blkAlloc (blockAt (chunkAt s ci) i)
        = (blockAt (chunkAt s ci) i).hdr % 2 := rfl
    have ht2 := htag.2.1
    show _ = GET_SIZE _
    rw [getsize_eq]
    omega
  have hblkD : (⟨PACK (blkSize (blockAt (chunkAt s ci) i)) 0,
      PACK (blkSize (blockAt (chunkAt s ci) i)) 0⟩ : Block)
      = (chunkAt s ci).blocks.getD i ⟨0, 0⟩ := by
    rw [pack_zero]
    show (⟨blkSize (blockAt (chunkAt s ci) i),
      blkSize (blockAt (chunkAt s ci) i)⟩ : Block)
      = ⟨(blockAt (chunkAt s ci) i).hdr, (blockAt (chunkAt s ci) i).ftr⟩
    rw [htag.1, hhdr]
  have h16c : 16 ∣ blkSize (blockAt (chunkAt s ci) i) := tagok_size_dvd _
  have hdecomp2 := list_decomp_getD (chunkAt s ci).blocks i ⟨0, 0⟩ hilen
  by_cases hrem : MIN_BLOCK_SIZE ≤ blkSize (blockAt (chunkAt s ci) i) - N
  · -- the chosen block is split; the free merges the remainder back
    have ha := allocate_eq_split s ci i N hrem hilen h16
    rw [hpa] at ha
    have hflx : del_free (add_free s.free_list (p + N)) p
        = (p + N) :: s.free_list.erase p := by
      show ((p + N) :: s.free_list).erase p = _
      exact List.erase_cons_tail (by simp; omega)
    rw [hflx] at ha
    have hnum1 : (allocate s ci i N).num_page_chunks = s.num_page_chunks
        := by
      rw [ha]
    have hWF1 := allocate_wf s ci i N hWF hci hi hilen hfree0 h32 h16 hle
    have hfb1 : findBlock (allocate s ci i N) p = some (ci, i) := by
      rw [ha] at hWF1 ⊢
      have hpa1 : payloadAddr (chunkAt { s with
          chunks := s.chunks.set ci { chunkAt s ci with
            blocks := (chunkAt s ci).blocks.take i ++
              [⟨PACK N 1, PACK N 1⟩,
               ⟨PACK (blkSize (blockAt (chunkAt s ci) i) - N) 0,
                PACK (blkSize (blockAt (chunkAt s ci) i) - N) 0⟩] ++
              (chunkAt s ci).blocks.drop (i + 1) },
          free_list := (p + N) :: s.free_list.erase p } ci) i = p := by
        rw [chunkAt_set_self s ci _ _ hci,
          payloadAddr_splice_le _ _ i 1 i (by omega) (by omega)]
        exact hpa
      rw [← hpa1]
      refine findBlock_payload _ hWF1.1 hWF1.2.2.2.2.2.1 ci i ?_ hi ?_
      · show ci < (s.chunks.set ci _).length
        rw [List.length_set]
        exact hci
      · rw [chunkAt_set_self s ci _ _ hci]
        show i < (_ : List Block).length
        rw [splice_length _ _ i 1 (by omega)]
        simp only [List.length_cons, List.length_nil]
        omega
    have hT : clearTags (allocate s ci i N) ci i = { s with
        chunks := s.chunks.set ci { chunkAt s ci with
          blocks := (chunkAt s ci).blocks.take i ++
            [⟨PACK N 0, PACK N 0⟩,
             ⟨PACK (blkSize (blockAt (chunkAt s ci) i) - N) 0,
              PACK (blkSize (blockAt (chunkAt s ci) i) - N) 0⟩] ++
            (chunkAt s ci).blocks.drop (i + 1) },
        free_list := (p + N) :: s.free_list.erase p } := by
      rw [ha]
      unfold clearTags
      rw [chunkAt_set_self s ci _ _ hci]
      have e1 : blockAt { chunkAt s ci with
          blocks := (chunkAt s ci).blocks.take i ++
            [⟨PACK N 1, PACK N 1⟩,
             ⟨PACK (blkSize (blockAt (chunkAt s ci) i) - N) 0,
              PACK (blkSize (blockAt (chunkAt s ci) i) - N) 0⟩] ++
            (chunkAt s ci).blocks.drop (i + 1) } i
          = ⟨PACK N 1, PACK N 1⟩ := by
        unfold blockAt
        simp only []
        rw [splice2_getD_at0 _ _ _ i 1 _ (by omega)]
      rw [e1]
      have e2 : blkSize (⟨PACK N 1, PACK N 1⟩ : Block) = N :=
        getsize_pack_one N h16
      rw [e2]
      simp only []
      rw [splice_take _ _ i 1 i (le_refl i) (by omega)]
      rw [splice_drop _ _ i 1 1 (by simp) (by omega)]
      rw [show ([⟨PACK N 1, PACK N 1⟩,
          ⟨PACK (blkSize (blockAt (chunkAt s ci) i) - N) 0,
           PACK (blkSize (blockAt (chunkAt s ci) i) - N) 0⟩]
            : List Block).drop 1
        = [⟨PACK (blkSize (blockAt (chunkAt s ci) i) - N) 0,
           PACK (blkSize (blockAt (chunkAt s ci) i) - N) 0⟩] from rfl]
      rw [List.set_set]
      simp only [List.append_assoc, List.cons_append, List.nil_append]
    unfold mm_free at hfree
    rw [hfb1] at hfree
    replace hfree : (match coalesce (clearTags (allocate s ci i N) ci i) ci i
        with
      | none => none
      | some (j, _, s3) =>
        some (if 1 < s3.num_page_chunks then try_unmap s3 ci j else s3))
        = some s2 := hfree
    rw [hT] at hfree
    have hcT : chunkAt ({ s with
        chunks := s.chunks.set ci { chunkAt s ci with
          blocks := (chunkAt s ci).blocks.take i ++
            [⟨PACK N 0, PACK N 0⟩,
             ⟨PACK (blkSize (blockAt (chunkAt s ci) i) - N) 0,
              PACK (blkSize (blockAt (chunkAt s ci) i) - N) 0⟩] ++
            (chunkAt s ci).blocks.drop (i + 1) },
        free_list := (p + N) :: s.free_list.erase p } : AllocState) ci
        = { chunkAt s ci with
          blocks := (chunkAt s ci).blocks.take i ++
            [⟨PACK N 0, PACK N 0⟩,
             ⟨PACK (blkSize (blockAt (chunkAt s ci) i) - N) 0,
              PACK (blkSize (blockAt (chunkAt s ci) i) - N) 0⟩] ++
            (chunkAt s ci).blocks.drop (i + 1) } :=
      chunkAt_set_self s ci _ _ hci
    have hl3 : GET_ALLOC (blockAt (chunkAt ({ s with
        chunks := s.chunks.set ci { chunkAt s ci with
          blocks := (chunkAt s ci).blocks.take i ++
            [⟨PACK N 0, PACK N 0⟩,
             ⟨PACK (blkSize (blockAt (chunkAt s ci) i) - N) 0,
              PACK (blkSize (blockAt (chunkAt s ci) i) - N) 0⟩] ++
            (chunkAt s ci).blocks.drop (i + 1) },
        free_list := (p + N) :: s.free_list.erase p } : AllocState) ci)
        (i - 1)).hdr = 1 := by
      rw [hcT]
      unfold blockAt
      simp only []
      rw [splice_getD_lt _ _ i 1 (i - 1) _ (by omega) (by omega)]
      exact hlalloc
    have hr3 : GET_ALLOC (hdrRight (chunkAt ({ s with
        chunks := s.chunks.set ci { chunkAt s ci with
          blocks := (chunkAt s ci).blocks.take i ++
            [⟨PACK N 0, PACK N 0⟩,
             ⟨PACK (blkSize (blockAt (chunkAt s ci) i) - N) 0,
              PACK (blkSize (blockAt (chunkAt s ci) i) - N) 0⟩] ++
            (chunkAt s ci).blocks.drop (i + 1) },
        free_list := (p + N) :: s.free_list.erase p } : AllocState) ci) i)
        = 0 := by
      rw [hcT]
      rw [hdrRight_eq _ i (by
        show i + 1 < (_ : List Block).length
        rw [splice_length _ _ i 1 (by omega)]
        simp only [List.length_cons, List.length_nil]
        omega)]
      unfold blockAt
      simp only []
      rw [splice2_getD_at1 _ _ _ i 1 _ (by omega)]
      exact getalloc_pack_zero _ (Nat.dvd_sub' h16c h16)
    rw [coalesce_eq_case3 _ ci i hl3 hr3] at hfree
    have hs2' := (Option.some.inj hfree).symm
    rw [hcT] at hs2'
    have eA : blockAt ({ chunkAt s ci with
        blocks := (chunkAt s ci).blocks.take i ++
          [⟨PACK N 0, PACK N 0⟩,
           ⟨PACK (blkSize (blockAt (chunkAt s ci) i) - N) 0,
            PACK (blkSize (blockAt (chunkAt s ci) i) - N) 0⟩] ++
          (chunkAt s ci).blocks.drop (i + 1) } : Chunk) i
        = ⟨PACK N 0, PACK N 0⟩ := by
      unfold blockAt
      simp only []
      rw [splice2_getD_at0 _ _ _ i 1 _ (by omega)]
    rw [eA] at hs2'
    have eB : blkSize (⟨PACK N 0, PACK N 0⟩ : Block) = N :=
      getsize_pack_zero N h16
    rw [eB] at hs2'
    have eH : hdrRight ({ chunkAt s ci with
        blocks := (chunkAt s ci).blocks.take i ++
          [⟨PACK N 0, PACK N 0⟩,
           ⟨PACK (blkSize (blockAt (chunkAt s ci) i) - N) 0,
            PACK (blkSize (blockAt (chunkAt s ci) i) - N) 0⟩] ++
          (chunkAt s ci).blocks.drop (i + 1) } : Chunk) i
        = PACK (blkSize (blockAt (chunkAt s ci) i) - N) 0 := by
      rw [hdrRight_eq _ i (by
        show i + 1 < (_ : List Block).length
        rw [splice_length _ _ i 1 (by omega)]
        simp only [List.length_cons, List.length_nil]
        omega)]
      unfold blockAt
      simp only []
      rw [splice2_getD_at1 _ _ _ i 1 _ (by omega)]
    rw [eH] at hs2'
    have eG : GET_SIZE (PACK (blkSize (blockAt (chunkAt s ci) i) - N) 0)
        = blkSize (blockAt (chunkAt s ci) i) - N :=
      getsize_pack_zero _ (Nat.dvd_sub' h16c h16)
    rw [eG] at hs2'
    have eM : N + (blkSize (blockAt (chunkAt s ci) i) - N)
        = blkSize (blockAt (chunkAt s ci) i) := by omega
    rw [eM] at hs2'
    have ePA : payloadAddr ({ chunkAt s ci with
        blocks := (chunkAt s ci).blocks.take i ++
          [⟨PACK N 0, PACK N 0⟩,
           ⟨PACK (blkSize (blockAt (chunkAt s ci) i) - N) 0,
            PACK (blkSize (blockAt (chunkAt s ci) i) - N) 0⟩] ++
          (chunkAt s ci).blocks.drop (i + 1) } : Chunk) i = p := by
      rw [payloadAddr_splice_le _ _ i 1 i (by omega) (by omega)]
      exact hpa
    rw [ePA] at hs2'
    simp only [] at hs2'
    rw [splice_take _ _ i 1 i (le_refl i) (by omega)] at hs2'
    rw [splice_drop _ _ i 1 2 (by simp) (by omega)] at hs2'
    rw [show ([⟨PACK N 0, PACK N 0⟩,
        ⟨PACK (blkSize (blockAt (chunkAt s ci) i) - N) 0,
         PACK (blkSize (blockAt (chunkAt s ci) i) - N) 0⟩]
          : List Block).drop 2 = [] from rfl] at hs2'
    rw [List.nil_append] at hs2'
    rw [hblkD] at hs2'
    rw [← hdecomp2] at hs2'
    rw [List.set_set] at hs2'
    have e9 : s.chunks.set ci
        ⟨(chunkAt s ci).base, (chunkAt s ci).csize, (chunkAt s ci).blocks,
          (chunkAt s ci).termHdr⟩ = s.chunks := by
      show s.chunks.set ci (s.chunks.getD ci emptyChunk) = s.chunks
      exact set_getD_self _ _ _ hci
    rw [e9] at hs2'
    rw [List.erase_cons_head] at hs2'
    exact roundtrip_finish s p s2 ci i hs2' (hnoun.trans hnum1)
  · -- exact fit: the block is handed back unsplit and re-freed unmerged
    have ha := allocate_eq_nosplit s ci i N hrem
    rw [hpa] at ha
    have hflx : del_free s.free_list p = s.free_list.erase p := rfl
    rw [hflx] at ha
    have hnum1 : (allocate s ci i N).num_page_chunks = s.num_page_chunks
        := by
      rw [ha]
    have hWF1 := allocate_wf s ci i N hWF hci hi hilen hfree0 h32 h16 hle
    have hfb1 : findBlock (allocate s ci i N) p = some (ci, i) := by
      rw [ha] at hWF1 ⊢
      have hpa1 : payloadAddr (chunkAt { s with
          chunks := s.chunks.set ci { chunkAt s ci with
            blocks := (chunkAt s ci).blocks.take i ++
              [⟨PACK (blkSize (blockAt (chunkAt s ci) i)) 1,
                PACK (blkSize (blockAt (chunkAt s ci) i)) 1⟩] ++
              (chunkAt s ci).blocks.drop (i + 1) },
          free_list := s.free_list.erase p } ci) i = p := by
        rw [chunkAt_set_self s ci _ _ hci,
          payloadAddr_splice_le _ _ i 1 i (by omega) (by omega)]
        exact hpa
      rw [← hpa1]
      refine findBlock_payload _ hWF1.1 hWF1.2.2.2.2.2.1 ci i ?_ hi ?_
      · show ci < (s.chunks.set ci _).length
        rw [List.length_set]
        exact hci
      · rw [chunkAt_set_self s ci _ _ hci]
        show i < (_ : List Block).length
        rw [splice_length _ _ i 1 (by omega)]
        simp only [List.length_cons, List.length_nil]
        omega
    have hT : clearTags (allocate s ci i N) ci i
        = { s with free_list := s.free_list.erase p } := by
      rw [ha]
      unfold clearTags
      rw [chunkAt_set_self s ci _ _ hci]
      have e1 : blockAt { chunkAt s ci with
          blocks := (chunkAt s ci).blocks.take i ++
            [⟨PACK (blkSize (blockAt (chunkAt s ci) i)) 1,
              PACK (blkSize (blockAt (chunkAt s ci) i)) 1⟩] ++
            (chunkAt s ci).blocks.drop (i + 1) } i
          = ⟨PACK (blkSize (blockAt (chunkAt s ci) i)) 1,
             PACK (blkSize (blockAt (chunkAt s ci) i)) 1⟩ := by
        unfold blockAt
        simp only []
        rw [splice1_getD_at _ _ i 1 _ (by omega)]
      rw [e1]
      have e2 : blkSize (⟨PACK (blkSize (blockAt (chunkAt s ci) i)) 1,
          PACK (blkSize (blockAt (chunkAt s ci) i)) 1⟩ : Block)
          = blkSize (blockAt (chunkAt s ci) i) :=
        getsize_pack_one _ h16c
      rw [e2]
      simp only []
      rw [splice_take _ _ i 1 i (le_refl i) (by omega)]
      rw [splice_drop _ _ i 1 1 (by simp) (by omega)]
      rw [show ([⟨PACK (blkSize (blockAt (chunkAt s ci) i)) 1,
          PACK (blkSize (blockAt (chunkAt s ci) i)) 1⟩] : List Block).drop 1
        = [] from rfl]
      rw [List.nil_append]
      rw [hblkD]
      rw [← hdecomp2]
      rw [List.set_set]
      have e9 : s.chunks.set ci
          ⟨(chunkAt s ci).base, (chunkAt s ci).csize, (chunkAt s ci).blocks,
            (chunkAt s ci).termHdr⟩ = s.chunks := by
        show s.chunks.set ci (s.chunks.getD ci emptyChunk) = s.chunks
        exact set_getD_self _ _ _ hci
      rw [e9]
    unfold mm_free at hfree
    rw [hfb1] at hfree
    replace hfree : (match coalesce (clearTags (allocate s ci i N) ci i) ci i
        with
      | none => none
      | some (j, _, s3) =>
        some (if 1 < s3.num_page_chunks then try_unmap s3 ci j else s3))
        = some s2 := hfree
    rw [hT] at hfree
    rw [coalesce_eq_case1 { s with free_list := s.free_list.erase p } ci i
      hlalloc hralloc] at hfree
    have hs2' := (Option.some.inj hfree).symm
    have hpaT : payloadAddr (chunkAt ({ s with
        free_list := s.free_list.erase p } : AllocState) ci) i = p := hpa
    rw [hpaT] at hs2'
    exact roundtrip_finish s p s2 ci i hs2' (hnoun.trans hnum1)

theorem c8_roundtrip_headmove_witness :
    exRt7 = { exRt5 with
      free_list := 1048608 :: exRt5.free_list.erase 1048608 } :=
  c8_roundtrip_headmove exRt5 32 1048608 exRt6 exRt7
    (reach_wf exRt5
      (Reach.free
        (Reach.free
          (Reach.malloc
            (Reach.malloc
              (Reach.malloc
                (Reach.malloc
                  (Reach.init 4096 1048576 1048576 ⟨12, by omega, by omega, rfl⟩
                    ⟨65536, rfl⟩)
                  (by omega) (by decide)
                  (show mm_malloc exBase 32 = some (some 1048608, exRt0)
                    from by decide))
                (by omega) (by decide)
                (show mm_malloc exRt0 16 = some (some 1048656, exRt1)
                  from by decide))
              (by omega) (by decide)
              (show mm_malloc exRt1 16 = some (some 1048688, exRt2)
                from by decide))
            (by omega) (by decide)
            (show mm_malloc exRt2 16 = some (some 1048720, exRt3)
              from by decide))
          ⟨0, by decide, 1, by decide, by decide, by decide, by decide⟩
          (show mm_free exRt3 1048608 = some exRt4 from by decide))
        ⟨0, by decide, 3, by decide, by decide, by decide, by decide⟩
        (show mm_free exRt4 1048688 = some exRt5 from by decide)))
    (by omega) (by decide)
    (show find_free_block exRt5 (ALIGN ((32 + OVERHEAD) % SIZE_MOD))
      = some (some 1048608, exRt6) from by decide)
    (show mm_free exRt6 1048608 = some exRt7 from by decide)
    (by decide)
